import Mathlib

/-!
Touchscreen calibration calculator (`calibrate.c`).

A shallow embedding of `calibrate.c` and of the C library routines it calls
(`isspace`, `isdigit`, `strtol`, `atoi`, `sscanf "%dx%d"`, `getopt_long`),
followed by the properties proved about it.

Conventions.
* A C string is a `List Char` (the bytes before the terminating NUL).
* A C `int` is an `Int` kept in the range `[-2^31, 2^31)`; a `long` has 64 bits.
* A `float` or `double` is a sign bit and a rational magnitude; every operation
  rounds its exact result to 24 or 53 significant bits, to nearest, ties to even.
-/

namespace Calibrate

/-! ## C library -/

/-- A C string: the characters before the terminating NUL. -/
abbrev CStr := List Char

/-- Value range cast `(int)` applied to a `long`: keep the low 32 bits, signed. -/
def toInt32 (z : Int) : Int := (z + 2147483648) % 4294967296 - 2147483648

/-- Saturation of `strtol` to the range of a 64-bit `long`. -/
def clampLong (z : Int) : Int :=
  if z > 9223372036854775807 then 9223372036854775807
  else if z < -9223372036854775808 then -9223372036854775808
  else z

/-- The predicate `isspace` in the C locale. -/
def isspace (c : Char) : Bool :=
  c = ' ' || c = '\t' || c = '\n' || c.toNat = 11 || c.toNat = 12 || c = '\r'

/-- The predicate `isdigit`. -/
def isdigit (c : Char) : Bool := decide ('0'.toNat ≤ c.toNat) && decide (c.toNat ≤ '9'.toNat)

/-- Value of a digit in the given base, if the character is one. -/
def digitVal (base : Nat) (c : Char) : Option Nat :=
  let v : Option Nat :=
    if '0'.toNat ≤ c.toNat ∧ c.toNat ≤ '9'.toNat then some (c.toNat - '0'.toNat)
    else if 'a'.toNat ≤ c.toNat ∧ c.toNat ≤ 'z'.toNat then some (c.toNat - 'a'.toNat + 10)
    else if 'A'.toNat ≤ c.toNat ∧ c.toNat ≤ 'Z'.toNat then some (c.toNat - 'A'.toNat + 10)
    else none
  match v with
  | some d => if d < base then some d else none
  | none => none

/-- Drop leading white space. -/
def skipSpace : CStr → CStr
  | [] => []
  | c :: cs => if isspace c then skipSpace cs else c :: cs

/-- Read the longest run of digits, accumulating onto `acc`; returns the value,
the number of digits read and the rest of the input. -/
def readDigits (base : Nat) : Nat → Nat → CStr → Nat × Nat × CStr
  | acc, n, [] => (acc, n, [])
  | acc, n, c :: cs =>
    match digitVal base c with
    | some d => readDigits base (acc * base + d) (n + 1) cs
    | none => (acc, n, c :: cs)

/-- An optional sign: returns whether it is a minus, and the rest. -/
def readSign : CStr → Bool × CStr
  | [] => (false, [])
  | c :: cs => if c = '-' then (true, cs) else if c = '+' then (false, cs) else (false, c :: cs)

/-- The signed value of a magnitude. -/
def applySign (neg : Bool) (m : Nat) : Int := if neg then -(m : Int) else (m : Int)

/-- The prefix `0x` or `0X` that `strtol` passes over in base 16. -/
def stripHexPrefix (s : CStr) : CStr :=
  match s with
  | [] => []
  | c :: cs =>
    if c = '0' then
      match cs with
      | [] => c :: cs
      | d :: ds => if d = 'x' ∨ d = 'X' then ds else c :: cs
    else c :: cs

/-- Function `strtol (s, NULL, base)` for base 10 or 16: the `long` it returns
(0 when no digits are found; saturated on overflow). -/
def strtol (s : CStr) (base : Nat) : Int :=
  let s1 := readSign (skipSpace s)
  let s2 : CStr := if base = 16 then stripHexPrefix s1.2 else s1.2
  clampLong (applySign s1.1 (readDigits base 0 0 s2).1)

/-- Function `atoi`, which is `(int) strtol (s, NULL, 10)`. -/
def atoi (s : CStr) : Int := toInt32 (strtol s 10)

/-- One `%d` conversion of `sscanf`: skips white space, then needs an optional
sign and at least one decimal digit. Returns the stored `int` and the rest. -/
def scanInt (s : CStr) : Option (Int × CStr) :=
  let (neg, s1) := readSign (skipSpace s)
  let (m, n, rest) := readDigits 10 0 0 s1
  if n = 0 then none else some (toInt32 (clampLong (applySign neg m)), rest)

/-! ## Data model -/

/-- The record `Screen`. -/
structure Screen where
  width : Int
  height : Int
  deriving DecidableEq, Repr

/-- The record `Touchscreen` (the `name` field is the index it was created at:
the buffer holds `touchscreen<index>`). -/
structure Touchscreen where
  name : Nat
  vendor_id : Int
  product_id : Int
  x_offset : Int
  y_offset : Int
  width : Int
  height : Int
  rotation : Int
  deriving DecidableEq, Repr

/-- Call `sscanf (arg, "%dx%d", &screen.width, &screen.height)`: the number of
conversions stored (-1 for end of input before the first) and the screen. -/
def sscanf_dxd (arg : CStr) (screen : Screen) : Int × Screen :=
  match scanInt arg with
  | none => (if skipSpace arg = [] then -1 else 0, screen)
  | some (w, r1) =>
    let sc1 : Screen := { screen with width := w }
    match r1 with
    | [] => (1, sc1)
    | c :: r2 =>
      if c = 'x' then
        match scanInt r2 with
        | none => (1, sc1)
        | some (h, _) => (2, { sc1 with height := h })
      else (1, sc1)

/-- Function `parse_screen`: the returned `int` and the global `screen` after it. -/
def parse_screen (arg : CStr) (screen : Screen) : Int × Screen :=
  if arg = ['1'] then (1, { width := 1920, height := 1080 })
  else if arg = ['2'] then (1, { width := 1280, height := 800 })
  else
    let (n, sc) := sscanf_dxd arg screen
    (if n = 2 then 1 else 0, sc)

/-! ## Floating point

The program computes in `float` (IEEE 754 binary32) and, for the expressions
that start with the constant `1.0`, in `double` (binary64), each operation
rounded to nearest, ties to even. A value is kept as its sign bit and its
magnitude, so that the two zeros differ. The operands all come from `int`s:
the quotients lie between 2^-31 and 2^31 in magnitude, far inside the exponent
range of either format, which is therefore left unbounded. A division by zero
(an infinity or a NaN in C) is not represented: the output stage divides by a
screen size that is never zero. -/

/-- A finite floating-point value: the sign bit and the magnitude. -/
structure Flt where
  neg : Bool
  mag : ℚ
  deriving DecidableEq

/-- Positive zero. -/
instance : Zero Flt := ⟨⟨false, 0⟩⟩

/-- The value `1.0`. -/
instance : One Flt := ⟨⟨false, 1⟩⟩

/-- Unary minus: the sign bit flipped. -/
instance : Neg Flt := ⟨fun x => ⟨!x.neg, x.mag⟩⟩

/-- The real number a floating-point value stands for. -/
def Flt.toRat (x : Flt) : ℚ := if x.neg then -x.mag else x.mag

/-- Rounding to the nearest integer, ties to even. -/
def roundHalfEven (x : ℚ) : ℚ :=
  if x - ⌊x⌋ < 1 / 2 then ⌊x⌋
  else if 1 / 2 < x - ⌊x⌋ then ⌊x⌋ + 1
  else if ⌊x⌋ % 2 = 0 then ⌊x⌋ else ⌊x⌋ + 1

/-- Rounding of a positive magnitude to `p` significant bits: the magnitude is
scaled by powers of two into `[2^(p-1), 2^p)`, rounded to an integer there and
scaled back. -/
def roundLoop (p : Nat) : Nat → ℚ → ℚ
  | 0, q => roundHalfEven q
  | f + 1, q =>
    if (2 : ℚ) ^ p ≤ q then 2 * roundLoop p f (q / 2)
    else if q < (2 : ℚ) ^ (p - 1) then roundLoop p f (2 * q) / 2
    else roundHalfEven q

/-- Rounding of a magnitude to `p` significant bits (24 for `float`, 53 for
`double`), to nearest, ties to even. -/
def roundMag (p : Nat) (q : ℚ) : ℚ :=
  if q ≤ 0 then 0 else roundLoop p (q.num.natAbs + q.den + p) q

/-- Conversion `(float)` of an `int`, also the implicit one of the `int`
operand of a `float` division. -/
def Flt.ofInt (z : Int) : Flt := ⟨decide (z < 0), roundMag 24 |(z : ℚ)|⟩

/-- Division of two `float`s. -/
def Flt.div (a b : Flt) : Flt := ⟨xor a.neg b.neg, roundMag 24 (a.mag / b.mag)⟩

/-- Subtraction of two `double`s (a `float` operand is promoted without
change). A difference that is exactly zero is the positive zero, except for
`-0 - +0`. -/
def Flt.dsub (a b : Flt) : Flt :=
  if a.toRat - b.toRat = 0 then ⟨a.neg && !b.neg, 0⟩
  else ⟨decide (a.toRat - b.toRat < 0), roundMag 53 |a.toRat - b.toRat|⟩

/-- Conversion of a `double` to `float`, as in the assignment to `c2` or `c5`. -/
def Flt.toFloat (x : Flt) : Flt := ⟨x.neg, roundMag 24 x.mag⟩

/-! ## Matrix calculator -/

/-- The six coefficients `c0 .. c5`, `float` variables of the output loop. -/
structure Coeffs where
  c0 : Flt
  c1 : Flt
  c2 : Flt
  c3 : Flt
  c4 : Flt
  c5 : Flt
  deriving DecidableEq

/-- Body of the output loop of `main` up to the `printf`: the preliminary
quantities `sx`, `sy`, `ox`, `oy` and the `switch (ts->rotation)`. -/
def coefficients (screen : Screen) (ts : Touchscreen) : Coeffs :=
  let sx : Flt := Flt.div (Flt.ofInt ts.width) (Flt.ofInt screen.width)
  let sy : Flt := Flt.div (Flt.ofInt ts.height) (Flt.ofInt screen.height)
  let ox : Flt := Flt.div (Flt.ofInt ts.x_offset) (Flt.ofInt screen.width)
  let oy : Flt := Flt.div (Flt.ofInt ts.y_offset) (Flt.ofInt screen.height)
  if ts.rotation = 90 then
    { c0 := 0, c1 := sy, c2 := oy, c3 := -sx, c4 := 0,
      c5 := Flt.toFloat (Flt.dsub (Flt.dsub 1 ox) sx) }
  else if ts.rotation = 180 then
    { c0 := -sx, c1 := 0, c2 := Flt.toFloat (Flt.dsub (Flt.dsub 1 ox) sx), c3 := 0,
      c4 := -sy, c5 := Flt.toFloat (Flt.dsub (Flt.dsub 1 oy) sy) }
  else if ts.rotation = 270 then
    { c0 := 0, c1 := -sy, c2 := Flt.toFloat (Flt.dsub (Flt.dsub 1 oy) sy), c3 := sx,
      c4 := 0, c5 := ox }
  else
    { c0 := sx, c1 := 0, c2 := ox, c3 := 0, c4 := sy, c5 := oy }

/-- Six exact values, one for each coefficient. -/
structure Row where
  t0 : ℚ
  t1 : ℚ
  t2 : ℚ
  t3 : ℚ
  t4 : ℚ
  t5 : ℚ
  deriving DecidableEq

/-- The real numbers the six coefficients stand for. -/
def Coeffs.values (c : Coeffs) : Row :=
  ⟨c.c0.toRat, c.c1.toRat, c.c2.toRat, c.c3.toRat, c.c4.toRat, c.c5.toRat⟩

/-- The table of section 4.1 of the specification, row by row, over exact
rationals. -/
def specTable (r : Int) (sx sy ox oy : ℚ) : Option Row :=
  if r = 0 then some ⟨sx, 0, ox, 0, sy, oy⟩
  else if r = 90 then some ⟨0, sy, oy, -sx, 0, 1 - ox - sx⟩
  else if r = 180 then some ⟨-sx, 0, 1 - ox - sx, 0, -sy, 1 - oy - sy⟩
  else if r = 270 then some ⟨0, -sy, 1 - oy - sy, sx, 0, ox⟩
  else none

/-- Every entry of the first row lies within `e` of its entry in the second. -/
def Row.Within (e : ℚ) (a b : Row) : Prop :=
  |a.t0 - b.t0| ≤ e ∧ |a.t1 - b.t1| ≤ e ∧ |a.t2 - b.t2| ≤ e
    ∧ |a.t3 - b.t3| ≤ e ∧ |a.t4 - b.t4| ≤ e ∧ |a.t5 - b.t5| ≤ e

/-- The affine map `[[c0,c1,c2],[c3,c4,c5],[0,0,1]]` applied to a point. -/
def applyMatrix (c : Coeffs) (p : ℚ × ℚ) : ℚ × ℚ :=
  (c.c0.toRat * p.1 + c.c1.toRat * p.2 + c.c2.toRat,
   c.c3.toRat * p.1 + c.c4.toRat * p.2 + c.c5.toRat)

/-- Left padding with zeros to a minimum width. -/
def padZero (w : Nat) (ds : CStr) : CStr := List.replicate (w - ds.length) '0' ++ ds

/-- Conversion `%04x` of an `int`: the value as `unsigned`, lowercase
hexadecimal, at least four digits. -/
def fmt04x (v : Int) : CStr := padZero 4 (Nat.toDigits 16 (v % 4294967296).toNat)

/-- Conversion `%.6f` of a `float` (promoted to `double` without change): the
sign, then the magnitude rounded to six decimals (to nearest, ties to even).
A negative zero is written `-0.000000`. -/
def fmt6 (x : Flt) : CStr :=
  let a : Nat := x.mag.num.natAbs * 1000000
  let fl : Nat := a / x.mag.den
  let r : Nat := a % x.mag.den
  let n : Nat := if 2 * r > x.mag.den then fl + 1
    else if 2 * r < x.mag.den then fl
    else if fl % 2 = 0 then fl else fl + 1
  (if x.neg then ['-'] else []) ++ Nat.toDigits 10 (n / 1000000) ++ ['.']
    ++ padZero 6 (Nat.toDigits 10 (n % 1000000))

/-- The six `%.6f` conversions of the rule line, separated by blanks. -/
def matrixText (c : Coeffs) : CStr :=
  fmt6 c.c0 ++ [' '] ++ fmt6 c.c1 ++ [' '] ++ fmt6 c.c2 ++ [' ']
    ++ fmt6 c.c3 ++ [' '] ++ fmt6 c.c4 ++ [' '] ++ fmt6 c.c5

/-- The line written by the `printf` of the output loop (without its newline). -/
def ruleLine (screen : Screen) (ts : Touchscreen) : CStr :=
  "SUBSYSTEM==\"input\", KERNEL==\"event*\", ATTRS\x7bidVendor\x7d==\"".toList
    ++ fmt04x ts.vendor_id
    ++ "\", ATTRS\x7bidProduct\x7d==\"".toList
    ++ fmt04x ts.product_id
    ++ "\", ENV\x7bLIBINPUT_CALIBRATION_MATRIX\x7d=\"".toList
    ++ matrixText (coefficients screen ts)
    ++ " 0 0 1\"".toList

/-- The header line (without its newline). -/
def headerLine : CStr := "# udev rules for touchscreen calibration".toList

/-! ## Command line scanning: `getopt_long` -/

/-- One entry of the table `long_opts`. -/
structure LongOpt where
  name : CStr
  has_arg : Bool
  val : Char
  deriving DecidableEq

/-- The table `long_opts` of `main`. -/
def long_opts : List LongOpt :=
  [⟨"help".toList, false, 'h'⟩, ⟨"screen".toList, true, 's'⟩,
   ⟨"touchscreen".toList, false, 't'⟩]

/-- Lookup of a character in the option string `"hs:t"`: whether it is an
option letter and, if so, whether it takes an argument. -/
def optstring (c : Char) : Option Bool :=
  if c = 'h' then some false
  else if c = 's' then some true
  else if c = 't' then some false
  else none

/-- The scanning state kept by `getopt_long` between calls: the index `optind`
of the next element of `argv` and the unread rest `nextchar` of a cluster of
short options (empty when there is none). -/
structure GetoptState where
  optind : Nat
  nextchar : CStr
  deriving DecidableEq

/-- What a call of `getopt_long` returns: `-1`, an option character (with
`optarg`), or a read past the end of `argv`. -/
inductive GetoptResult
  | done
  | opt (c : Char) (optarg : Option CStr)
  | fault
  deriving DecidableEq

/-- Test `NONOPTION_P`: the element does not start with `-`, or is `-` alone. -/
def nonoption : CStr → Bool
  | '-' :: _ :: _ => false
  | _ => true

/-- Handling of the next short option character `c` of a cluster whose unread
rest is `rest`. -/
def shortOption (argv : List CStr) (optind : Nat) (c : Char) (rest : CStr) :
    GetoptResult × GetoptState :=
  let optind1 := if rest = [] then optind + 1 else optind
  match optstring c with
  | none => (.opt '?' none, ⟨optind1, rest⟩)
  | some false => (.opt c none, ⟨optind1, rest⟩)
  | some true =>
    if rest ≠ [] then (.opt c (some rest), ⟨optind1 + 1, []⟩)
    else if optind1 = argv.length then (.opt '?' none, ⟨optind1, []⟩)
    else
      match argv[optind1]? with
      | some a => (.opt c (some a), ⟨optind1 + 1, []⟩)
      | none => (.fault, ⟨optind1, []⟩)

/-- The entry selected by a long option name: an exact match, else the only
entry the name abbreviates; `none` when there is none or several. -/
def findLong (nm : CStr) : Option LongOpt :=
  match long_opts.find? (fun p => p.name = nm) with
  | some p => some p
  | none =>
    match long_opts.filter (fun p => nm.isPrefixOf p.name) with
    | [] => none
    | p :: ps => if ps.all (fun q => q.has_arg = p.has_arg && q.val = p.val) then some p else none

/-- Function `process_long_option` for the element `--text` at index `optind`. -/
def longOption (argv : List CStr) (optind : Nat) (text : CStr) :
    GetoptResult × GetoptState :=
  let nm := text.takeWhile (fun c => c ≠ '=')
  let tail := text.dropWhile (fun c => c ≠ '=')
  match findLong nm with
  | none => (.opt '?' none, ⟨optind + 1, []⟩)
  | some p =>
    match tail with
    | _ :: value =>
      if p.has_arg then (.opt p.val (some value), ⟨optind + 1, []⟩)
      else (.opt '?' none, ⟨optind + 1, []⟩)
    | [] =>
      if p.has_arg then
        match argv[optind + 1]? with
        | some a => (.opt p.val (some a), ⟨optind + 2, []⟩)
        | none => (.opt '?' none, ⟨optind + 1, []⟩)
      else (.opt p.val none, ⟨optind + 1, []⟩)

/-- The part of `getopt_long` that looks at the element `argv[optind]` once the
non-options before it have been passed over. -/
def scanElement (argv : List CStr) (optind : Nat) : GetoptResult × GetoptState :=
  if optind = argv.length then (.done, ⟨optind, []⟩)
  else
    match argv[optind]? with
    | none => (.fault, ⟨optind, []⟩)
    | some e =>
      if e = ['-', '-'] then (.done, ⟨argv.length, []⟩)
      else
        match e with
        | '-' :: '-' :: text => longOption argv optind text
        | '-' :: c :: rest => shortOption argv optind c rest
        | _ => (.done, ⟨optind, []⟩)

/-- One call `getopt_long (argc, argv, "hs:t", long_opts, &long_index)`.
`posix` says whether `POSIXLY_CORRECT` is set (scanning then stops at the first
non-option instead of skipping it). The reordering of `argv` that glibc does
touches only elements before `optind`, which neither `getopt_long` nor `main`
reads again, so `argv` is kept as it is. -/
def getopt_long (argv : List CStr) (posix : Bool) (g : GetoptState) :
    GetoptResult × GetoptState :=
  if argv.length < 1 then (.done, g)
  else
    match g.nextchar with
    | c :: rest => shortOption argv g.optind c rest
    | [] =>
      scanElement argv
        (if posix then g.optind
         else g.optind + ((argv.drop g.optind).takeWhile nonoption).length)

/-! ## The program -/

/-- The global variables `screen`, `touchscreens` (its first `ts_count` slots,
so `ts_count` is the length of the list) and `ts_capacity`. -/
structure State where
  screen : Screen
  touchscreens : List Touchscreen
  ts_capacity : Nat
  deriving DecidableEq

/-- The initial values of the globals. -/
def State.init : State := { screen := ⟨0, 0⟩, touchscreens := [], ts_capacity := 0 }

/-- The messages written to the diagnostic stream. -/
inductive Diag
  | invalidScreen (arg : CStr)
  | notEnoughArgs
  | invalidRotation (rotation : Int)
  | invalidParams
  | noScreen
  | getoptMessage
  deriving DecidableEq

/-- How a run ends: `return code` from `main` with what was written to the
standard output (line by line) and to the diagnostic stream, and the globals at
that point; a read past the end of `argv`; or the step budget used up. -/
inductive Outcome
  | exit (code : Int) (out : List CStr) (err : List Diag) (st : State)
  | fault
  | timeout
  deriving DecidableEq

/-- Element `argv[i]` (empty when there is none). -/
def arg (argv : List CStr) (i : Nat) : CStr := (argv[i]?).getD []

/-- Function `print_usage`: the lines it writes to the standard output. -/
def print_usage (prog : CStr) : List CStr :=
  [ "Usage:".toList,
    "  ".toList ++ prog
      ++ " -s <W>x<H>|1|2 -t <vendor> <product> <x_off> <y_off> <w> <h> [rotation] [...]".toList,
    [],
    "Options:".toList,
    "  -h, --help            Show this help message".toList,
    "  -s, --screen WxH      Total screen resolution (e.g., 1920x1080)".toList,
    "                        Or use preset:".toList,
    "                        1 = 1920x1080 (default)".toList,
    "                        2 = 1280x800".toList,
    "  -t, --touchscreen     Followed by 6 or 7 args:".toList,
    "                        vendor_id product_id x_offset y_offset width height [rotation]".toList,
    "                        rotation: optional (0, 90, 180, 270)".toList,
    [],
    "Example:".toList,
    "  ".toList ++ prog ++ " --screen 1 \\".toList,
    "      --touchscreen 0x1234 0xabcd 0 0 960 1080 \\".toList,
    "      --touchscreen 0x5678 0xef01 960 0 960 1080 90".toList ]

/-- The capacity after the growth step at the head of
`parse_touchscreen_args`: doubled (2 at first) when the array is full. -/
def grownCapacity (ts_count ts_capacity : Nat) : Nat :=
  if ts_count ≥ ts_capacity then (if ts_capacity = 0 then 2 else ts_capacity * 2)
  else ts_capacity

/-- Function `parse_touchscreen_args` (with `realloc` succeeding): the returned
`int` and the globals after it. -/
def parse_touchscreen_args (argv : List CStr) (index : Nat) (rotation : Int) (st : State) :
    Int × State :=
  let cap := grownCapacity st.touchscreens.length st.ts_capacity
  let ts : Touchscreen :=
    { name := st.touchscreens.length
      vendor_id := toInt32 (strtol (arg argv index) 16)
      product_id := toInt32 (strtol (arg argv (index + 1)) 16)
      x_offset := atoi (arg argv (index + 2))
      y_offset := atoi (arg argv (index + 3))
      width := atoi (arg argv (index + 4))
      height := atoi (arg argv (index + 5))
      rotation := rotation }
  (0, { st with touchscreens := st.touchscreens ++ [ts], ts_capacity := cap })

/-- The part of `main` after the option loop: the default screen, the header
and one rule line per record. -/
def finish (st : State) : Outcome :=
  let noScreen : Bool := st.screen.width = 0 || st.screen.height = 0
  let screen : Screen := if noScreen then ⟨1920, 1080⟩ else st.screen
  .exit 0 (headerLine :: st.touchscreens.map (ruleLine screen))
    (if noScreen then [Diag.noScreen] else []) { st with screen := screen }

/-- Test `isdigit (argv[i][0])`. -/
def startsWithDigit (s : CStr) : Bool :=
  match s with
  | c :: _ => isdigit c
  | [] => false

/-- The body of `case 't'` with `optind` as `getopt_long` left it: either the
run ends, or the loop goes on with the new `optind` and globals. -/
def caseT (argv : List CStr) (optind : Nat) (st : State) : Outcome ⊕ (Nat × State) :=
  if optind + 6 - 1 ≥ argv.length then .inl (.exit 1 [] [Diag.notEnoughArgs] st)
  else
    let hasRot : Bool := decide (optind + 6 < argv.length) && startsWithDigit (arg argv (optind + 6))
    let rotation : Int := if hasRot then atoi (arg argv (optind + 6)) else 0
    if hasRot ∧ rotation ≠ 0 ∧ rotation ≠ 90 ∧ rotation ≠ 180 ∧ rotation ≠ 270 then
      .inl (.exit 1 [] [Diag.invalidRotation rotation] st)
    else
      let num_args := if hasRot then 7 else 6
      let r := parse_touchscreen_args argv optind rotation st
      if r.1 ≠ 0 then .inl (.exit 1 [] [Diag.invalidParams] r.2)
      else .inr (optind + num_args, r.2)

/-- The option loop of `main`, then `finish`; the first argument bounds the
number of `getopt_long` calls. -/
def mainLoop (argv : List CStr) (posix : Bool) : Nat → GetoptState → State → Outcome
  | 0, _, _ => .timeout
  | fuel + 1, g, st =>
    match getopt_long argv posix g with
    | (.fault, _) => .fault
    | (.done, _) => finish st
    | (.opt c optarg, g1) =>
      if c = 'h' then .exit 0 (print_usage (arg argv 0)) [] st
      else if c = 's' then
        match optarg with
        | none => .fault
        | some a =>
          let r := parse_screen a st.screen
          if r.1 = 0 then .exit 1 [] [Diag.invalidScreen a] { st with screen := r.2 }
          else mainLoop argv posix fuel g1 { st with screen := r.2 }
      else if c = 't' then
        match caseT argv g1.optind st with
        | .inl o => o
        | .inr (optind, st1) => mainLoop argv posix fuel ⟨optind, g1.nextchar⟩ st1
      else .exit 1 (print_usage (arg argv 0)) [Diag.getoptMessage] st

/-- A bound on the number of `getopt_long` calls of a run: every call but the
last consumes a character or an element of `argv`. -/
def fuelFor (argv : List CStr) : Nat := (argv.map List.length).sum + argv.length + 2

/-- Function `main` on the argument vector `argv` (the program name first). -/
def main (argv : List CStr) (posix : Bool) : Outcome :=
  mainLoop argv posix (fuelFor argv) ⟨1, []⟩ State.init

/-- The argument vector of a command line given as words. -/
def words (ws : List String) : List CStr := ws.map String.toList

/-- The flag `-t`, or `--touchscreen` in its long form. -/
def touchFlag (long : Bool) : CStr := if long then "--touchscreen".toList else "-t".toList

/-- The flag `-s`, or `--screen` in its long form. -/
def screenFlag (long : Bool) : CStr := if long then "--screen".toList else "-s".toList

/-- The characters and elements of a part of `argv`, one more per element. -/
def weight (l : List CStr) : Nat := (l.map (fun e => e.length + 1)).sum

/-- What is left to scan in a state of `getopt_long`. -/
def remaining (argv : List CStr) (g : GetoptState) : Nat :=
  match g.nextchar with
  | [] => weight (argv.drop g.optind)
  | _ :: rest => weight (argv.drop (g.optind + 1)) + rest.length + 1

/-- The states in which the option loop of `main` calls `getopt_long`: the
initial one, and the one after each option that does not end the run. -/
inductive Reaches (argv : List CStr) (posix : Bool) : GetoptState → State → Prop
  | start : Reaches argv posix ⟨1, []⟩ State.init
  | screen {g g1 : GetoptState} {st : State} {a : CStr} :
      Reaches argv posix g st →
      getopt_long argv posix g = (.opt 's' (some a), g1) →
      (parse_screen a st.screen).1 ≠ 0 →
      Reaches argv posix g1 { st with screen := (parse_screen a st.screen).2 }
  | touch {g g1 : GetoptState} {st st1 : State} {oa : Option CStr} {optind : Nat} :
      Reaches argv posix g st →
      getopt_long argv posix g = (.opt 't' oa, g1) →
      caseT argv g1.optind st = .inr (optind, st1) →
      Reaches argv posix ⟨optind, g1.nextchar⟩ st1

/-! ## Notions of the specification -/

/-- The decimal text of an integer: a minus sign for a negative one, then the
digits of its absolute value. -/
def decimalText (z : Int) : CStr :=
  if z < 0 then '-' :: Nat.toDigits 10 z.natAbs else Nat.toDigits 10 z.natAbs

/-- A decimal integer literal: an optional sign and at least one digit. -/
def IsDecimalInt (s : CStr) : Prop :=
  ∃ sign ds : CStr, s = sign ++ ds ∧ (sign = [] ∨ sign = ['-'] ∨ sign = ['+'])
    ∧ ds ≠ [] ∧ ∀ c ∈ ds, isdigit c = true

/-- The shape `<int>x<int>`, read strictly: an integer literal, the letter
`x`, an integer literal, and nothing else. -/
def IsIntXInt (s : CStr) : Prop :=
  ∃ a b : CStr, s = a ++ 'x' :: b ∧ IsDecimalInt a ∧ IsDecimalInt b

/-- The shape that `sscanf` with `"%dx%d"` accepts: white space, an integer
literal, the letter `x`, white space, an integer literal, then anything. -/
def StartsWithIntXInt (s : CStr) : Prop :=
  ∃ w1 a w2 b rest : CStr, s = w1 ++ a ++ 'x' :: (w2 ++ b ++ rest)
    ∧ (∀ c ∈ w1, isspace c = true) ∧ (∀ c ∈ w2, isspace c = true)
    ∧ IsDecimalInt a ∧ IsDecimalInt b

/-- The range of a C `int`. -/
def InIntRange (z : Int) : Prop := -2147483648 ≤ z ∧ z ≤ 2147483647

/-- An input that does not continue a run of digits. -/
def NoDigitHead (rest : CStr) : Prop := ∀ acc k : Nat, readDigits 10 acc k rest = (acc, k, rest)

/-- A touchscreen descriptor as it is written on the command line: the flag
in its short or long form, the six tokens and the optional rotation token. -/
structure Descriptor where
  long : Bool
  vendor : CStr
  product : CStr
  x_off : CStr
  y_off : CStr
  w : CStr
  h : CStr
  rotation : Option CStr

/-- An option of the command line with its arguments: a screen or a
touchscreen descriptor. -/
inductive Item
  | screen (long : Bool) (value : CStr)
  | touch (d : Descriptor)

/-- The elements of `argv` that a descriptor takes. -/
def Descriptor.tokens (d : Descriptor) : List CStr :=
  touchFlag d.long :: d.vendor :: d.product :: d.x_off :: d.y_off :: d.w :: d.h
    :: d.rotation.toList

/-- The elements of `argv` that an option takes. -/
def Item.tokens : Item → List CStr
  | .screen long value => [screenFlag long, value]
  | .touch d => d.tokens

/-- The elements of `argv` that a sequence of options takes. -/
def tokensOf : List Item → List CStr
  | [] => []
  | it :: rest => it.tokens ++ tokensOf rest

/-- The argument vector of a program name followed by options. -/
def commandLine (prog : CStr) (items : List Item) : List CStr := prog :: tokensOf items

/-- A descriptor is well formed when its rotation token, if there is one,
starts with a digit and converts to 0, 90, 180 or 270. -/
def Descriptor.WellFormed (d : Descriptor) : Prop :=
  match d.rotation with
  | none => True
  | some r => startsWithDigit r = true ∧ (atoi r = 0 ∨ atoi r = 90 ∨ atoi r = 180 ∨ atoi r = 270)

/-- An option is well formed when its value is an accepted screen, or its
descriptor is well formed. -/
def Item.WellFormed : Item → Prop
  | .screen _ value => value = ['1'] ∨ value = ['2'] ∨ StartsWithIntXInt value
  | .touch d => d.WellFormed

/-- The record that a descriptor denotes, created at a given index. -/
def Descriptor.record (d : Descriptor) (index : Nat) : Touchscreen :=
  { name := index
    vendor_id := toInt32 (strtol d.vendor 16)
    product_id := toInt32 (strtol d.product 16)
    x_offset := atoi d.x_off
    y_offset := atoi d.y_off
    width := atoi d.w
    height := atoi d.h
    rotation := match d.rotation with
      | none => 0
      | some r => atoi r }

/-- The descriptors among a sequence of options, in order. -/
def descriptors : List Item → List Descriptor
  | [] => []
  | .screen _ _ :: rest => descriptors rest
  | .touch d :: rest => d :: descriptors rest

/-- The records of a sequence of descriptors, in order, the first one created
at the given index. -/
def records : Nat → List Descriptor → List Touchscreen
  | _, [] => []
  | n, d :: ds => d.record n :: records (n + 1) ds

/-- The effect of one well-formed option on the globals. -/
def applyItem (st : State) : Item → State
  | .screen _ value => { st with screen := (parse_screen value st.screen).2 }
  | .touch d =>
    { st with
      touchscreens := st.touchscreens ++ [d.record st.touchscreens.length]
      ts_capacity := grownCapacity st.touchscreens.length st.ts_capacity }

/-- The effect of a sequence of well-formed options on the globals. -/
def applyItems (st : State) : List Item → State
  | [] => st
  | it :: rest => applyItems (applyItem st it) rest

/-- The screen that the output loop uses: the one in the globals, or 1920x1080
when its width or height is 0. -/
def screenUsed (sc : Screen) : Screen :=
  if sc.width = 0 ∨ sc.height = 0 then ⟨1920, 1080⟩ else sc

/-- The rotations of the data model: 0, 90, 180 or 270. -/
def ValidRotation (r : Int) : Prop := r = 0 ∨ r = 90 ∨ r = 180 ∨ r = 270


/-- A lowercase hexadecimal digit: `0` to `9` or `a` to `f`. -/
def isLowerHex (c : Char) : Bool :=
  isdigit c || (decide ('a'.toNat ≤ c.toNat) && decide (c.toNat ≤ 'f'.toNat))

/-- The hexadecimal digits of a number on a fixed width, the most significant
first (the digits above the width are left out). -/
def hexFixed : Nat → Nat → CStr
  | 0, _ => []
  | k + 1, n => hexFixed k (n / 16) ++ [Nat.digitChar (n % 16)]


/-- A vendor or product token made of exactly four lowercase hexadecimal
digits, with or without `0x` before them. -/
def IsHexId (tok digits : CStr) : Prop :=
  digits.length = 4 ∧ (∀ c ∈ digits, isLowerHex c = true)
    ∧ (tok = digits ∨ tok = "0x".toList ++ digits)


/-- The transform of rotation 0, scale and offset: the map `M0` of the
rationale of section 4.1. -/
def scaleOffset (screen : Screen) (ts : Touchscreen) (p : ℚ × ℚ) : ℚ × ℚ :=
  ((ts.width : ℚ) / (screen.width : ℚ) * p.1 + (ts.x_offset : ℚ) / (screen.width : ℚ),
   (ts.height : ℚ) / (screen.height : ℚ) * p.2 + (ts.y_offset : ℚ) / (screen.height : ℚ))

/-- The rotations of the unit square onto itself by 90, 180 and 270 degrees. -/
def unitRotations : List (ℚ × ℚ → ℚ × ℚ) :=
  [fun p => (1 - p.2, p.1), fun p => (1 - p.1, 1 - p.2), fun p => (p.2, 1 - p.1)]

/-- The invariant of the growing array: the records fit in the capacity, and
the capacity is 0 with no record, or twice a power of two. -/
def CapacityInv (st : State) : Prop :=
  st.touchscreens.length ≤ st.ts_capacity
    ∧ ((st.ts_capacity = 0 ∧ st.touchscreens = []) ∨ ∃ k : Nat, st.ts_capacity = 2 * 2 ^ k)

/-- The globals after a sequence of calls of `parse_touchscreen_args`, each
given by its arguments `argv`, `index` and `rotation`. -/
def callSeq (st : State) : List (List CStr × Nat × Int) → State
  | [] => st
  | c :: cs => callSeq (parse_touchscreen_args c.1 c.2.1 c.2.2 st).2 cs


/-- The transform computed for a record is a rotation of the unit square
composed with the transform of rotation 0, in one order or the other. -/
def IsComposition (screen : Screen) (ts : Touchscreen) : Prop :=
  ∃ R ∈ unitRotations,
    (∀ p : ℚ × ℚ, applyMatrix (coefficients screen ts) p = R (scaleOffset screen ts p))
    ∨ (∀ p : ℚ × ℚ, applyMatrix (coefficients screen ts) p = scaleOffset screen ts (R p))


end Calibrate

/-! # Properties -/

namespace Calibrate

/-! ## C library -/

theorem digitVal_digitChar (m : Nat) (h : m < 10) :
    digitVal 10 (Nat.digitChar m) = some m := by
  interval_cases m <;> decide

theorem isdigit_digitChar (m : Nat) (h : m < 10) : isdigit (Nat.digitChar m) = true := by
  interval_cases m <;> decide

theorem digitVal_of_isdigit (c : Char) (h : isdigit c = true) :
    digitVal 10 c = some (c.toNat - 48) := by
  simp only [isdigit, Bool.and_eq_true, decide_eq_true_eq] at h
  have h0 : '0'.toNat = 48 := by decide
  have h9 : '9'.toNat = 57 := by decide
  rw [h0, h9] at h
  simp only [digitVal, h0, h9]
  rw [if_pos h]
  have : c.toNat - 48 < 10 := by omega
  simp [this]

theorem isdigit_of_digitVal (c : Char) (d : Nat) (h : digitVal 10 c = some d) :
    isdigit c = true := by
  have h0 : '0'.toNat = 48 := by decide
  have h9 : '9'.toNat = 57 := by decide
  have ha : 'a'.toNat = 97 := by decide
  have hz : 'z'.toNat = 122 := by decide
  have hA : 'A'.toNat = 65 := by decide
  have hZ : 'Z'.toNat = 90 := by decide
  simp only [isdigit, Bool.and_eq_true, decide_eq_true_eq, h0, h9]
  simp only [digitVal, h0, h9, ha, hz, hA, hZ] at h
  by_contra hc
  rw [if_neg hc] at h
  split_ifs at h <;> simp at h

/-- Reading back the digits written by `Nat.toDigitsCore`. -/
theorem readDigits_toDigitsCore (fuel : Nat) :
    ∀ (n : Nat) (ds : CStr), n < fuel →
      ∃ L : Nat, 1 ≤ L ∧ ∀ acc k : Nat,
        readDigits 10 acc k (Nat.toDigitsCore 10 fuel n ds)
          = readDigits 10 (acc * 10 ^ L + n) (k + L) ds := by
  induction fuel with
  | zero => intro n ds h; omega
  | succ f ih =>
    intro n ds h
    have hd := digitVal_digitChar (n % 10) (Nat.mod_lt _ (by decide))
    simp only [Nat.toDigitsCore]
    by_cases h0 : n / 10 = 0
    · rw [if_pos h0]
      refine ⟨1, le_refl _, fun acc k => ?_⟩
      have hn : n % 10 = n := Nat.mod_eq_of_lt (by omega)
      rw [hn] at hd
      simp only [readDigits, hd, pow_one, hn]
    · rw [if_neg h0]
      obtain ⟨L, hL, hread⟩ := ih (n / 10) (Nat.digitChar (n % 10) :: ds) (by omega)
      refine ⟨L + 1, by omega, fun acc k => ?_⟩
      rw [hread acc k]
      simp only [readDigits, hd]
      have e : (acc * 10 ^ L + n / 10) * 10 + n % 10 = acc * 10 ^ (L + 1) + n := by
        have := Nat.div_add_mod n 10
        rw [pow_succ]
        nlinarith
      rw [e, Nat.add_assoc]

/-- Every character written by `Nat.toDigitsCore` in base 10 is a digit. -/
theorem isdigit_toDigitsCore (fuel : Nat) :
    ∀ (n : Nat) (ds : CStr), (∀ c ∈ ds, isdigit c = true) →
      ∀ c ∈ Nat.toDigitsCore 10 fuel n ds, isdigit c = true := by
  induction fuel with
  | zero => intro n ds h; simpa [Nat.toDigitsCore] using h
  | succ f ih =>
    intro n ds h
    have hd := isdigit_digitChar (n % 10) (Nat.mod_lt _ (by decide))
    have hds : ∀ c ∈ Nat.digitChar (n % 10) :: ds, isdigit c = true := by
      intro c hc
      rcases List.mem_cons.1 hc with rfl | hc
      · exact hd
      · exact h c hc
    simp only [Nat.toDigitsCore]
    by_cases h0 : n / 10 = 0
    · rw [if_pos h0]; exact hds
    · rw [if_neg h0]; exact ih _ _ hds

theorem isdigit_not_special (c : Char) (h : isdigit c = true) :
    isspace c = false ∧ c ≠ '-' ∧ c ≠ '+' := by
  simp only [isdigit, Bool.and_eq_true, decide_eq_true_eq] at h
  have h0 : '0'.toNat = 48 := by decide
  have h9 : '9'.toNat = 57 := by decide
  rw [h0, h9] at h
  refine ⟨?_, ?_, ?_⟩
  · simp only [isspace, Bool.or_eq_false_iff, decide_eq_false_iff_not]
    refine ⟨⟨⟨⟨⟨?_, ?_⟩, ?_⟩, ?_⟩, ?_⟩, ?_⟩
    · rintro rfl; revert h; decide
    · rintro rfl; revert h; decide
    · rintro rfl; revert h; decide
    · omega
    · omega
    · rintro rfl; revert h; decide
  · rintro rfl; revert h; decide
  · rintro rfl; revert h; decide

theorem skipSpace_append (w s : CStr) (hw : ∀ c ∈ w, isspace c = true) :
    skipSpace (w ++ s) = skipSpace s := by
  induction w with
  | nil => rfl
  | cons c w ih =>
    have hc : isspace c = true := hw c (List.mem_cons_self _ _)
    simp only [List.cons_append, skipSpace, hc, if_true]
    exact ih (fun d hd => hw d (List.mem_cons_of_mem _ hd))

theorem skipSpace_split (s : CStr) :
    ∃ w : CStr, s = w ++ skipSpace s ∧ ∀ c ∈ w, isspace c = true := by
  induction s with
  | nil => exact ⟨[], rfl, by simp⟩
  | cons c s ih =>
    by_cases hc : isspace c = true
    · obtain ⟨w, hw, hsp⟩ := ih
      refine ⟨c :: w, ?_, ?_⟩
      · simp only [skipSpace, hc, if_true, List.cons_append]
        rw [← hw]
      · intro d hd
        rcases List.mem_cons.1 hd with rfl | hd
        · exact hc
        · exact hsp d hd
    · exact ⟨[], by simp [skipSpace, hc], by simp⟩

theorem skipSpace_cons_of_not_space (c : Char) (s : CStr) (hc : isspace c = false) :
    skipSpace (c :: s) = c :: s := by
  simp [skipSpace, hc]

/-- The value of a run of decimal digits read onto an accumulator. -/
theorem readDigits_append (ds : CStr) (hds : ∀ c ∈ ds, isdigit c = true) :
    ∀ (acc k : Nat) (rest : CStr), ∃ v : Nat,
      readDigits 10 acc k (ds ++ rest) = readDigits 10 v (k + ds.length) rest := by
  induction ds with
  | nil => intro acc k rest; exact ⟨acc, rfl⟩
  | cons c ds ih =>
    intro acc k rest
    have hc := digitVal_of_isdigit c (hds c (List.mem_cons_self _ _))
    obtain ⟨v, hv⟩ := ih (fun d hd => hds d (List.mem_cons_of_mem _ hd))
      (acc * 10 + (c.toNat - 48)) (k + 1) rest
    refine ⟨v, ?_⟩
    rw [List.cons_append, readDigits]
    simp only [hc, List.length_cons]
    rw [hv, show k + 1 + ds.length = k + (ds.length + 1) by omega]

/-- What `readDigits` consumes is a run of digits, and it counts them. -/
theorem readDigits_split (s : CStr) :
    ∀ acc k : Nat, ∃ ds : CStr, s = ds ++ (readDigits 10 acc k s).2.2
      ∧ (∀ c ∈ ds, isdigit c = true) ∧ (readDigits 10 acc k s).2.1 = k + ds.length := by
  induction s with
  | nil => intro acc k; exact ⟨[], rfl, by simp, rfl⟩
  | cons c s ih =>
    intro acc k
    cases hd : digitVal 10 c with
    | none => exact ⟨[], by simp [readDigits, hd], by simp, by simp [readDigits, hd]⟩
    | some d =>
      obtain ⟨ds, h1, h2, h3⟩ := ih (acc * 10 + d) (k + 1)
      refine ⟨c :: ds, ?_, ?_, ?_⟩
      · simp only [readDigits, hd, List.cons_append]
        rw [← h1]
      · intro e he
        rcases List.mem_cons.1 he with rfl | he
        · exact isdigit_of_digitVal _ _ hd
        · exact h2 e he
      · simp only [readDigits, hd, h3, List.length_cons]
        omega

theorem readDigits_count_le (s : CStr) (acc k : Nat) : k ≤ (readDigits 10 acc k s).2.1 := by
  obtain ⟨ds, _, _, h⟩ := readDigits_split s acc k
  omega

theorem readSign_split (s : CStr) :
    ∃ sign : CStr, s = sign ++ (readSign s).2 ∧ (sign = [] ∨ sign = ['-'] ∨ sign = ['+']) := by
  cases s with
  | nil => exact ⟨[], rfl, Or.inl rfl⟩
  | cons c s =>
    by_cases h1 : c = '-'
    · exact ⟨['-'], by simp [readSign, h1], Or.inr (Or.inl rfl)⟩
    · by_cases h2 : c = '+'
      · exact ⟨['+'], by simp [readSign, h2], Or.inr (Or.inr rfl)⟩
      · exact ⟨[], by simp [readSign, h1, h2], Or.inl rfl⟩

theorem readSign_digits (ds rest : CStr) (hne : ds ≠ []) (hds : ∀ c ∈ ds, isdigit c = true) :
    readSign (ds ++ rest) = (false, ds ++ rest) := by
  cases ds with
  | nil => exact absurd rfl hne
  | cons c ds =>
    have h := isdigit_not_special c (hds c (List.mem_cons_self _ _))
    simp [readSign, h.2.1, h.2.2]

/-- The conversion `%d` written with projections. -/
theorem scanInt_eq (s : CStr) :
    scanInt s =
      if (readDigits 10 0 0 (readSign (skipSpace s)).2).2.1 = 0 then none
      else some (toInt32 (clampLong (applySign (readSign (skipSpace s)).1
        (readDigits 10 0 0 (readSign (skipSpace s)).2).1)),
        (readDigits 10 0 0 (readSign (skipSpace s)).2).2.2) := rfl

theorem noDigitHead_nil : NoDigitHead [] := fun _ _ => rfl

theorem noDigitHead_x (t : CStr) : NoDigitHead ('x' :: t) := by
  intro acc k
  have h : digitVal 10 'x' = none := by decide
  simp [readDigits, h]

/-- After a sign and a run of digits the sign is read and the digits follow. -/
theorem readSign_decimal (sign ds rest : CStr)
    (hsign : sign = [] ∨ sign = ['-'] ∨ sign = ['+'])
    (hne : ds ≠ []) (hds : ∀ c ∈ ds, isdigit c = true) :
    skipSpace (sign ++ ds ++ rest) = sign ++ ds ++ rest
      ∧ (readSign (sign ++ ds ++ rest)).2 = ds ++ rest
      ∧ (readSign (sign ++ ds ++ rest)).1 = decide (sign = ['-']) := by
  rcases hsign with rfl | rfl | rfl
  · have hr := readSign_digits ds rest hne hds
    cases ds with
    | nil => exact absurd rfl hne
    | cons c ds =>
      have h := isdigit_not_special c (hds c (List.mem_cons_self _ _))
      refine ⟨skipSpace_cons_of_not_space _ _ h.1, ?_, ?_⟩
      · rw [List.nil_append, hr]
      · rw [List.nil_append, hr]; rfl
  · exact ⟨skipSpace_cons_of_not_space _ _ (by decide), by simp [readSign], by simp [readSign]⟩
  · exact ⟨skipSpace_cons_of_not_space _ _ (by decide), by simp [readSign], by simp [readSign]⟩

/-- The conversion `%d` succeeds on white space followed by an integer literal,
and stops where the literal ends when no digit follows. -/
theorem scanInt_accepts (w a rest : CStr) (hw : ∀ c ∈ w, isspace c = true)
    (ha : IsDecimalInt a) :
    ∃ v r, scanInt (w ++ a ++ rest) = some (v, r) ∧ (NoDigitHead rest → r = rest) := by
  obtain ⟨sign, ds, rfl, hsign, hne, hds⟩ := ha
  obtain ⟨h1, h2, _⟩ := readSign_decimal sign ds rest hsign hne hds
  obtain ⟨v, hv⟩ := readDigits_append ds hds 0 0 rest
  have hcount := readDigits_count_le rest v (0 + ds.length)
  have hlen : 0 < ds.length := List.length_pos.2 hne
  rw [scanInt_eq, List.append_assoc w, skipSpace_append _ _ hw, h1, h2, hv]
  rw [if_neg (by omega)]
  refine ⟨_, _, rfl, fun hnd => ?_⟩
  rw [hnd]

/-- The conversion `%d` succeeds only on white space followed by an integer
literal. -/
theorem scanInt_some_split (s : CStr) (v : Int) (r : CStr) (h : scanInt s = some (v, r)) :
    ∃ w a, s = w ++ a ++ r ∧ (∀ c ∈ w, isspace c = true) ∧ IsDecimalInt a := by
  obtain ⟨w, hw, hsp⟩ := skipSpace_split s
  obtain ⟨sign, hs, hsign⟩ := readSign_split (skipSpace s)
  obtain ⟨ds, hd, hdig, hcnt⟩ := readDigits_split (readSign (skipSpace s)).2 0 0
  rw [scanInt_eq] at h
  split_ifs at h with h0
  simp only [Option.some.injEq, Prod.mk.injEq] at h
  refine ⟨w, sign ++ ds, ?_, hsp, sign, ds, rfl, hsign, ?_, hdig⟩
  · rw [← h.2, List.append_assoc, List.append_assoc, ← hd, ← hs, ← hw]
  · intro hnil
    rw [hnil] at hcnt
    exact h0 (by simpa using hcnt)

theorem toDigitsCore_append (fuel : Nat) :
    ∀ (n : Nat) (ds : CStr),
      Nat.toDigitsCore 10 fuel n ds = Nat.toDigitsCore 10 fuel n [] ++ ds := by
  induction fuel with
  | zero => intro n ds; rfl
  | succ f ih =>
    intro n ds
    simp only [Nat.toDigitsCore]
    by_cases h0 : n / 10 = 0
    · simp [h0]
    · rw [if_neg h0, if_neg h0, ih _ (_ :: ds), ih _ [_]]
      simp

theorem toDigits_ne_nil (n : Nat) : Nat.toDigits 10 n ≠ [] := by
  unfold Nat.toDigits
  simp only [Nat.toDigitsCore]
  by_cases h0 : n / 10 = 0
  · simp [h0]
  · rw [if_neg h0, toDigitsCore_append]
    simp

theorem isdigit_toDigits (n : Nat) : ∀ c ∈ Nat.toDigits 10 n, isdigit c = true :=
  isdigit_toDigitsCore (n + 1) n [] (by simp)

/-- Reading back the decimal digits of a number. -/
theorem readDigits_toDigits (n : Nat) (rest : CStr) (hrest : NoDigitHead rest) :
    ∃ L : Nat, 1 ≤ L ∧ readDigits 10 0 0 (Nat.toDigits 10 n ++ rest) = (n, L, rest) := by
  obtain ⟨L, hL, h⟩ := readDigits_toDigitsCore (n + 1) n rest (Nat.lt_succ_self n)
  refine ⟨L, hL, ?_⟩
  have e : Nat.toDigits 10 n ++ rest = Nat.toDigitsCore 10 (n + 1) n rest := by
    rw [toDigitsCore_append]; rfl
  rw [e, h 0 0, hrest]
  simp

theorem isDecimalInt_decimalText (z : Int) : IsDecimalInt (decimalText z) := by
  unfold decimalText
  by_cases hz : z < 0
  · rw [if_pos hz]
    exact ⟨['-'], _, rfl, Or.inr (Or.inl rfl), toDigits_ne_nil _, isdigit_toDigits _⟩
  · rw [if_neg hz]
    exact ⟨[], _, rfl, Or.inl rfl, toDigits_ne_nil _, isdigit_toDigits _⟩

theorem toInt32_clampLong (z : Int) (hz : InIntRange z) : toInt32 (clampLong z) = z := by
  obtain ⟨h1, h2⟩ := hz
  unfold clampLong toInt32
  rw [if_neg (by omega), if_neg (by omega)]
  omega

/-- The conversion `%d` reads back the decimal text of an `int`. -/
theorem scanInt_decimalText (z : Int) (hz : InIntRange z) (rest : CStr)
    (hrest : NoDigitHead rest) : scanInt (decimalText z ++ rest) = some (z, rest) := by
  obtain ⟨L, hL, hread⟩ := readDigits_toDigits z.natAbs rest hrest
  have hd := readSign_decimal (if z < 0 then ['-'] else []) (Nat.toDigits 10 z.natAbs) rest
    (by by_cases h : z < 0 <;> simp [h]) (toDigits_ne_nil _) (isdigit_toDigits _)
  have e : decimalText z = (if z < 0 then ['-'] else []) ++ Nat.toDigits 10 z.natAbs := by
    unfold decimalText
    by_cases h : z < 0 <;> simp [h]
  obtain ⟨h1, h2, h3⟩ := hd
  rw [scanInt_eq, e, h1, h2, h3, hread]
  have hL0 : ¬ ((z.natAbs, L, rest).2.1 = 0) := by
    show ¬ (L = 0)
    omega
  rw [if_neg hL0]
  have hv : applySign (decide ((if z < 0 then ['-'] else []) = ['-'])) z.natAbs = z := by
    unfold applySign
    by_cases h : z < 0
    · simp only [h, if_true, decide_True]
      omega
    · simp only [h, if_false]
      have : ¬ (([] : List Char) = ['-']) := by simp
      simp only [this, decide_False]
      simp only [Bool.false_eq_true, if_false]
      omega
  rw [hv, toInt32_clampLong z hz]

/-! ## Screen parsing -/

theorem isDecimalInt_chars (a : CStr) (ha : IsDecimalInt a) :
    ∀ c ∈ a, c = '-' ∨ c = '+' ∨ isdigit c = true := by
  obtain ⟨sign, ds, rfl, hsign, _, hds⟩ := ha
  intro c hc
  rcases List.mem_append.1 hc with h | h
  · rcases hsign with rfl | rfl | rfl
    · simp at h
    · left; simpa using h
    · right; left; simpa using h
  · exact Or.inr (Or.inr (hds c h))

theorem isDecimalInt_length_pos (a : CStr) (ha : IsDecimalInt a) : 0 < a.length := by
  obtain ⟨sign, ds, rfl, _, hne, _⟩ := ha
  have := List.length_pos.2 hne
  simp only [List.length_append]
  omega

/-- The call of `sscanf` stores two values exactly on the inputs that start
with the shape it scans for. -/
theorem sscanf_dxd_eq_two_iff (arg : CStr) (sc : Screen) :
    (sscanf_dxd arg sc).1 = 2 ↔ StartsWithIntXInt arg := by
  constructor
  · intro h
    unfold sscanf_dxd at h
    cases h1 : scanInt arg with
    | none =>
      rw [h1] at h
      simp only at h
      split_ifs at h
      all_goals simp at h
    | some p =>
      obtain ⟨w, r1⟩ := p
      rw [h1] at h
      cases r1 with
      | nil => simp at h
      | cons c r2 =>
        by_cases hc : c = 'x'
        · subst hc
          simp only [if_true] at h
          cases h2 : scanInt r2 with
          | none => rw [h2] at h; simp at h
          | some q =>
            obtain ⟨hv, r3⟩ := q
            obtain ⟨w1, a, e1, hw1, ha⟩ := scanInt_some_split _ _ _ h1
            obtain ⟨w2, b, e2, hw2, hb⟩ := scanInt_some_split _ _ _ h2
            exact ⟨w1, a, w2, b, r3, by rw [e1, e2], hw1, hw2, ha, hb⟩
        · simp [hc] at h
  · rintro ⟨w1, a, w2, b, rest, rfl, hw1, hw2, ha, hb⟩
    obtain ⟨v1, r1, h1, hr1⟩ := scanInt_accepts w1 a ('x' :: (w2 ++ b ++ rest)) hw1 ha
    obtain ⟨v2, r2, h2, _⟩ := scanInt_accepts w2 b rest hw2 hb
    rw [hr1 (noDigitHead_x _)] at h1
    unfold sscanf_dxd
    rw [h1]
    simp only [h2, if_true]

/-- The value returned by `parse_screen` is 0 or 1. -/
theorem parse_screen_ret (arg : CStr) (sc : Screen) :
    (parse_screen arg sc).1 = 0 ∨ (parse_screen arg sc).1 = 1 := by
  unfold parse_screen
  split_ifs
  · exact Or.inr rfl
  · exact Or.inr rfl
  · by_cases h : (sscanf_dxd arg sc).1 = 2
    · right; simp [h]
    · left; simp [h]

theorem parse_screen_eq_one_iff (arg : CStr) (sc : Screen) :
    (parse_screen arg sc).1 = 1 ↔ arg = ['1'] ∨ arg = ['2'] ∨ StartsWithIntXInt arg := by
  rw [← sscanf_dxd_eq_two_iff arg sc]
  unfold parse_screen
  by_cases h1 : arg = ['1']
  · simp [h1]
  · by_cases h2 : arg = ['2']
    · simp [h2]
    · rw [if_neg h1, if_neg h2]
      by_cases h : (sscanf_dxd arg sc).1 = 2 <;> simp [h, h1, h2]

/-- C4 (as stated, refuted): the text `4294967296x5` is the decimal text of
two integers around the letter `x` and is accepted, but the width stored is 0,
not 4294967296: the field is an `int`. -/
theorem parse_screen_width_beyond_int :
    parse_screen (decimalText 4294967296 ++ 'x' :: decimalText 5) ⟨0, 0⟩ = (1, ⟨0, 5⟩)
    ∧ (parse_screen (decimalText 4294967296 ++ 'x' :: decimalText 5) ⟨0, 0⟩).2.width
        ≠ 4294967296 := by
  constructor <;> decide

/-- C4 (amended): `parse_screen` succeeds and sets the screen to 1920x1080 on
`1`, to 1280x800 on `2`, and, for all integers `W` and `H` in the range of an
`int`, to width `W` and height `H` on the decimal text of `W`, the letter `x`
and the decimal text of `H`. -/
theorem parse_screen_presets_and_sizes (W H : Int) (sc : Screen)
    (hW : InIntRange W) (hH : InIntRange H) :
    parse_screen "1".toList sc = (1, ⟨1920, 1080⟩)
    ∧ parse_screen "2".toList sc = (1, ⟨1280, 800⟩)
    ∧ parse_screen (decimalText W ++ 'x' :: decimalText H) sc = (1, ⟨W, H⟩) := by
  refine ⟨rfl, rfl, ?_⟩
  have hlen := isDecimalInt_length_pos _ (isDecimalInt_decimalText W)
  have h1 : decimalText W ++ 'x' :: decimalText H ≠ ['1'] := by
    intro h
    have := congrArg List.length h
    simp only [List.length_append, List.length_cons, List.length_nil] at this
    omega
  have h2 : decimalText W ++ 'x' :: decimalText H ≠ ['2'] := by
    intro h
    have := congrArg List.length h
    simp only [List.length_append, List.length_cons, List.length_nil] at this
    omega
  have hs1 := scanInt_decimalText W hW ('x' :: decimalText H) (noDigitHead_x _)
  have hs2 := scanInt_decimalText H hH [] noDigitHead_nil
  rw [List.append_nil] at hs2
  unfold parse_screen
  rw [if_neg h1, if_neg h2]
  unfold sscanf_dxd
  rw [hs1]
  simp only [if_true, hs2]

/-- Witness of C4: `2560x1440` gives 2560x1440. -/
theorem parse_screen_presets_and_sizes_witness :
    parse_screen "2560x1440".toList ⟨0, 0⟩ = (1, ⟨2560, 1440⟩) :=
  (parse_screen_presets_and_sizes 2560 1440 ⟨0, 0⟩
    ⟨by decide, by decide⟩ ⟨by decide, by decide⟩).2.2

/-! ## Command line scanning -/

theorem lt_length_of_getElem? {α : Type} (l : List α) (i : Nat) (e : α)
    (h : l[i]? = some e) : i < l.length := by
  by_contra hlt
  rw [List.getElem?_eq_none (by omega)] at h
  exact Option.noConfusion h

theorem takeWhile_nonoption_at (argv : List CStr) (i : Nat) (e : CStr)
    (h : argv[i]? = some e) (hn : nonoption e = false) :
    ((argv.drop i).takeWhile nonoption).length = 0 := by
  have hlt := lt_length_of_getElem? argv i e h
  have he : argv[i] = e := by
    rw [List.getElem?_eq_getElem hlt] at h
    exact Option.some.inj h
  rw [List.drop_eq_getElem_cons hlt, he, List.takeWhile_cons, hn]
  rfl

/-- A call of `getopt_long` at an element that is an option. -/
theorem getopt_long_at_option (argv : List CStr) (posix : Bool) (i : Nat) (e : CStr)
    (h : argv[i]? = some e) (hn : nonoption e = false) :
    getopt_long argv posix ⟨i, []⟩ =
      if e = ['-', '-'] then (.done, ⟨argv.length, []⟩)
      else
        match e with
        | '-' :: '-' :: text => longOption argv i text
        | '-' :: c :: rest => shortOption argv i c rest
        | _ => (.done, ⟨i, []⟩) := by
  have hlt := lt_length_of_getElem? argv i e h
  have hskip := takeWhile_nonoption_at argv i e h hn
  unfold getopt_long
  rw [if_neg (by omega)]
  simp only [hskip, Nat.add_zero, ite_self]
  unfold scanElement
  rw [if_neg (by omega), h]

theorem getopt_long_touchFlag (argv : List CStr) (posix : Bool) (i : Nat) (long : Bool)
    (h : argv[i]? = some (touchFlag long)) :
    getopt_long argv posix ⟨i, []⟩ = (.opt 't' none, ⟨i + 1, []⟩) := by
  rw [getopt_long_at_option argv posix i _ h (by cases long <;> rfl)]
  cases long <;> rfl

theorem getopt_long_screenFlag (argv : List CStr) (posix : Bool) (i : Nat) (long : Bool)
    (a : CStr) (h : argv[i]? = some (screenFlag long)) (ha : argv[i + 1]? = some a) :
    getopt_long argv posix ⟨i, []⟩ = (.opt 's' (some a), ⟨i + 2, []⟩) := by
  have hlt := lt_length_of_getElem? argv (i + 1) a ha
  rw [getopt_long_at_option argv posix i _ h (by cases long <;> rfl)]
  cases long
  · show shortOption argv i 's' [] = _
    unfold shortOption
    simp only [if_true, optstring]
    simp [ha, Nat.ne_of_lt hlt]
  · show longOption argv i "screen".toList = _
    unfold longOption
    have hf : findLong (List.takeWhile (fun c => decide (c ≠ '=')) "screen".toList)
        = some ⟨"screen".toList, true, 's'⟩ := by decide
    have ht : List.dropWhile (fun c => decide (c ≠ '=')) "screen".toList = [] := by decide
    simp only [hf, ht, ha, if_true]

theorem getopt_long_at_end (argv : List CStr) (posix : Bool) (hne : 1 ≤ argv.length) :
    getopt_long argv posix ⟨argv.length, []⟩ = (.done, ⟨argv.length, []⟩) := by
  unfold getopt_long
  rw [if_neg (by omega)]
  simp [scanElement]

/-! ## Termination of the option loop -/

theorem weight_drop_succ (argv : List CStr) (i : Nat) (e : CStr) (h : argv[i]? = some e) :
    weight (argv.drop i) = e.length + 1 + weight (argv.drop (i + 1)) := by
  have hlt := lt_length_of_getElem? argv i e h
  have he : argv[i] = e := by
    rw [List.getElem?_eq_getElem hlt] at h
    exact Option.some.inj h
  rw [List.drop_eq_getElem_cons hlt, he]
  simp [weight]

theorem weight_drop_succ_le (argv : List CStr) (i : Nat) :
    weight (argv.drop (i + 1)) ≤ weight (argv.drop i) := by
  cases h : argv[i]? with
  | none =>
    have hi : argv.length ≤ i := by
      by_contra hlt
      rw [List.getElem?_eq_getElem (by omega)] at h
      exact Option.noConfusion h
    rw [List.drop_eq_nil_of_le hi, List.drop_eq_nil_of_le (by omega)]
  | some e =>
    rw [weight_drop_succ argv i e h]
    omega

theorem weight_drop_mono (argv : List CStr) (i k : Nat) :
    weight (argv.drop (i + k)) ≤ weight (argv.drop i) := by
  induction k with
  | zero => exact le_refl _
  | succ k ih => exact le_trans (weight_drop_succ_le argv (i + k)) ih

theorem shortOption_remaining (argv : List CStr) (o : Nat) (c : Char) (rest : CStr)
    (r : GetoptResult) (g1 : GetoptState) (h : shortOption argv o c rest = (r, g1)) :
    remaining argv g1 ≤ weight (argv.drop (o + 1)) + rest.length := by
  have hm2 := weight_drop_mono argv (o + 1) 1
  unfold shortOption at h
  cases rest with
  | nil =>
    simp only [if_true, ne_eq, not_true_eq_false, if_false] at h
    cases hc : optstring c with
    | none =>
      simp only [hc, Prod.mk.injEq] at h
      rw [← h.2]; simp [remaining]
    | some b =>
      cases b with
      | false =>
        simp only [hc, Prod.mk.injEq] at h
        rw [← h.2]; simp [remaining]
      | true =>
        simp only [hc] at h
        split_ifs at h with h1
        · simp only [Prod.mk.injEq] at h
          rw [← h.2]; simp [remaining]
        · cases ha : argv[o + 1]? with
          | none =>
            simp only [ha, Prod.mk.injEq] at h
            rw [← h.2]; simp [remaining]
          | some a =>
            simp only [ha, Prod.mk.injEq] at h
            rw [← h.2]; simpa [remaining] using hm2
  | cons d ds =>
    have hne : ¬ (d :: ds = []) := by simp
    simp only [hne, if_false, ne_eq, not_false_eq_true, if_true] at h
    cases hc : optstring c with
    | none =>
      simp only [hc, Prod.mk.injEq] at h
      rw [← h.2]; simp [remaining]; omega
    | some b =>
      cases b with
      | false =>
        simp only [hc, Prod.mk.injEq] at h
        rw [← h.2]; simp [remaining]; omega
      | true =>
        simp only [hc, Prod.mk.injEq] at h
        rw [← h.2]; simp [remaining]

theorem longOption_remaining (argv : List CStr) (o : Nat) (text : CStr)
    (r : GetoptResult) (g1 : GetoptState) (h : longOption argv o text = (r, g1)) :
    remaining argv g1 ≤ weight (argv.drop (o + 1)) := by
  have hm2 := weight_drop_mono argv (o + 1) 1
  have key : g1 = ⟨o + 1, []⟩ ∨ g1 = ⟨o + 2, []⟩ := by
    unfold longOption at h
    simp only at h
    split at h
    · left; exact (Prod.mk.inj h).2.symm
    · split at h
      · split_ifs at h <;> left <;> exact (Prod.mk.inj h).2.symm
      · split_ifs at h
        · split at h
          · right; exact (Prod.mk.inj h).2.symm
          · left; exact (Prod.mk.inj h).2.symm
        · left; exact (Prod.mk.inj h).2.symm
  rcases key with rfl | rfl
  · simp [remaining]
  · simpa [remaining] using hm2

theorem scanElement_remaining (argv : List CStr) (o : Nat) (c : Char) (oa : Option CStr)
    (g1 : GetoptState) (h : scanElement argv o = (.opt c oa, g1)) :
    remaining argv g1 < weight (argv.drop o) := by
  unfold scanElement at h
  split_ifs at h with h1
  · exact GetoptResult.noConfusion (Prod.mk.inj h).1
  · cases he : argv[o]? with
    | none =>
      simp only [he] at h
      exact GetoptResult.noConfusion (Prod.mk.inj h).1
    | some e =>
      have hw := weight_drop_succ argv o e he
      simp only [he] at h
      split_ifs at h with h2
      · exact GetoptResult.noConfusion (Prod.mk.inj h).1
      · split at h
        · have := longOption_remaining argv o _ _ _ h
          omega
        · have := shortOption_remaining argv o _ _ _ _ h
          simp only [List.length_cons] at hw
          omega
        · exact GetoptResult.noConfusion (Prod.mk.inj h).1

theorem remaining_nil (argv : List CStr) (o : Nat) :
    remaining argv ⟨o, []⟩ = weight (argv.drop o) := rfl

theorem remaining_cons (argv : List CStr) (o : Nat) (d : Char) (rest : CStr) :
    remaining argv ⟨o, d :: rest⟩ = weight (argv.drop (o + 1)) + rest.length + 1 := rfl

/-- Every call of `getopt_long` that returns an option leaves less to scan. -/
theorem getopt_long_remaining (argv : List CStr) (posix : Bool) (g g1 : GetoptState)
    (c : Char) (oa : Option CStr) (h : getopt_long argv posix g = (.opt c oa, g1)) :
    remaining argv g1 < remaining argv g := by
  obtain ⟨o, nc⟩ := g
  have h0 : ¬ argv.length < 1 := by
    intro h0
    unfold getopt_long at h
    rw [if_pos h0] at h
    exact GetoptResult.noConfusion (Prod.mk.inj h).1
  unfold getopt_long at h
  rw [if_neg h0] at h
  cases nc with
  | cons d rest =>
    have := shortOption_remaining argv o d rest _ _ h
    rw [remaining_cons]
    omega
  | nil =>
    rw [remaining_nil]
    cases posix
    · have hm := weight_drop_mono argv o ((argv.drop o).takeWhile nonoption).length
      have hs : scanElement argv (o + ((argv.drop o).takeWhile nonoption).length)
          = (.opt c oa, g1) := h
      have := scanElement_remaining argv _ c oa g1 hs
      omega
    · have hs : scanElement argv o = (.opt c oa, g1) := h
      exact scanElement_remaining argv _ c oa g1 hs

theorem parse_touchscreen_args_ret (argv : List CStr) (o : Nat) (r : Int) (st : State) :
    (parse_touchscreen_args argv o r st).1 = 0 := rfl

/-- The body of `case 't'` with the test of the value returned by
`parse_touchscreen_args`, which is 0, removed. -/
theorem caseT_eq (argv : List CStr) (o : Nat) (st : State) :
    caseT argv o st =
      if o + 6 - 1 ≥ argv.length then .inl (.exit 1 [] [Diag.notEnoughArgs] st)
      else if (decide (o + 6 < argv.length) && startsWithDigit (arg argv (o + 6))) = true
          ∧ (if (decide (o + 6 < argv.length) && startsWithDigit (arg argv (o + 6))) = true
              then atoi (arg argv (o + 6)) else 0) ≠ 0
          ∧ (if (decide (o + 6 < argv.length) && startsWithDigit (arg argv (o + 6))) = true
              then atoi (arg argv (o + 6)) else 0) ≠ 90
          ∧ (if (decide (o + 6 < argv.length) && startsWithDigit (arg argv (o + 6))) = true
              then atoi (arg argv (o + 6)) else 0) ≠ 180
          ∧ (if (decide (o + 6 < argv.length) && startsWithDigit (arg argv (o + 6))) = true
              then atoi (arg argv (o + 6)) else 0) ≠ 270 then
        .inl (.exit 1 [] [Diag.invalidRotation
          (if (decide (o + 6 < argv.length) && startsWithDigit (arg argv (o + 6))) = true
            then atoi (arg argv (o + 6)) else 0)] st)
      else
        .inr (o + (if (decide (o + 6 < argv.length) && startsWithDigit (arg argv (o + 6))) = true
            then 7 else 6),
          (parse_touchscreen_args argv o
            (if (decide (o + 6 < argv.length) && startsWithDigit (arg argv (o + 6))) = true
              then atoi (arg argv (o + 6)) else 0) st).2) := by
  unfold caseT
  simp only [parse_touchscreen_args_ret, ne_eq, not_true_eq_false, if_false]

/-- The three ways `case 't'` can go. -/
theorem caseT_cases (argv : List CStr) (o : Nat) (st : State) :
    caseT argv o st = .inl (.exit 1 [] [Diag.notEnoughArgs] st)
    ∨ (∃ r, caseT argv o st = .inl (.exit 1 [] [Diag.invalidRotation r] st))
    ∨ (∃ k st1, caseT argv o st = .inr (o + k, st1)) := by
  rw [caseT_eq]
  by_cases h1 : o + 6 - 1 ≥ argv.length
  · rw [if_pos h1]
    exact Or.inl rfl
  · rw [if_neg h1]
    cases hb : (decide (o + 6 < argv.length) && startsWithDigit (arg argv (o + 6)))
    · simp only [Bool.false_eq_true, false_and, if_false]
      exact Or.inr (Or.inr ⟨_, _, rfl⟩)
    · simp only [true_and, if_true]
      split
      · exact Or.inr (Or.inl ⟨_, rfl⟩)
      · exact Or.inr (Or.inr ⟨_, _, rfl⟩)

theorem caseT_inr_optind (argv : List CStr) (o o1 : Nat) (st st1 : State)
    (h : caseT argv o st = .inr (o1, st1)) : ∃ k, o1 = o + k := by
  rcases caseT_cases argv o st with h1 | ⟨r, h1⟩ | ⟨k, st2, h1⟩
  · rw [h1] at h; exact Sum.noConfusion h
  · rw [h1] at h; exact Sum.noConfusion h
  · rw [h1] at h; exact ⟨k, (Prod.mk.inj (Sum.inr.inj h)).1.symm⟩

/-- One turn of the option loop. -/
theorem mainLoop_succ (argv : List CStr) (posix : Bool) (fuel : Nat) (g : GetoptState)
    (st : State) :
    mainLoop argv posix (fuel + 1) g st =
      match getopt_long argv posix g with
      | (.fault, _) => .fault
      | (.done, _) => finish st
      | (.opt c optarg, g1) =>
        if c = 'h' then .exit 0 (print_usage (arg argv 0)) [] st
        else if c = 's' then
          match optarg with
          | none => .fault
          | some a =>
            if (parse_screen a st.screen).1 = 0 then
              .exit 1 [] [Diag.invalidScreen a] { st with screen := (parse_screen a st.screen).2 }
            else mainLoop argv posix fuel g1 { st with screen := (parse_screen a st.screen).2 }
        else if c = 't' then
          match caseT argv g1.optind st with
          | .inl o => o
          | .inr (optind, st1) => mainLoop argv posix fuel ⟨optind, g1.nextchar⟩ st1
        else .exit 1 (print_usage (arg argv 0)) [Diag.getoptMessage] st := rfl

theorem remaining_optind_add (argv : List CStr) (o k : Nat) (nc : CStr) :
    remaining argv ⟨o + k, nc⟩ ≤ remaining argv ⟨o, nc⟩ := by
  cases nc with
  | nil => exact weight_drop_mono argv o k
  | cons d rest =>
    rw [remaining_cons, remaining_cons]
    have := weight_drop_mono argv (o + 1) k
    rw [show o + 1 + k = o + k + 1 by omega] at this
    omega

/-- The option loop never uses up a budget larger than what is left to scan. -/
theorem mainLoop_ne_timeout (argv : List CStr) (posix : Bool) :
    ∀ (fuel : Nat) (g : GetoptState) (st : State),
      remaining argv g < fuel → mainLoop argv posix fuel g st ≠ .timeout := by
  intro fuel
  induction fuel with
  | zero => intro g st h; omega
  | succ f ih =>
    intro g st h
    rw [mainLoop_succ]
    cases hgo : getopt_long argv posix g with
    | mk r g1 =>
      cases r with
      | done => simp [finish]
      | fault => simp
      | opt c oa =>
        have hdec := getopt_long_remaining argv posix g g1 c oa hgo
        simp only
        split_ifs with h1 h2 h3
        · simp
        · cases oa with
          | none => simp
          | some a =>
            simp only
            split_ifs
            · simp
            · exact ih _ _ (by omega)
        · cases hc : caseT argv g1.optind st with
          | inl o =>
            simp only
            rcases caseT_cases argv g1.optind st with h4 | ⟨r, h4⟩ | ⟨k, st2, h4⟩
            · rw [h4] at hc; rw [← Sum.inl.inj hc]; simp
            · rw [h4] at hc; rw [← Sum.inl.inj hc]; simp
            · rw [h4] at hc; exact Sum.noConfusion hc
          | inr p =>
            obtain ⟨o1, st1⟩ := p
            obtain ⟨k, rfl⟩ := caseT_inr_optind argv _ _ _ _ hc
            have := remaining_optind_add argv g1.optind k g1.nextchar
            have e : (⟨g1.optind, g1.nextchar⟩ : GetoptState) = g1 := rfl
            rw [e] at this
            exact ih _ _ (by omega)
        · simp

theorem weight_eq (l : List CStr) : weight l = (l.map List.length).sum + l.length := by
  induction l with
  | nil => rfl
  | cons e l ih =>
    simp only [weight, List.map_cons, List.sum_cons, List.length_cons] at ih ⊢
    omega

theorem remaining_start_lt (argv : List CStr) : remaining argv ⟨1, []⟩ < fuelFor argv := by
  have h := weight_drop_mono argv 0 1
  rw [remaining_nil]
  simp only [Nat.zero_add, List.drop_zero] at h
  rw [weight_eq argv] at h
  unfold fuelFor
  omega

/-- Function `main` always returns: the budget it gives the option loop is
never used up. -/
theorem main_ne_timeout (argv : List CStr) (posix : Bool) : main argv posix ≠ .timeout :=
  mainLoop_ne_timeout argv posix _ _ _ (remaining_start_lt argv)

/-- At every state the option loop reaches, the run is the rest of the loop
from that state, with budget to spare. -/
theorem main_eq_of_reaches (argv : List CStr) (posix : Bool) (g : GetoptState) (st : State)
    (h : Reaches argv posix g st) :
    ∃ f, remaining argv g < f ∧ main argv posix = mainLoop argv posix f g st := by
  induction h with
  | start => exact ⟨fuelFor argv, remaining_start_lt argv, rfl⟩
  | @screen g g1 st a _ hgo hacc ih =>
    obtain ⟨f, hf, hmain⟩ := ih
    have hdec := getopt_long_remaining argv posix g g1 _ _ hgo
    obtain ⟨f1, rfl⟩ : ∃ f1, f = f1 + 1 := ⟨f - 1, by omega⟩
    refine ⟨f1, by omega, ?_⟩
    rw [hmain, mainLoop_succ, hgo]
    have h1 : ¬ ('s' = 'h') := by decide
    simp only [h1, if_false, if_true, hacc]
  | @touch g g1 st st1 oa o _ hgo hct ih =>
    obtain ⟨f, hf, hmain⟩ := ih
    have hdec := getopt_long_remaining argv posix g g1 _ _ hgo
    obtain ⟨k, rfl⟩ := caseT_inr_optind argv _ _ _ _ hct
    have hle := remaining_optind_add argv g1.optind k g1.nextchar
    have e : (⟨g1.optind, g1.nextchar⟩ : GetoptState) = g1 := rfl
    rw [e] at hle
    obtain ⟨f1, rfl⟩ : ∃ f1, f = f1 + 1 := ⟨f - 1, by omega⟩
    refine ⟨f1, by omega, ?_⟩
    rw [hmain, mainLoop_succ, hgo]
    have h1 : ¬ ('t' = 'h') := by decide
    have h2 : ¬ ('t' = 's') := by decide
    simp only [h1, h2, if_false, if_true, hct]

/-! ## Screen option -/

theorem startsWithIntXInt_of_isIntXInt (s : CStr) (h : IsIntXInt s) : StartsWithIntXInt s := by
  obtain ⟨a, b, rfl, ha, hb⟩ := h
  exact ⟨[], a, [], b, [], by simp, by simp, by simp, ha, hb⟩

/-- A screen option whose value `parse_screen` rejects ends the run at once. -/
theorem mainLoop_screen_rejected (argv : List CStr) (posix : Bool) (f i : Nat) (long : Bool)
    (a : CStr) (st : State) (h : argv[i]? = some (screenFlag long))
    (ha : argv[i + 1]? = some a) (hrej : (parse_screen a st.screen).1 = 0) :
    mainLoop argv posix (f + 1) ⟨i, []⟩ st
      = .exit 1 [] [Diag.invalidScreen a] { st with screen := (parse_screen a st.screen).2 } := by
  rw [mainLoop_succ, getopt_long_screenFlag argv posix i long a h ha]
  have h1 : ¬ ('s' = 'h') := by decide
  simp only [h1, if_false, if_true, hrej]

/-- C5 (as stated, refuted): `10x20junk` is neither `1` nor `2` nor of the
shape `<int>x<int>`, and `parse_screen` accepts it, as 10x20. -/
theorem parse_screen_accepts_trailing_text :
    parse_screen "10x20junk".toList ⟨0, 0⟩ = (1, ⟨10, 20⟩)
    ∧ "10x20junk".toList ≠ ['1'] ∧ "10x20junk".toList ≠ ['2']
    ∧ ¬ IsIntXInt "10x20junk".toList := by
  refine ⟨by decide, by decide, by decide, ?_⟩
  rintro ⟨a, b, hab, ha, hb⟩
  have hj : 'j' ∈ a ++ 'x' :: b := by rw [← hab]; decide
  have hbad : ¬ ('j' = '-' ∨ 'j' = '+' ∨ isdigit 'j' = true) := by decide
  rcases List.mem_append.1 hj with h | h
  · exact hbad (isDecimalInt_chars a ha _ h)
  · rcases List.mem_cons.1 h with h | h
    · exact absurd h (by decide)
    · exact hbad (isDecimalInt_chars b hb _ h)

/-- C5 (amended): `parse_screen` succeeds if and only if its argument is `1`,
or `2`, or starts with the shape that `sscanf` scans for (white space, an
integer, `x`, white space, an integer; what follows is ignored); this covers
every argument of the shape `<int>x<int>`. On every other argument it returns
0, and a screen option with such a value ends the run with exit code 1 and the
invalid-screen diagnostic. -/
theorem parse_screen_accepts_iff (arg : CStr) (sc : Screen) :
    ((parse_screen arg sc).1 = 1 ↔ arg = ['1'] ∨ arg = ['2'] ∨ StartsWithIntXInt arg)
    ∧ ((parse_screen arg sc).1 = 0 ↔ ¬ (arg = ['1'] ∨ arg = ['2'] ∨ StartsWithIntXInt arg))
    ∧ (IsIntXInt arg → (parse_screen arg sc).1 = 1)
    ∧ (¬ (arg = ['1'] ∨ arg = ['2'] ∨ StartsWithIntXInt arg) →
        ∀ (prog : CStr) (long : Bool) (rest : List CStr) (posix : Bool),
          main (prog :: screenFlag long :: arg :: rest) posix
            = .exit 1 [] [Diag.invalidScreen arg]
                { State.init with screen := (parse_screen arg ⟨0, 0⟩).2 }) := by
  have hiff := parse_screen_eq_one_iff arg sc
  have h0 : (parse_screen arg sc).1 = 0
      ↔ ¬ (arg = ['1'] ∨ arg = ['2'] ∨ StartsWithIntXInt arg) := by
    rw [← hiff]
    rcases parse_screen_ret arg sc with h | h <;> simp [h]
  refine ⟨hiff, h0, fun h => hiff.2 (Or.inr (Or.inr (startsWithIntXInt_of_isIntXInt _ h))), ?_⟩
  intro hrej prog long rest posix
  have hrej0 : (parse_screen arg State.init.screen).1 = 0 := by
    rcases parse_screen_ret arg State.init.screen with h | h
    · exact h
    · exact absurd ((parse_screen_eq_one_iff arg _).1 h) hrej
  obtain ⟨f, hf, hmain⟩ := main_eq_of_reaches _ posix _ _
    (Reaches.start : Reaches (prog :: screenFlag long :: arg :: rest) posix _ _)
  obtain ⟨f1, rfl⟩ : ∃ f1, f = f1 + 1 := ⟨f - 1, by omega⟩
  rw [hmain]
  exact mainLoop_screen_rejected _ posix f1 1 long arg State.init (by simp) (by simp) hrej0

/-- Witness of C5: `bad` is rejected, so it has none of the three shapes. -/
theorem parse_screen_accepts_iff_witness :
    (parse_screen "bad".toList ⟨0, 0⟩).1 = 0
    ∧ ¬ ("bad".toList = ['1'] ∨ "bad".toList = ['2'] ∨ StartsWithIntXInt "bad".toList)
    ∧ main (words ["calibrate", "-s", "bad"]) false
        = .exit 1 [] [Diag.invalidScreen "bad".toList] State.init :=
  ⟨by decide,
   (parse_screen_accepts_iff "bad".toList ⟨0, 0⟩).2.1.1 (by decide),
   (parse_screen_accepts_iff "bad".toList ⟨0, 0⟩).2.2.2
     ((parse_screen_accepts_iff "bad".toList ⟨0, 0⟩).2.1.1 (by decide))
     "calibrate".toList false [] false⟩

/-! ## Touchscreen option -/

theorem arg_eq (argv : List CStr) (i : Nat) (e : CStr) (h : argv[i]? = some e) :
    arg argv i = e := by
  simp [arg, h]

/-- One turn of the option loop at a touchscreen flag. -/
theorem mainLoop_touchFlag (argv : List CStr) (posix : Bool) (f i : Nat) (long : Bool)
    (st : State) (h : argv[i]? = some (touchFlag long)) :
    mainLoop argv posix (f + 1) ⟨i, []⟩ st =
      match caseT argv (i + 1) st with
      | .inl o => o
      | .inr (optind, st1) => mainLoop argv posix f ⟨optind, []⟩ st1 := by
  rw [mainLoop_succ, getopt_long_touchFlag argv posix i long h]
  have h1 : ¬ ('t' = 'h') := by decide
  have h2 : ¬ ('t' = 's') := by decide
  simp only [h1, h2, if_false, if_true]

/-- The body of `case 't'` when a seventh token starts with a digit and `atoi`
of it is not a rotation. -/
theorem caseT_invalid_rotation (argv : List CStr) (o : Nat) (st : State) (rot : CStr)
    (hrot : argv[o + 6]? = some rot) (hd : startsWithDigit rot = true)
    (hv : atoi rot ≠ 0 ∧ atoi rot ≠ 90 ∧ atoi rot ≠ 180 ∧ atoi rot ≠ 270) :
    caseT argv o st = .inl (.exit 1 [] [Diag.invalidRotation (atoi rot)] st) := by
  have hlt := lt_length_of_getElem? argv (o + 6) rot hrot
  have hb : (decide (o + 6 < argv.length) && startsWithDigit (arg argv (o + 6))) = true := by
    rw [arg_eq argv _ rot hrot, hd]
    simp [hlt]
  rw [arg_eq argv _ rot hrot] at hb
  rw [caseT_eq, if_neg (by omega)]
  simp only [arg_eq argv _ rot hrot, hb, if_true, true_and]
  rw [if_pos hv]

/-- C7 (the code at the failing input): in `-th 1 2 3 4 5` only five tokens
follow the flag `-t`, yet there is no arity error: the element `-th` itself is
taken as the vendor id, a record is appended, and the run ends by printing the
usage text with exit code 0. -/
theorem clustered_touch_flag_passes_arity_test :
    main (words ["calibrate", "-th", "1", "2", "3", "4", "5"]) false
      = .exit 0 (print_usage "calibrate".toList) []
          ⟨⟨0, 0⟩, [⟨0, 0, 1, 2, 3, 4, 5, 0⟩], 2⟩ := by
  decide

theorem getElem?_append_length {α : Type} (pre tl : List α) (k : Nat) :
    (pre ++ tl)[pre.length + k]? = tl[k]? := by
  rw [List.getElem?_append_right (by omega)]
  congr 1
  omega

theorem arg_append (pre tl : List CStr) (k : Nat) :
    arg (pre ++ tl) (pre.length + k) = (tl[k]?).getD [] := by
  unfold arg
  rw [getElem?_append_length]

theorem startsWithDigit_flag (long : Bool) :
    startsWithDigit (touchFlag long) = false ∧ startsWithDigit (screenFlag long) = false := by
  cases long <;> exact ⟨rfl, rfl⟩

/-- What follows a descriptor in a sequence of options does not start with a
digit: it is a flag, or the end. -/
theorem startsWithDigit_tokensOf (rest : List Item) :
    startsWithDigit (((tokensOf rest)[0]?).getD []) = false := by
  cases rest with
  | nil => rfl
  | cons it rest =>
    cases it with
    | screen long value => exact (startsWithDigit_flag long).2
    | touch d => exact (startsWithDigit_flag d.long).1

/-- The body of `case 't'` when six tokens are there and what follows them
does not start with a digit: rotation 0, six elements passed over. -/
theorem caseT_no_rotation (argv : List CStr) (o : Nat) (st : State)
    (hlen : o + 5 < argv.length) (hnd : startsWithDigit (arg argv (o + 6)) = false) :
    caseT argv o st = .inr (o + 6, (parse_touchscreen_args argv o 0 st).2) := by
  rw [caseT_eq, if_neg (by omega)]
  simp only [hnd, Bool.and_false, Bool.false_eq_true, false_and, if_false]

/-- The body of `case 't'` when a seventh token starts with a digit and
converts to a rotation: that rotation, seven elements passed over. -/
theorem caseT_rotation (argv : List CStr) (o : Nat) (st : State)
    (hlen : o + 6 < argv.length) (hd : startsWithDigit (arg argv (o + 6)) = true)
    (hv : atoi (arg argv (o + 6)) = 0 ∨ atoi (arg argv (o + 6)) = 90
      ∨ atoi (arg argv (o + 6)) = 180 ∨ atoi (arg argv (o + 6)) = 270) :
    caseT argv o st
      = .inr (o + 7, (parse_touchscreen_args argv o (atoi (arg argv (o + 6))) st).2) := by
  have hb : (decide (o + 6 < argv.length) && startsWithDigit (arg argv (o + 6))) = true := by
    rw [hd]
    simp [hlen]
  have hnot : ¬ (atoi (arg argv (o + 6)) ≠ 0 ∧ atoi (arg argv (o + 6)) ≠ 90
      ∧ atoi (arg argv (o + 6)) ≠ 180 ∧ atoi (arg argv (o + 6)) ≠ 270) := by
    rintro ⟨h0, h1, h2, h3⟩
    rcases hv with hv | hv | hv | hv
    · exact h0 hv
    · exact h1 hv
    · exact h2 hv
    · exact h3 hv
  rw [caseT_eq, if_neg (by omega)]
  simp only [hb, if_true, true_and]
  rw [if_neg hnot]

/-- The body of `case 't'` on a well-formed descriptor followed by further
options: the record is appended and `optind` passes over the descriptor. -/
theorem caseT_descriptor (pre : List CStr) (d : Descriptor) (rest : List Item) (st : State)
    (hwf : d.WellFormed) :
    caseT (pre ++ (d.tokens ++ tokensOf rest)) (pre.length + 1) st
      = .inr (pre.length + d.tokens.length, applyItem st (.touch d)) := by
  obtain ⟨long, v, p, x, y, w, h, rot⟩ := d
  generalize hargv : pre ++ ((Descriptor.mk long v p x y w h rot).tokens ++ tokensOf rest) = argv
  have hlen : argv.length = pre.length + 7 + rot.toList.length + (tokensOf rest).length := by
    rw [← hargv]
    simp only [Descriptor.tokens, List.length_append, List.length_cons]
    omega
  have a0 : arg argv (pre.length + 1) = v := by rw [← hargv, arg_append]; simp [Descriptor.tokens]
  have a1 : arg argv (pre.length + 1 + 1) = p := by rw [← hargv, arg_append pre _ 2]; simp [Descriptor.tokens]
  have a2 : arg argv (pre.length + 1 + 2) = x := by rw [← hargv, arg_append pre _ 3]; simp [Descriptor.tokens]
  have a3 : arg argv (pre.length + 1 + 3) = y := by rw [← hargv, arg_append pre _ 4]; simp [Descriptor.tokens]
  have a4 : arg argv (pre.length + 1 + 4) = w := by rw [← hargv, arg_append pre _ 5]; simp [Descriptor.tokens]
  have a5 : arg argv (pre.length + 1 + 5) = h := by rw [← hargv, arg_append pre _ 6]; simp [Descriptor.tokens]
  have hst : ∀ r : Int, (parse_touchscreen_args argv (pre.length + 1) r st).2
      = { st with
          touchscreens := st.touchscreens ++
            [⟨st.touchscreens.length, toInt32 (strtol v 16), toInt32 (strtol p 16), atoi x,
              atoi y, atoi w, atoi h, r⟩]
          ts_capacity := grownCapacity st.touchscreens.length st.ts_capacity } := by
    intro r
    simp only [parse_touchscreen_args, a0, a1, a2, a3, a4, a5]
  cases rot with
  | none =>
    have a6 : arg argv (pre.length + 1 + 6) = ((tokensOf rest)[0]?).getD [] := by
      rw [← hargv, arg_append pre _ 7]; simp [Descriptor.tokens]
    have hnd : startsWithDigit (arg argv (pre.length + 1 + 6)) = false := by
      rw [a6]; exact startsWithDigit_tokensOf rest
    rw [caseT_no_rotation argv _ st (by omega) hnd, hst]
    rfl
  | some r =>
    have a6 : arg argv (pre.length + 1 + 6) = r := by
      rw [← hargv, arg_append pre _ 7]; simp [Descriptor.tokens]
    obtain ⟨hd, hv⟩ : startsWithDigit r = true
        ∧ (atoi r = 0 ∨ atoi r = 90 ∨ atoi r = 180 ∨ atoi r = 270) := hwf
    have hlen' : pre.length + 1 + 6 < argv.length := by
      rw [hlen]
      simp only [Option.toList, List.length_cons, List.length_nil]
      omega
    rw [caseT_rotation argv _ st hlen' (by rw [a6]; exact hd) (by rw [a6]; exact hv), hst, a6]
    rfl

theorem weight_drop_lt (argv : List CStr) (i k : Nat) (e : CStr) (h : argv[i]? = some e) :
    weight (argv.drop (i + 1 + k)) < weight (argv.drop i) := by
  have h1 := weight_drop_succ argv i e h
  have h2 := weight_drop_mono argv (i + 1) k
  omega

/-- The option loop on a sequence of well-formed options: every option has its
effect on the globals, in order, and the output stage follows. -/
theorem mainLoop_items (posix : Bool) :
    ∀ (items : List Item) (pre : List CStr) (st : State) (f : Nat),
      (∀ it ∈ items, it.WellFormed) → 1 ≤ pre.length →
      remaining (pre ++ tokensOf items) ⟨pre.length, []⟩ < f →
      mainLoop (pre ++ tokensOf items) posix f ⟨pre.length, []⟩ st
        = finish (applyItems st items) := by
  intro items
  induction items with
  | nil =>
    intro pre st f _ hpre hf
    obtain ⟨f1, rfl⟩ : ∃ f1, f = f1 + 1 := ⟨f - 1, by omega⟩
    have hlen : (pre ++ tokensOf []).length = pre.length := by simp [tokensOf]
    have hend := getopt_long_at_end (pre ++ tokensOf []) posix (by omega)
    rw [hlen] at hend
    rw [mainLoop_succ, hend]
    rfl
  | cons it rest ih =>
    intro pre st f hwf hpre hf
    obtain ⟨f1, rfl⟩ : ∃ f1, f = f1 + 1 := ⟨f - 1, by omega⟩
    have hwfr : ∀ it' ∈ rest, it'.WellFormed := fun it' h => hwf it' (List.mem_cons_of_mem _ h)
    have hwfi : it.WellFormed := hwf it (List.mem_cons_self _ _)
    rw [remaining_nil] at hf
    cases it with
    | screen long value =>
      have e : pre ++ tokensOf (Item.screen long value :: rest)
          = (pre ++ [screenFlag long, value]) ++ tokensOf rest := by
        simp [tokensOf, Item.tokens]
      have hl : (pre ++ [screenFlag long, value]).length = pre.length + 2 := by simp
      have h0 : (pre ++ tokensOf (Item.screen long value :: rest))[pre.length]?
          = some (screenFlag long) := by
        rw [← Nat.add_zero pre.length, getElem?_append_length]; rfl
      have h1 : (pre ++ tokensOf (Item.screen long value :: rest))[pre.length + 1]?
          = some value := by
        rw [getElem?_append_length]; simp [tokensOf, Item.tokens]
      have hacc : (parse_screen value st.screen).1 ≠ 0 := by
        rw [(parse_screen_eq_one_iff value st.screen).2 hwfi]
        decide
      have hlt := weight_drop_lt _ pre.length 1 _ h0
      rw [show pre.length + 1 + 1 = pre.length + 2 from rfl] at hlt
      rw [mainLoop_succ, getopt_long_screenFlag _ posix pre.length long value h0 h1]
      have hc : ¬ ('s' = 'h') := by decide
      simp only [hc, if_false, if_true, hacc]
      rw [e, ← hl]
      rw [e] at hlt hf
      exact ih _ _ f1 hwfr (by rw [hl]; omega)
        (by rw [remaining_nil, hl]; omega)
    | touch d =>
      have e : pre ++ tokensOf (Item.touch d :: rest)
          = (pre ++ d.tokens) ++ tokensOf rest := by
        simp [tokensOf, Item.tokens]
      have e2 : pre ++ tokensOf (Item.touch d :: rest)
          = pre ++ (d.tokens ++ tokensOf rest) := rfl
      have hl : (pre ++ d.tokens).length = pre.length + d.tokens.length := by simp
      have hdl : d.tokens.length = 1 + (6 + d.rotation.toList.length) := by
        simp only [Descriptor.tokens, List.length_cons]
        omega
      have h0 : (pre ++ tokensOf (Item.touch d :: rest))[pre.length]?
          = some (touchFlag d.long) := by
        rw [← Nat.add_zero pre.length, getElem?_append_length]; rfl
      have hlt := weight_drop_lt _ pre.length (6 + d.rotation.toList.length) _ h0
      rw [mainLoop_touchFlag _ posix f1 pre.length d.long st h0, e2,
        caseT_descriptor pre d rest st hwfi]
      simp only
      rw [← e2, e, ← hl]
      rw [e] at hlt hf
      exact ih _ _ f1 hwfr (by rw [hl]; omega)
        (by rw [remaining_nil, hl, hdl, ← Nat.add_assoc]; omega)

/-- A run on a command line made of well-formed options. -/
theorem main_commandLine (prog : CStr) (items : List Item) (posix : Bool)
    (hwf : ∀ it ∈ items, it.WellFormed) :
    main (commandLine prog items) posix = finish (applyItems State.init items) :=
  mainLoop_items posix items [prog] State.init _ hwf (le_refl 1)
    (remaining_start_lt (commandLine prog items))

theorem finish_eq (st : State) :
    finish st = .exit 0 (headerLine :: st.touchscreens.map (ruleLine (screenUsed st.screen)))
      (if st.screen.width = 0 ∨ st.screen.height = 0 then [Diag.noScreen] else [])
      { st with screen := screenUsed st.screen } := by
  unfold finish screenUsed
  by_cases h : st.screen.width = 0 ∨ st.screen.height = 0
  · have hb : (decide (st.screen.width = 0) || decide (st.screen.height = 0)) = true := by
      simpa using h
    simp only [hb, if_true, h]
  · have hb : (decide (st.screen.width = 0) || decide (st.screen.height = 0)) = false := by
      simpa using h
    simp only [hb, Bool.false_eq_true, if_false, h]

theorem applyItems_append (st : State) (a b : List Item) :
    applyItems st (a ++ b) = applyItems (applyItems st a) b := by
  induction a generalizing st with
  | nil => rfl
  | cons it a ih => exact ih (applyItem st it)

theorem descriptors_append (a b : List Item) :
    descriptors (a ++ b) = descriptors a ++ descriptors b := by
  induction a with
  | nil => rfl
  | cons it a ih =>
    cases it with
    | screen long value => exact ih
    | touch d =>
      show d :: descriptors (a ++ b) = d :: descriptors a ++ descriptors b
      rw [ih]
      rfl

/-- The records in the globals after a sequence of options are those there
before, then one per descriptor, in the order of the command line. -/
theorem applyItems_touchscreens (items : List Item) :
    ∀ st : State, (applyItems st items).touchscreens
      = st.touchscreens ++ records st.touchscreens.length (descriptors items) := by
  induction items with
  | nil => intro st; simp [applyItems, descriptors, records]
  | cons it rest ih =>
    intro st
    cases it with
    | screen long value =>
      rw [applyItems, ih]
      rfl
    | touch d =>
      rw [applyItems, ih]
      simp [applyItem, descriptors, records]

/-- Descriptors leave the screen in the globals as it is. -/
theorem applyItems_screen_of_touch (items : List Item)
    (h : ∀ it ∈ items, ∃ d, it = Item.touch d) :
    ∀ st : State, (applyItems st items).screen = st.screen := by
  induction items with
  | nil => intro st; rfl
  | cons it rest ih =>
    intro st
    obtain ⟨d, rfl⟩ := h it (List.mem_cons_self _ _)
    rw [applyItems, ih (fun it' h' => h it' (List.mem_cons_of_mem _ h'))]
    rfl

theorem records_length (ds : List Descriptor) : ∀ n, (records n ds).length = ds.length := by
  induction ds with
  | nil => intro n; rfl
  | cons d ds ih => intro n; simp [records, ih]

theorem records_getElem? (ds : List Descriptor) :
    ∀ (n i : Nat) (d : Descriptor), ds[i]? = some d →
      (records n ds)[i]? = some (d.record (n + i)) := by
  induction ds with
  | nil => intro n i d h; simp at h
  | cons e ds ih =>
    intro n i d h
    cases i with
    | zero =>
      simp only [List.getElem?_cons_zero, Option.some.injEq] at h
      subst h
      simp [records]
    | succ i =>
      simp only [List.getElem?_cons_succ] at h
      simp only [records, List.getElem?_cons_succ]
      rw [ih (n + 1) i d h]
      congr 2
      omega

/-- C9: on a command line made of well-formed options, `n` of them touchscreen
descriptors, the run returns 0 and writes the header line followed by exactly
`n` rule lines, and the rule line number `i` is the one of the record of the
descriptor number `i` of the command line, so it carries that descriptor's
vendor id and product id. -/
theorem rule_lines_in_command_line_order (prog : CStr) (items : List Item) (posix : Bool)
    (hwf : ∀ it ∈ items, it.WellFormed) :
    ∃ (out : List CStr) (err : List Diag) (st : State) (screen : Screen),
      main (commandLine prog items) posix = .exit 0 out err st
      ∧ out = headerLine :: (records 0 (descriptors items)).map (ruleLine screen)
      ∧ out.length = (descriptors items).length + 1
      ∧ ∀ (i : Nat) (d : Descriptor), (descriptors items)[i]? = some d →
          out[i + 1]? = some (ruleLine screen (d.record i))
            ∧ (d.record i).vendor_id = toInt32 (strtol d.vendor 16)
            ∧ (d.record i).product_id = toInt32 (strtol d.product 16) := by
  have hts := applyItems_touchscreens items State.init
  have hinit : State.init.touchscreens = [] := rfl
  rw [hinit, List.nil_append, List.length_nil] at hts
  refine ⟨headerLine :: (records 0 (descriptors items)).map
      (ruleLine (screenUsed (applyItems State.init items).screen)),
    (if (applyItems State.init items).screen.width = 0
        ∨ (applyItems State.init items).screen.height = 0 then [Diag.noScreen] else []),
    { applyItems State.init items with
      screen := screenUsed (applyItems State.init items).screen },
    screenUsed (applyItems State.init items).screen, ?_, rfl, ?_, ?_⟩
  · rw [main_commandLine prog items posix hwf, finish_eq]
    simp only [hts]
  · simp [records_length]
  · intro i d hd
    refine ⟨?_, rfl, rfl⟩
    rw [List.getElem?_cons_succ, List.getElem?_map, records_getElem? _ 0 i d hd, Nat.zero_add]
    rfl

/-- Witness of C9: the command line of the usage text. -/
theorem rule_lines_in_command_line_order_witness :
    ∃ (out : List CStr) (err : List Diag) (st : State) (screen : Screen),
      main (words ["calibrate", "--screen", "1",
          "--touchscreen", "0x1234", "0xabcd", "0", "0", "960", "1080",
          "--touchscreen", "0x5678", "0xef01", "960", "0", "960", "1080", "90"]) false
        = .exit 0 out err st
      ∧ out = [headerLine,
          ruleLine screen ⟨0, 0x1234, 0xabcd, 0, 0, 960, 1080, 0⟩,
          ruleLine screen ⟨1, 0x5678, 0xef01, 960, 0, 960, 1080, 90⟩] := by
  obtain ⟨out, err, st, screen, h1, h2, _, _⟩ :=
    rule_lines_in_command_line_order "calibrate".toList
      [ .screen true "1".toList,
        .touch ⟨true, "0x1234".toList, "0xabcd".toList, "0".toList, "0".toList,
          "960".toList, "1080".toList, none⟩,
        .touch ⟨true, "0x5678".toList, "0xef01".toList, "960".toList, "0".toList,
          "960".toList, "1080".toList, some "90".toList⟩ ] false
      (by
        intro it hit
        simp only [List.mem_cons, List.mem_singleton, List.not_mem_nil, or_false] at hit
        rcases hit with rfl | rfl | rfl
        · exact Or.inl rfl
        · exact True.intro
        · exact ⟨by decide, by decide⟩)
  exact ⟨out, err, st, screen, h1, h2⟩

/-- C10: on a command line made of well-formed touchscreen descriptors and no
screen option, the run returns 0 with the warning that no screen was given, and
its standard output is the one computed against 1920x1080: it is identical to
the standard output of the same command line with the option `-s 1920x1080`
(or `-s 1`, or the long form of the flag) put in at any place between the
descriptors. -/
theorem default_screen_same_output (prog : CStr) (items1 items2 : List Item) (long : Bool)
    (value : CStr) (posix : Bool)
    (hno : ∀ it ∈ items1 ++ items2, ∃ d, it = Item.touch d ∧ d.WellFormed)
    (hvalue : value = "1920x1080".toList ∨ value = "1".toList) :
    ∃ (out : List CStr) (st1 st2 : State),
      main (commandLine prog (items1 ++ items2)) posix = .exit 0 out [Diag.noScreen] st1
      ∧ main (commandLine prog (items1 ++ Item.screen long value :: items2)) posix
          = .exit 0 out [] st2
      ∧ out = headerLine
          :: (records 0 (descriptors (items1 ++ items2))).map (ruleLine ⟨1920, 1080⟩) := by
  have hwf : ∀ it ∈ items1 ++ items2, it.WellFormed := by
    intro it hit
    obtain ⟨d, rfl, hd⟩ := hno it hit
    exact hd
  have ht1 : ∀ it ∈ items1, ∃ d, it = Item.touch d := fun it hit => by
    obtain ⟨d, h, _⟩ := hno it (List.mem_append_left _ hit)
    exact ⟨d, h⟩
  have ht2 : ∀ it ∈ items2, ∃ d, it = Item.touch d := fun it hit => by
    obtain ⟨d, h, _⟩ := hno it (List.mem_append_right _ hit)
    exact ⟨d, h⟩
  have ht : ∀ it ∈ items1 ++ items2, ∃ d, it = Item.touch d := fun it hit => by
    obtain ⟨d, h, _⟩ := hno it hit
    exact ⟨d, h⟩
  have hvwf : (Item.screen long value).WellFormed := by
    rcases hvalue with rfl | rfl
    · exact Or.inr (Or.inr ((sscanf_dxd_eq_two_iff _ ⟨0, 0⟩).1 (by decide)))
    · exact Or.inl rfl
  have hwf2 : ∀ it ∈ items1 ++ Item.screen long value :: items2, it.WellFormed := by
    intro it hit
    rcases List.mem_append.1 hit with h | h
    · exact hwf it (List.mem_append_left _ h)
    · rcases List.mem_cons.1 h with rfl | h
      · exact hvwf
      · exact hwf it (List.mem_append_right _ h)
  have hparse : (parse_screen value ⟨0, 0⟩).2 = ⟨1920, 1080⟩ := by
    rcases hvalue with rfl | rfl <;> decide
  -- the screen in the globals at the end of both runs
  have hsc1 : (applyItems State.init (items1 ++ items2)).screen = ⟨0, 0⟩ :=
    applyItems_screen_of_touch _ ht State.init
  have hsc2 : (applyItems State.init (items1 ++ Item.screen long value :: items2)).screen
      = ⟨1920, 1080⟩ := by
    rw [applyItems_append, applyItems, applyItems_screen_of_touch _ ht2]
    show (parse_screen value (applyItems State.init items1).screen).2 = _
    rw [applyItems_screen_of_touch _ ht1]
    exact hparse
  -- the records at the end of both runs
  have hts1 := applyItems_touchscreens (items1 ++ items2) State.init
  have hts2 := applyItems_touchscreens (items1 ++ Item.screen long value :: items2) State.init
  have hd2 : descriptors (items1 ++ Item.screen long value :: items2)
      = descriptors (items1 ++ items2) := by
    rw [descriptors_append, descriptors_append]
    rfl
  have hinit : State.init.touchscreens = [] := rfl
  rw [hinit, List.nil_append, List.length_nil] at hts1 hts2
  rw [hd2] at hts2
  have hu1 : screenUsed (⟨0, 0⟩ : Screen) = ⟨1920, 1080⟩ := by decide
  have hu2 : screenUsed (⟨1920, 1080⟩ : Screen) = ⟨1920, 1080⟩ := by decide
  refine ⟨_, ⟨⟨1920, 1080⟩, records 0 (descriptors (items1 ++ items2)),
      (applyItems State.init (items1 ++ items2)).ts_capacity⟩,
    ⟨⟨1920, 1080⟩, records 0 (descriptors (items1 ++ items2)),
      (applyItems State.init (items1 ++ Item.screen long value :: items2)).ts_capacity⟩,
    ?_, ?_, rfl⟩
  · rw [main_commandLine prog _ posix hwf, finish_eq, hsc1, hu1, hts1, if_pos (Or.inl rfl)]
  · rw [main_commandLine prog _ posix hwf2, finish_eq, hsc2, hu2, hts2,
      if_neg (by decide)]

/-- Witness of C10: one descriptor, without and with `-s 1920x1080` before it. -/
theorem default_screen_same_output_witness :
    ∃ (out : List CStr) (st1 st2 : State),
      main (words ["calibrate", "-t", "1234", "abcd", "0", "0", "960", "1080"]) false
        = .exit 0 out [Diag.noScreen] st1
      ∧ main (words ["calibrate", "-s", "1920x1080", "-t", "1234", "abcd", "0", "0", "960",
          "1080"]) false = .exit 0 out [] st2
      ∧ out = [headerLine, ruleLine ⟨1920, 1080⟩ ⟨0, 0x1234, 0xabcd, 0, 0, 960, 1080, 0⟩] :=
  default_screen_same_output "calibrate".toList []
    [.touch ⟨false, "1234".toList, "abcd".toList, "0".toList, "0".toList, "960".toList,
      "1080".toList, none⟩] false "1920x1080".toList false
    (by
      intro it hit
      simp only [List.nil_append, List.mem_singleton] at hit
      exact ⟨_, hit, True.intro⟩)
    (Or.inl rfl)

/-! ## Floating point -/

theorem roundHalfEven_err (x : ℚ) : |roundHalfEven x - x| ≤ 1 / 2 := by
  have h1 : (⌊x⌋ : ℚ) ≤ x := Int.floor_le x
  have h2 : x < (⌊x⌋ : ℚ) + 1 := Int.lt_floor_add_one x
  unfold roundHalfEven
  rw [abs_le]
  split_ifs <;> constructor <;> linarith

theorem roundHalfEven_nonneg (x : ℚ) (hx : 0 ≤ x) : 0 ≤ roundHalfEven x := by
  have h0 : (0 : ℚ) ≤ (⌊x⌋ : ℚ) := by exact_mod_cast Int.floor_nonneg.2 hx
  unfold roundHalfEven
  split_ifs <;> linarith

theorem roundLoop_err (p : Nat) (hp : 1 ≤ p) (f : Nat) :
    ∀ q : ℚ, (2 : ℚ) ^ (p - 1) ≤ q * 2 ^ f → q < 2 ^ p * 2 ^ f →
      |roundLoop p f q - q| ≤ q / 2 ^ p := by
  have hpp : (2 : ℚ) ^ p = 2 * 2 ^ (p - 1) := by
    obtain ⟨k, rfl⟩ : ∃ k, p = k + 1 := ⟨p - 1, by omega⟩
    simp [pow_succ, mul_comm]
  have hpos : (0 : ℚ) < 2 ^ (p - 1) := by positivity
  have hbase : ∀ q : ℚ, (2 : ℚ) ^ (p - 1) ≤ q → |roundHalfEven q - q| ≤ q / 2 ^ p := by
    intro q hq
    refine le_trans (roundHalfEven_err q) ?_
    rw [le_div_iff₀ (by positivity), hpp]
    linarith
  induction f with
  | zero =>
    intro q h1 _
    simp only [pow_zero, mul_one] at h1
    exact hbase q h1
  | succ f ih =>
    intro q h1 h2
    have h2f : (0 : ℚ) < 2 ^ f := by positivity
    rw [pow_succ] at h1 h2
    unfold roundLoop
    split_ifs with ha hb
    · have := ih (q / 2) (by
        have : (2 : ℚ) ^ (p - 1) ≤ q / 2 := by rw [hpp] at ha; linarith
        calc (2 : ℚ) ^ (p - 1) ≤ q / 2 := this
          _ = q / 2 * 1 := by ring
          _ ≤ q / 2 * 2 ^ f := by
            apply mul_le_mul_of_nonneg_left (one_le_pow₀ (by norm_num)) (by linarith))
        (by linarith)
      rw [abs_le] at this ⊢
      have e : q / 2 / 2 ^ p = q / 2 ^ p / 2 := by ring
      rw [e] at this
      constructor <;> linarith [this.1, this.2]
    · have := ih (2 * q) (by linarith) (by
        calc 2 * q < 2 * 2 ^ (p - 1) := by linarith
          _ = 2 ^ p * 1 := by rw [hpp]; ring
          _ ≤ 2 ^ p * 2 ^ f := by
            apply mul_le_mul_of_nonneg_left (one_le_pow₀ (by norm_num)) (by positivity))
      rw [abs_le] at this ⊢
      have e : 2 * q / 2 ^ p = 2 * (q / 2 ^ p) := by ring
      rw [e] at this
      constructor <;> linarith [this.1, this.2]
    · exact hbase q (not_lt.1 hb)

theorem roundLoop_nonneg (p : Nat) (f : Nat) : ∀ q : ℚ, 0 ≤ q → 0 ≤ roundLoop p f q := by
  induction f with
  | zero => exact fun q hq => roundHalfEven_nonneg q hq
  | succ f ih =>
    intro q hq
    unfold roundLoop
    split_ifs
    · have := ih (q / 2) (by linarith)
      linarith
    · have := ih (2 * q) (by linarith)
      linarith
    · exact roundHalfEven_nonneg q hq

theorem roundMag_nonneg (p : Nat) (q : ℚ) : 0 ≤ roundMag p q := by
  unfold roundMag
  split_ifs with h
  · exact le_refl 0
  · exact roundLoop_nonneg p _ q (le_of_lt (not_le.1 h))

theorem roundMag_zero (p : Nat) : roundMag p 0 = 0 := by
  simp [roundMag]

/-- Rounding to `p` bits changes a magnitude by at most its `2^p`-th part. -/
theorem roundMag_err (p : Nat) (hp : 1 ≤ p) (q : ℚ) (hq : 0 ≤ q) :
    |roundMag p q - q| ≤ q / 2 ^ p := by
  unfold roundMag
  split_ifs with h
  · have : q = 0 := le_antisymm h hq
    subst this
    simp
  · have hq0 : 0 < q := not_le.1 h
    have hnum : 0 < q.num := Rat.num_pos.2 hq0
    have hden : (0 : ℚ) < q.den := by exact_mod_cast q.den_pos
    have hmul : q * q.den = (q.num.natAbs : ℚ) := by
      have hn : ((q.num.natAbs : Int) : ℚ) = q.num := by
        rw [Int.natAbs_of_nonneg (le_of_lt hnum)]
      have hc : ((q.num.natAbs : Nat) : ℚ) = ((q.num.natAbs : Int) : ℚ) :=
        (Int.cast_natCast _).symm
      rw [hc, hn]
      exact Rat.mul_den_eq_num q
    have hn1 : (1 : ℚ) ≤ q.num.natAbs := by
      have : 1 ≤ q.num.natAbs := by omega
      exact_mod_cast this
    have hpow : ∀ n : Nat, (n : ℚ) < 2 ^ n := by
      intro n
      exact_mod_cast Nat.lt_two_pow n
    have hsplit : (2 : ℚ) ^ (q.num.natAbs + q.den + p)
        = 2 ^ q.num.natAbs * 2 ^ q.den * 2 ^ p := by
      rw [pow_add, pow_add]
    have h1n : (1 : ℚ) ≤ 2 ^ q.num.natAbs := one_le_pow₀ (by norm_num)
    have h1d : (1 : ℚ) ≤ 2 ^ q.den := one_le_pow₀ (by norm_num)
    have hp2 : (2 : ℚ) ^ (p - 1) ≤ 2 ^ p := pow_le_pow_right₀ (by norm_num) (by omega)
    have hpp : (0 : ℚ) < 2 ^ p := by positivity
    have hqd : 1 ≤ q * q.den := by
      rw [hmul]
      exact hn1
    apply roundLoop_err p hp
    · rw [hsplit]
      have hdd := hpow q.den
      calc (2 : ℚ) ^ (p - 1) ≤ 2 ^ p := hp2
        _ = 1 * 1 * 2 ^ p := by ring
        _ ≤ (q * q.den) * 2 ^ q.num.natAbs * 2 ^ p := by gcongr
        _ ≤ (q * 2 ^ q.den) * 2 ^ q.num.natAbs * 2 ^ p := by gcongr
        _ = q * (2 ^ q.num.natAbs * 2 ^ q.den * 2 ^ p) := by ring
    · rw [hsplit]
      have hqn : q ≤ q.num.natAbs := by
        have h1 : (1 : ℚ) ≤ q.den := by exact_mod_cast q.den_pos
        have : q * 1 ≤ q * q.den := mul_le_mul_of_nonneg_left h1 hq
        linarith
      calc q ≤ q.num.natAbs := hqn
        _ < 2 ^ q.num.natAbs := hpow _
        _ = 2 ^ q.num.natAbs * 1 * 1 := by ring
        _ ≤ 2 ^ q.num.natAbs * 2 ^ q.den * 2 ^ p := by
          gcongr
          exact one_le_pow₀ (by norm_num)
        _ = 2 ^ p * (2 ^ q.num.natAbs * 2 ^ q.den * 2 ^ p) / 2 ^ p := by field_simp
        _ ≤ 2 ^ p * (2 ^ q.num.natAbs * 2 ^ q.den * 2 ^ p) := by
          apply div_le_self (by positivity)
          exact one_le_pow₀ (by norm_num)

theorem roundMag_pos (p : Nat) (hp : 1 ≤ p) (q : ℚ) (hq : 0 < q) : 0 < roundMag p q := by
  have h := roundMag_err p hp q (le_of_lt hq)
  have h2 : q / 2 ^ p ≤ q / 2 := by
    apply div_le_div_of_nonneg_left (le_of_lt hq) (by norm_num)
    calc (2 : ℚ) = 2 ^ 1 := by norm_num
      _ ≤ 2 ^ p := pow_le_pow_right₀ (by norm_num) hp
  rw [abs_le] at h
  linarith [h.1]

theorem Flt.toRat_mk (b : Bool) (m : ℚ) :
    Flt.toRat ⟨b, m⟩ = (if b = true then (-1 : ℚ) else 1) * m := by
  cases b <;> simp [Flt.toRat]

theorem abs_sign_mul (b : Bool) (x y : ℚ) :
    |(if b = true then (-1 : ℚ) else 1) * x - (if b = true then (-1 : ℚ) else 1) * y|
      = |x - y| := by
  cases b
  · simp
  · simp only [if_true]
    rw [show (-1 : ℚ) * x - -1 * y = -(x - y) by ring, abs_neg]

/-- A quotient of two rounded magnitudes, rounded: the relative error against
the exact quotient is at most `2^-22`. -/
theorem roundMag_div_err (α β : ℚ) (hα : 0 ≤ α) (hβ : 0 < β) :
    |roundMag 24 (roundMag 24 α / roundMag 24 β) - α / β| ≤ α / β / 2 ^ 22 := by
  have hA := roundMag_err 24 (by norm_num) α hα
  have hB := roundMag_err 24 (by norm_num) β (le_of_lt hβ)
  have hBpos := roundMag_pos 24 (by norm_num) β hβ
  have hA0 := roundMag_nonneg 24 α
  have hQ0 : 0 ≤ roundMag 24 α / roundMag 24 β := div_nonneg hA0 (le_of_lt hBpos)
  have hR := roundMag_err 24 (by norm_num) _ hQ0
  have hs : 0 ≤ α / β := div_nonneg hα (le_of_lt hβ)
  rw [abs_le] at hA hB hR
  norm_num at hA hB hR
  have hup : roundMag 24 α / roundMag 24 β
      ≤ ((1 + 1 / 16777216) * α) / ((1 - 1 / 16777216) * β) := by
    apply div_le_div₀
    · exact mul_nonneg (by norm_num) hα
    · linarith [hA.2]
    · exact mul_pos (by norm_num) hβ
    · linarith [hB.1]
  have hlo : ((1 - 1 / 16777216) * α) / ((1 + 1 / 16777216) * β)
      ≤ roundMag 24 α / roundMag 24 β := by
    apply div_le_div₀
    · exact hA0
    · linarith [hA.1]
    · exact hBpos
    · linarith [hB.2]
  rw [mul_div_mul_comm] at hup hlo
  norm_num at hup hlo
  rw [abs_le]
  norm_num
  constructor <;> linarith [hR.1, hR.2]

/-- The quotient `(float)a / b` of two `int`s lies within the `2^22`-th part
of the exact quotient. -/
theorem div_ofInt_err (a b : Int) (hb : b ≠ 0) :
    |(Flt.div (Flt.ofInt a) (Flt.ofInt b)).toRat - (a : ℚ) / b| ≤ |(a : ℚ) / b| / 2 ^ 22 := by
  have hbq : (b : ℚ) ≠ 0 := by exact_mod_cast hb
  have hβ : 0 < |(b : ℚ)| := abs_pos.2 hbq
  have hsign : (a : ℚ) / b
      = (if xor (decide (a < 0)) (decide (b < 0)) = true then (-1 : ℚ) else 1)
          * (|(a : ℚ)| / |(b : ℚ)|) := by
    by_cases ha : a < 0 <;> by_cases hb0 : b < 0
    · have h1 : (a : ℚ) < 0 := by exact_mod_cast ha
      have h2 : (b : ℚ) < 0 := by exact_mod_cast hb0
      simp [ha, hb0, abs_of_neg h1, abs_of_neg h2]
    · have h1 : (a : ℚ) < 0 := by exact_mod_cast ha
      have h2 : (0 : ℚ) ≤ b := by exact_mod_cast not_lt.1 hb0
      simp [ha, hb0, abs_of_neg h1, abs_of_nonneg h2, neg_div]
    · have h1 : (0 : ℚ) ≤ a := by exact_mod_cast not_lt.1 ha
      have h2 : (b : ℚ) < 0 := by exact_mod_cast hb0
      simp [ha, hb0, abs_of_nonneg h1, abs_of_neg h2, div_neg]
    · have h1 : (0 : ℚ) ≤ a := by exact_mod_cast not_lt.1 ha
      have h2 : (0 : ℚ) ≤ b := by exact_mod_cast not_lt.1 hb0
      simp [ha, hb0, abs_of_nonneg h1, abs_of_nonneg h2]
  have habs : |(a : ℚ) / b| = |(a : ℚ)| / |(b : ℚ)| := abs_div _ _
  rw [habs]
  nth_rewrite 1 [hsign]
  simp only [Flt.div, Flt.ofInt, Flt.toRat_mk]
  rw [abs_sign_mul]
  exact roundMag_div_err _ _ (abs_nonneg _) hβ

theorem abs_signed_sub (d r : ℚ) :
    |(if decide (d < 0) = true then (-1 : ℚ) else 1) * r - d| = |r - (|d|)| := by
  by_cases hneg : d < 0
  · simp only [hneg, decide_True, if_true, abs_of_neg hneg]
    rw [show (-1 : ℚ) * r - d = -(r - -d) by ring, abs_neg]
  · simp [hneg, abs_of_nonneg (not_lt.1 hneg)]

theorem dsub_mag_nonneg (a b : Flt) : 0 ≤ (Flt.dsub a b).mag := by
  unfold Flt.dsub
  split_ifs
  · exact le_refl 0
  · exact roundMag_nonneg 53 _

/-- A `double` subtraction changes the exact difference by at most its
`2^53`-th part. -/
theorem dsub_err (a b : Flt) :
    |(Flt.dsub a b).toRat - (a.toRat - b.toRat)| ≤ |a.toRat - b.toRat| / 2 ^ 53 := by
  unfold Flt.dsub
  split_ifs with h
  · rw [h, Flt.toRat_mk]
    simp
  · rw [Flt.toRat_mk, abs_signed_sub]
    exact roundMag_err 53 (by norm_num) _ (abs_nonneg _)

/-- The conversion of a `double` to `float` changes the value by at most its
`2^24`-th part. -/
theorem toFloat_err (x : Flt) (hx : 0 ≤ x.mag) :
    |(Flt.toFloat x).toRat - x.toRat| ≤ |x.toRat| / 2 ^ 24 := by
  obtain ⟨n, m⟩ := x
  have hm : 0 ≤ m := hx
  have habs : |Flt.toRat ⟨n, m⟩| = m := by
    rw [Flt.toRat_mk]
    cases n
    · simp [abs_of_nonneg hm]
    · simp [abs_of_nonneg hm]
  rw [habs]
  simp only [Flt.toFloat, Flt.toRat_mk]
  rw [abs_sign_mul]
  exact roundMag_err 24 (by norm_num) _ hm

theorem one_toRat : (1 : Flt).toRat = 1 := by
  show Flt.toRat ⟨false, 1⟩ = 1
  simp [Flt.toRat]

theorem translation_arith (c d2 d1 o s o' s' : ℚ)
    (h3 : |c - d2| ≤ |d2| / 2 ^ 24) (h2 : |d2 - (d1 - s)| ≤ |d1 - s| / 2 ^ 53)
    (h1 : |d1 - (1 - o)| ≤ |1 - o| / 2 ^ 53)
    (ho : |o - o'| ≤ |o'| / 2 ^ 22) (hs : |s - s'| ≤ |s'| / 2 ^ 22) :
    |c - (1 - o' - s')| ≤ (1 + |o'| + |s'|) / 2 ^ 21 := by
  have ao := abs_nonneg o'
  have az := abs_nonneg s'
  have t1 : |1 - o| ≤ 1 + |o| := by
    have := abs_sub (1 : ℚ) o
    rwa [abs_one] at this
  have tro : |o| ≤ |o'| + |o - o'| := by
    have := abs_add (o - o') o'
    rw [sub_add_cancel] at this
    linarith
  have trs : |s| ≤ |s'| + |s - s'| := by
    have := abs_add (s - s') s'
    rw [sub_add_cancel] at this
    linarith
  have td1 : |d1| ≤ |1 - o| + |d1 - (1 - o)| := by
    have := abs_add (d1 - (1 - o)) (1 - o)
    rw [sub_add_cancel] at this
    linarith
  have t2 : |d1 - s| ≤ |d1| + |s| := abs_sub _ _
  have td2 : |d2| ≤ |d1 - s| + |d2 - (d1 - s)| := by
    have := abs_add (d2 - (d1 - s)) (d1 - s)
    rw [sub_add_cancel] at this
    linarith
  have e1 := abs_le.1 h1
  have e2 := abs_le.1 h2
  have e3 := abs_le.1 h3
  have eo := abs_le.1 ho
  have es := abs_le.1 hs
  have n1 : |1 - o| / 2 ^ 53 ≤ |1 - o| / 2 ^ 24 :=
    div_le_div_of_nonneg_left (abs_nonneg _) (by norm_num) (by norm_num)
  have n2 : |d1 - s| / 2 ^ 53 ≤ |d1 - s| / 2 ^ 24 :=
    div_le_div_of_nonneg_left (abs_nonneg _) (by norm_num) (by norm_num)
  rw [abs_le]
  norm_num at *
  constructor <;> linarith

/-- The translation term `1.0 - o - s`, evaluated in `double` and stored in a
`float`, against the exact `1 - o' - s'`. -/
theorem translation_err (o s : Flt) (o' s' : ℚ)
    (ho : |o.toRat - o'| ≤ |o'| / 2 ^ 22) (hs : |s.toRat - s'| ≤ |s'| / 2 ^ 22) :
    |(Flt.toFloat (Flt.dsub (Flt.dsub 1 o) s)).toRat - (1 - o' - s')|
      ≤ (1 + |o'| + |s'|) / 2 ^ 21 := by
  have h1 := dsub_err 1 o
  have h2 := dsub_err (Flt.dsub 1 o) s
  have h3 := toFloat_err (Flt.dsub (Flt.dsub 1 o) s) (dsub_mag_nonneg _ _)
  rw [one_toRat] at h1
  exact translation_arith _ _ _ _ _ _ _ h3 h2 h1 ho hs

/-! ## Matrix calculator -/

theorem zero_toRat : (0 : Flt).toRat = 0 := by
  show Flt.toRat ⟨false, 0⟩ = 0
  simp [Flt.toRat]

theorem neg_toRat (x : Flt) : (-x).toRat = -x.toRat := by
  obtain ⟨n, m⟩ := x
  show Flt.toRat ⟨!n, m⟩ = -Flt.toRat ⟨n, m⟩
  cases n <;> simp [Flt.toRat]

/-- A coefficient that is a plain quotient, or its opposite, against the
tolerance of the table. -/
theorem entry_within (x : Flt) (v e : ℚ) (h : |x.toRat - v| ≤ |v| / 2 ^ 22)
    (he : |v| / 2 ^ 22 ≤ e) : |x.toRat - v| ≤ e ∧ |(-x).toRat - -v| ≤ e := by
  refine ⟨le_trans h he, ?_⟩
  rw [neg_toRat, show -x.toRat - -v = -(x.toRat - v) by ring, abs_neg]
  exact le_trans h he

/-- C1 (as stated, refuted): the coefficients are `float`s, not exact
rationals. On a 640x480 screen a touchscreen of width 67 gets
`c0 = 7025459 / 2^26`, not 67/640, written `0.104687` where the exact quotient
0.1046875 would be written `0.104688`; a width of 16777217 on a screen of
width 1 gets `c0 = 16777216`; and a width of 0 with rotation 180 gets the
negative zero for `c0`, written `-0.000000`. -/
theorem coefficients_are_rounded :
    (coefficients ⟨640, 480⟩ ⟨0, 0x1234, 0xabcd, 0, 0, 67, 480, 0⟩).c0
        = ⟨false, 7025459 / 67108864⟩
    ∧ specTable 0 ((67 : Int) / (640 : Int)) ((480 : Int) / (480 : Int))
          ((0 : Int) / (640 : Int)) ((0 : Int) / (480 : Int))
        ≠ some (coefficients ⟨640, 480⟩ ⟨0, 0x1234, 0xabcd, 0, 0, 67, 480, 0⟩).values
    ∧ matrixText (coefficients ⟨640, 480⟩ ⟨0, 0x1234, 0xabcd, 0, 0, 67, 480, 0⟩)
        = "0.104687 0.000000 0.000000 0.000000 1.000000 0.000000".toList
    ∧ (coefficients ⟨1, 1⟩ ⟨0, 0x1234, 0xabcd, 0, 0, 16777217, 1, 0⟩).values.t0 = 16777216
    ∧ matrixText (coefficients ⟨1920, 1080⟩ ⟨0, 0x1234, 0xabcd, 0, 0, 0, 1080, 180⟩)
        = "-0.000000 0.000000 1.000000 0.000000 -1.000000 0.000000".toList := by
  decide!

/-- C1 (amended): for a screen of non-zero width and height and a rotation
among 0, 90, 180, 270, with `sx`, `sy`, `ox`, `oy` the exact quotients, each of
the six coefficients computed by the output loop, taken as the real number the
`float` stands for, lies within `(1 + |sx| + |sy| + |ox| + |oy|) / 2^21` of its
entry in the row of the table of section 4.1 for that rotation. -/
theorem coefficients_near_specTable (screen : Screen) (ts : Touchscreen)
    (hw : screen.width ≠ 0) (hh : screen.height ≠ 0)
    (hr : ts.rotation = 0 ∨ ts.rotation = 90 ∨ ts.rotation = 180 ∨ ts.rotation = 270) :
    ∃ row : Row,
      specTable ts.rotation ((ts.width : ℚ) / screen.width) ((ts.height : ℚ) / screen.height)
        ((ts.x_offset : ℚ) / screen.width) ((ts.y_offset : ℚ) / screen.height) = some row
      ∧ Row.Within
          ((1 + |(ts.width : ℚ) / screen.width| + |(ts.height : ℚ) / screen.height|
            + |(ts.x_offset : ℚ) / screen.width| + |(ts.y_offset : ℚ) / screen.height|)
            / 2 ^ 21)
          (coefficients screen ts).values row := by
  have hsx := div_ofInt_err ts.width screen.width hw
  have hsy := div_ofInt_err ts.height screen.height hh
  have hox := div_ofInt_err ts.x_offset screen.width hw
  have hoy := div_ofInt_err ts.y_offset screen.height hh
  have htx := translation_err _ _ _ _ hox hsx
  have hty := translation_err _ _ _ _ hoy hsy
  have asx := abs_nonneg ((ts.width : ℚ) / screen.width)
  have asy := abs_nonneg ((ts.height : ℚ) / screen.height)
  have aox := abs_nonneg ((ts.x_offset : ℚ) / screen.width)
  have aoy := abs_nonneg ((ts.y_offset : ℚ) / screen.height)
  generalize hE : (1 + |(ts.width : ℚ) / screen.width| + |(ts.height : ℚ) / screen.height|
    + |(ts.x_offset : ℚ) / screen.width| + |(ts.y_offset : ℚ) / screen.height|) / 2 ^ 21
    = e at *
  have e0 : 0 ≤ e := by
    rw [← hE]
    positivity
  have esx := entry_within _ _ e hsx (by rw [← hE]; norm_num; linarith)
  have esy := entry_within _ _ e hsy (by rw [← hE]; norm_num; linarith)
  have eox := entry_within _ _ e hox (by rw [← hE]; norm_num; linarith)
  have eoy := entry_within _ _ e hoy (by rw [← hE]; norm_num; linarith)
  have etx := le_trans htx (show _ ≤ e by rw [← hE]; norm_num; linarith)
  have ety := le_trans hty (show _ ≤ e by rw [← hE]; norm_num; linarith)
  have ez : |(0 : Flt).toRat - 0| ≤ e := by
    rw [zero_toRat]
    simpa using e0
  rcases hr with h | h | h | h
  · refine ⟨_, by rw [h]; rfl, ?_⟩
    simp only [coefficients, h]
    exact ⟨esx.1, ez, eox.1, ez, esy.1, eoy.1⟩
  · refine ⟨_, by rw [h]; rfl, ?_⟩
    simp only [coefficients, h]
    exact ⟨ez, esy.1, eoy.1, esx.2, ez, etx⟩
  · refine ⟨_, by rw [h]; rfl, ?_⟩
    simp only [coefficients, h]
    exact ⟨esx.2, ez, etx, ez, esy.2, ety⟩
  · refine ⟨_, by rw [h]; rfl, ?_⟩
    simp only [coefficients, h]
    exact ⟨ez, esy.2, ety, esx.1, ez, eox.1⟩

/-- Witness of C1: screen 1920x1080, offset (0,0), size (960,1080), rotation 90
gives exactly (0, 1, 0, -1/2, 0, 1/2), the row of the table. -/
theorem coefficients_near_specTable_witness :
    (coefficients ⟨1920, 1080⟩ ⟨0, 0x1234, 0xabcd, 0, 0, 960, 1080, 90⟩).values
        = ⟨0, 1, 0, -1 / 2, 0, 1 / 2⟩
    ∧ ∃ row : Row,
      specTable (90 : Int) (((960 : Int) : ℚ) / (1920 : Int)) (((1080 : Int) : ℚ) / (1080 : Int))
        (((0 : Int) : ℚ) / (1920 : Int)) (((0 : Int) : ℚ) / (1080 : Int)) = some row
      ∧ Row.Within
          ((1 + |((960 : Int) : ℚ) / (1920 : Int)| + |((1080 : Int) : ℚ) / (1080 : Int)|
            + |((0 : Int) : ℚ) / (1920 : Int)| + |((0 : Int) : ℚ) / (1080 : Int)|) / 2 ^ 21)
          (coefficients ⟨1920, 1080⟩ ⟨0, 0x1234, 0xabcd, 0, 0, 960, 1080, 90⟩).values row :=
  ⟨by decide!,
    coefficients_near_specTable ⟨1920, 1080⟩ ⟨0, 0x1234, 0xabcd, 0, 0, 960, 1080, 90⟩
      (by decide) (by decide) (by decide)⟩

/-- C2 (the code at the failing input): for a touchscreen covering the whole
1920x1080 screen and rotated by 180 degrees the computed transform is
`(-1, 0, 0, 0, -1, 0)`, written as
`-1.000000 0.000000 0.000000 0.000000 -1.000000 0.000000`, which sends the
touch point (1, 1) to (-1, -1), outside the unit square. -/
theorem full_screen_rotated_leaves_unit_square :
    coefficients ⟨1920, 1080⟩
      { name := 0, vendor_id := 0x1234, product_id := 0xabcd, x_offset := 0, y_offset := 0,
        width := 1920, height := 1080, rotation := 180 } = ⟨-1, 0, 0, 0, -1, 0⟩
    ∧ matrixText (coefficients ⟨1920, 1080⟩
      { name := 0, vendor_id := 0x1234, product_id := 0xabcd, x_offset := 0, y_offset := 0,
        width := 1920, height := 1080, rotation := 180 })
        = "-1.000000 0.000000 0.000000 0.000000 -1.000000 0.000000".toList
    ∧ applyMatrix (coefficients ⟨1920, 1080⟩
      { name := 0, vendor_id := 0x1234, product_id := 0xabcd, x_offset := 0, y_offset := 0,
        width := 1920, height := 1080, rotation := 180 }) (1, 1) = (-1, -1) := by
  decide!

/-- The quotient of a positive `int` by itself is the `float` 1, and the
quotient of 0 by it is the positive zero. -/
theorem div_self_ofInt (z : Int) (hz : 0 < z) :
    Flt.div (Flt.ofInt z) (Flt.ofInt z) = 1 ∧ Flt.div (Flt.ofInt 0) (Flt.ofInt z) = 0 := by
  have hq : (0 : ℚ) < |(z : ℚ)| := abs_pos.2 (by exact_mod_cast ne_of_gt hz)
  have hm := roundMag_pos 24 (by norm_num) _ hq
  have h1 : roundMag 24 1 = 1 := by decide!
  have hn : decide (z < 0) = false := by simpa using le_of_lt hz
  constructor
  · show (⟨xor (decide (z < 0)) (decide (z < 0)),
      roundMag 24 (roundMag 24 |(z : ℚ)| / roundMag 24 |(z : ℚ)|)⟩ : Flt) = ⟨false, 1⟩
    rw [div_self (ne_of_gt hm), h1, hn]
    rfl
  · show (⟨xor (decide ((0 : Int) < 0)) (decide (z < 0)),
      roundMag 24 (roundMag 24 |((0 : Int) : ℚ)| / roundMag 24 |(z : ℚ)|)⟩ : Flt) = ⟨false, 0⟩
    rw [hn]
    simp [roundMag_zero]

/-- C3 (as stated, refuted): on a screen of negative width the quotient
`0 / W` is the negative zero. With `-s -1920x1080` and a touchscreen of size
(-1920, 1080) at offset (0, 0) the coefficients are not (1, 0, 0, 0, 1, 0) and
the rule line carries `1.000000 0.000000 -0.000000 0.000000 1.000000 0.000000`. -/
theorem identity_negative_zero :
    coefficients ⟨-1920, 1080⟩ ⟨0, 0x1234, 0xabcd, 0, 0, -1920, 1080, 0⟩ ≠ ⟨1, 0, 0, 0, 1, 0⟩
    ∧ matrixText (coefficients ⟨-1920, 1080⟩ ⟨0, 0x1234, 0xabcd, 0, 0, -1920, 1080, 0⟩)
        = "1.000000 0.000000 -0.000000 0.000000 1.000000 0.000000".toList
    ∧ main (words ["calibrate", "-s", "-1920x1080", "-t", "1234", "abcd", "0", "0", "-1920",
        "1080"]) false
      = .exit 0 [headerLine, ruleLine ⟨-1920, 1080⟩ ⟨0, 0x1234, 0xabcd, 0, 0, -1920, 1080, 0⟩]
          [] ⟨⟨-1920, 1080⟩, [⟨0, 0x1234, 0xabcd, 0, 0, -1920, 1080, 0⟩], 2⟩ :=
  ⟨by decide!, by decide!, rfl⟩

/-- C3 (amended): on a screen of positive width and height, a touchscreen with
rotation 0, offsets 0 and the size of the screen gets the coefficients
(1, 0, 0, 0, 1, 0), and its rule line carries them as
`1.000000 0.000000 0.000000 0.000000 1.000000 0.000000`. -/
theorem identity_rule_line_positive (screen : Screen) (ts : Touchscreen)
    (hw : 0 < screen.width) (hh : 0 < screen.height) (hr : ts.rotation = 0)
    (hx : ts.x_offset = 0) (hy : ts.y_offset = 0)
    (hwidth : ts.width = screen.width) (hheight : ts.height = screen.height) :
    coefficients screen ts = ⟨1, 0, 0, 0, 1, 0⟩
    ∧ matrixText (coefficients screen ts)
        = "1.000000 0.000000 0.000000 0.000000 1.000000 0.000000".toList
    ∧ ruleLine screen ts
        = "SUBSYSTEM==\"input\", KERNEL==\"event*\", ATTRS\x7bidVendor\x7d==\"".toList
          ++ fmt04x ts.vendor_id ++ "\", ATTRS\x7bidProduct\x7d==\"".toList
          ++ fmt04x ts.product_id
          ++ ("\", ENV\x7bLIBINPUT_CALIBRATION_MATRIX\x7d=\"".toList
          ++ "1.000000 0.000000 0.000000 0.000000 1.000000 0.000000 0 0 1\"".toList) := by
  have hc : coefficients screen ts = ⟨1, 0, 0, 0, 1, 0⟩ := by
    simp only [coefficients, hr, hx, hy, hwidth, hheight, (div_self_ofInt _ hw).1,
      (div_self_ofInt _ hw).2, (div_self_ofInt _ hh).1, (div_self_ofInt _ hh).2]
    rfl
  have hm : matrixText (coefficients screen ts)
      = "1.000000 0.000000 0.000000 0.000000 1.000000 0.000000".toList := by
    rw [hc]
    decide!
  refine ⟨hc, hm, ?_⟩
  simp only [ruleLine, hm, List.append_assoc]
  rfl

/-- Witness of C3: a 1920x1080 screen and a touchscreen covering it. -/
theorem identity_rule_line_positive_witness :
    matrixText (coefficients ⟨1920, 1080⟩
      { name := 0, vendor_id := 0x1234, product_id := 0xabcd, x_offset := 0, y_offset := 0,
        width := 1920, height := 1080, rotation := 0 })
      = "1.000000 0.000000 0.000000 0.000000 1.000000 0.000000".toList :=
  (identity_rule_line_positive ⟨1920, 1080⟩
    { name := 0, vendor_id := 0x1234, product_id := 0xabcd, x_offset := 0, y_offset := 0,
      width := 1920, height := 1080, rotation := 0 }
    (by decide) (by decide) rfl rfl rfl rfl rfl).2.1

/-! ## Repeated screen options -/

/-- When `sscanf` stores both values, the screen it leaves does not depend on
the screen before the call. -/
theorem sscanf_dxd_overwrites (b : CStr) (sc1 sc2 : Screen)
    (h : (sscanf_dxd b sc1).1 = 2) : (sscanf_dxd b sc1).2 = (sscanf_dxd b sc2).2 := by
  cases hs : scanInt b with
  | none =>
    simp only [sscanf_dxd, hs] at h
    split_ifs at h
    all_goals simp at h
  | some p =>
    obtain ⟨w, r1⟩ := p
    cases r1 with
    | nil => simp [sscanf_dxd, hs] at h
    | cons c r2 =>
      by_cases hc : c = 'x'
      · subst hc
        cases hs2 : scanInt r2 with
        | none => simp [sscanf_dxd, hs, hs2] at h
        | some q => simp only [sscanf_dxd, hs, hs2, if_true]
      · simp [sscanf_dxd, hs, hc] at h

/-- An accepted screen argument determines the screen it leaves: the result
does not depend on the screen before the call. -/
theorem parse_screen_overwrites (b : CStr) (sc1 sc2 : Screen)
    (h : (parse_screen b sc1).1 = 1) : (parse_screen b sc1).2 = (parse_screen b sc2).2 := by
  unfold parse_screen at h ⊢
  by_cases h1 : b = ['1']
  · simp [h1]
  · by_cases h2 : b = ['2']
    · simp [h2]
    · rw [if_neg h1, if_neg h2] at h
      rw [if_neg h1, if_neg h2, if_neg h1, if_neg h2]
      have hs : (sscanf_dxd b sc1).1 = 2 := by
        by_contra hne
        simp [hne] at h
      exact sscanf_dxd_overwrites b sc1 sc2 hs

theorem applyItem_touch_screen (st : State) (sc : Screen) (d : Descriptor) :
    applyItem { st with screen := sc } (.touch d)
      = { applyItem st (.touch d) with screen := sc } := rfl

/-- Before an accepted screen option, the screen in the globals does not
matter for what the options up to it leave. -/
theorem applyItems_screen_irrelevant (long : Bool) (b : CStr)
    (hb : (Item.screen long b).WellFormed) (items : List Item) :
    ∀ (st : State) (sc : Screen),
      applyItems { st with screen := sc } (items ++ [.screen long b])
        = applyItems st (items ++ [.screen long b]) := by
  induction items with
  | nil =>
    intro st sc
    have h := parse_screen_overwrites b sc st.screen
      ((parse_screen_eq_one_iff b sc).2 hb)
    simp only [List.nil_append, applyItems, applyItem]
    rw [h]
  | cons it rest ih =>
    intro st sc
    cases it with
    | screen l v =>
      simp only [List.cons_append, applyItems, applyItem]
      have e1 := ih st (parse_screen v sc).2
      have e2 := ih st (parse_screen v st.screen).2
      exact e1.trans e2.symm
    | touch d =>
      simp only [List.cons_append, applyItems]
      rw [applyItem_touch_screen]
      exact ih (applyItem st (.touch d)) sc

/-- C11: for two screen arguments `a` and `b` that `parse_screen` accepts,
parsing `a` and then `b` leaves the screen exactly as parsing `b` alone does,
whatever the screen was before; and a run whose command line has the option
`-s a` somewhere before the option `-s b` ends exactly as the run on the same
command line without `-s a`. -/
theorem last_screen_wins (a b : CStr) (la lb : Bool)
    (ha : (Item.screen la a).WellFormed) (hb : (Item.screen lb b).WellFormed) :
    (∀ sc sc' : Screen,
      (parse_screen b (parse_screen a sc).2).1 = 1
      ∧ (parse_screen b (parse_screen a sc).2).2 = (parse_screen b sc').2)
    ∧ ∀ (prog : CStr) (items1 items2 items3 : List Item) (posix : Bool),
        (∀ it ∈ items1 ++ items2 ++ items3, it.WellFormed) →
        main (commandLine prog (items1 ++ .screen la a :: (items2 ++ .screen lb b :: items3)))
            posix
          = main (commandLine prog (items1 ++ (items2 ++ .screen lb b :: items3))) posix := by
  constructor
  · intro sc sc'
    have h1 := (parse_screen_eq_one_iff b (parse_screen a sc).2).2 hb
    exact ⟨h1, parse_screen_overwrites b _ sc' h1⟩
  · intro prog items1 items2 items3 posix hwf
    have hw1 : ∀ it ∈ items1 ++ .screen la a :: (items2 ++ .screen lb b :: items3),
        it.WellFormed := by
      intro it hit
      simp only [List.mem_append, List.mem_cons] at hit
      rcases hit with h | rfl | h | rfl | h
      · exact hwf it (by simp [h])
      · exact ha
      · exact hwf it (by simp [h])
      · exact hb
      · exact hwf it (by simp [h])
    have hw2 : ∀ it ∈ items1 ++ (items2 ++ .screen lb b :: items3), it.WellFormed := by
      intro it hit
      simp only [List.mem_append, List.mem_cons] at hit
      rcases hit with h | h | rfl | h
      · exact hwf it (by simp [h])
      · exact hwf it (by simp [h])
      · exact hb
      · exact hwf it (by simp [h])
    rw [main_commandLine prog _ posix hw1, main_commandLine prog _ posix hw2]
    congr 1
    have e1 : items1 ++ .screen la a :: (items2 ++ .screen lb b :: items3)
        = items1 ++ ([.screen la a] ++ ((items2 ++ [.screen lb b]) ++ items3)) := by simp
    have e2 : items1 ++ (items2 ++ .screen lb b :: items3)
        = items1 ++ ((items2 ++ [.screen lb b]) ++ items3) := by simp
    have key : applyItems (applyItems (applyItems State.init items1) [.screen la a])
          (items2 ++ [.screen lb b])
        = applyItems (applyItems State.init items1) (items2 ++ [.screen lb b]) :=
      applyItems_screen_irrelevant lb b hb items2 (applyItems State.init items1)
        (parse_screen a (applyItems State.init items1).screen).2
    rw [e1, e2, applyItems_append _ items1, applyItems_append _ items1,
      applyItems_append _ [Item.screen la a],
      applyItems_append _ (items2 ++ [Item.screen lb b]),
      applyItems_append _ (items2 ++ [Item.screen lb b]), key]

/-- Witness of C11: `-s 1 -s 2` before a descriptor, and `-s 2` alone. -/
theorem last_screen_wins_witness :
    parse_screen "2".toList (parse_screen "1".toList ⟨0, 0⟩).2 = (1, ⟨1280, 800⟩)
    ∧ main (words ["calibrate", "-s", "1", "-s", "2", "-t", "1234", "abcd", "0", "0", "640",
        "800"]) false
      = main (words ["calibrate", "-s", "2", "-t", "1234", "abcd", "0", "0", "640", "800"])
          false :=
  ⟨rfl,
   (last_screen_wins "1".toList "2".toList false false (Or.inl rfl) (Or.inr (Or.inl rfl))).2
     "calibrate".toList [] []
     [.touch ⟨false, "1234".toList, "abcd".toList, "0".toList, "0".toList, "640".toList,
       "800".toList, none⟩] false
     (by
       intro it hit
       simp only [List.nil_append, List.mem_singleton] at hit
       subst hit
       exact True.intro)⟩


/-! ## What a run can end with -/

/-- A record appended by `case 't'`: the globals after it are those before
with one more record, whose rotation is 0, 90, 180 or 270. -/
theorem caseT_inr_state (argv : List CStr) (o o1 : Nat) (st st1 : State)
    (h : caseT argv o st = .inr (o1, st1)) :
    ∃ ts : Touchscreen,
      st1 = { st with
        touchscreens := st.touchscreens ++ [ts]
        ts_capacity := grownCapacity st.touchscreens.length st.ts_capacity }
      ∧ ValidRotation ts.rotation := by
  rw [caseT_eq] at h
  by_cases h1 : o + 6 - 1 ≥ argv.length
  · rw [if_pos h1] at h
    exact Sum.noConfusion h
  · rw [if_neg h1] at h
    cases hb : (decide (o + 6 < argv.length) && startsWithDigit (arg argv (o + 6)))
    · simp only [hb, Bool.false_eq_true, false_and, if_false] at h
      have h2 := (Prod.mk.inj (Sum.inr.inj h)).2
      exact ⟨_, h2.symm, Or.inl rfl⟩
    · simp only [hb, true_and, if_true] at h
      by_cases hv : atoi (arg argv (o + 6)) ≠ 0 ∧ atoi (arg argv (o + 6)) ≠ 90
          ∧ atoi (arg argv (o + 6)) ≠ 180 ∧ atoi (arg argv (o + 6)) ≠ 270
      · rw [if_pos hv] at h
        exact Sum.noConfusion h
      · rw [if_neg hv] at h
        have h2 := (Prod.mk.inj (Sum.inr.inj h)).2
        refine ⟨_, h2.symm, ?_⟩
        show ValidRotation (atoi (arg argv (o + 6)))
        unfold ValidRotation
        by_contra hn
        apply hv
        refine ⟨fun e => hn (Or.inl e), fun e => hn (Or.inr (Or.inl e)),
          fun e => hn (Or.inr (Or.inr (Or.inl e))), fun e => hn (Or.inr (Or.inr (Or.inr e)))⟩

theorem screenUsed_ne_zero (sc : Screen) :
    (screenUsed sc).width ≠ 0 ∧ (screenUsed sc).height ≠ 0 := by
  unfold screenUsed
  by_cases h : sc.width = 0 ∨ sc.height = 0
  · rw [if_pos h]
    exact ⟨by decide, by decide⟩
  · rw [if_neg h]
    exact ⟨fun e => h (Or.inl e), fun e => h (Or.inr e)⟩

/-- Every way the option loop can return: with exit code 0 after the output
stage, run against a screen of non-zero width and height; with exit code 1 and
nothing on the standard output; or with the usage text alone on the standard
output. A property of the globals that screen options and appended records
keep holds at the end. -/
theorem mainLoop_exit (argv : List CStr) (posix : Bool) (P : State → Prop)
    (hscreen : ∀ (st : State) (sc : Screen), P st → P { st with screen := sc })
    (htouch : ∀ (o o1 : Nat) (st st1 : State), P st → caseT argv o st = .inr (o1, st1) → P st1) :
    ∀ (fuel : Nat) (g : GetoptState) (st : State), P st →
      ∀ (code : Int) (out : List CStr) (err : List Diag) (st1 : State),
        mainLoop argv posix fuel g st = .exit code out err st1 →
        P st1 ∧ (code = 0 ∨ code = 1)
        ∧ ((code = 0 ∧ out = headerLine :: st1.touchscreens.map (ruleLine st1.screen)
              ∧ st1.screen.width ≠ 0 ∧ st1.screen.height ≠ 0)
          ∨ (code = 1 ∧ out = [])
          ∨ out = print_usage (arg argv 0)) := by
  intro fuel
  induction fuel with
  | zero =>
    intro g st _ code out err st1 h
    exact Outcome.noConfusion h
  | succ f ih =>
    intro g st hP code out err st1 h
    rw [mainLoop_succ] at h
    cases hgo : getopt_long argv posix g with
    | mk r g1 =>
      rw [hgo] at h
      cases r with
      | fault => exact Outcome.noConfusion h
      | done =>
        simp only [finish_eq] at h
        injection h with hc ho he hs
        subst hc ho hs
        have hz := screenUsed_ne_zero st.screen
        exact ⟨hscreen st _ hP, Or.inl rfl, Or.inl ⟨rfl, rfl, hz.1, hz.2⟩⟩
      | opt c oa =>
        simp only at h
        split_ifs at h with h1 h2 h3
        · injection h with hc ho he hs
          subst hc ho hs
          exact ⟨hP, Or.inl rfl, Or.inr (Or.inr rfl)⟩
        · cases oa with
          | none => exact Outcome.noConfusion h
          | some a =>
            simp only at h
            split_ifs at h with h4
            · injection h with hc ho he hs
              subst hc ho hs
              exact ⟨hscreen st _ hP, Or.inr rfl, Or.inr (Or.inl ⟨rfl, rfl⟩)⟩
            · exact ih _ _ (hscreen st _ hP) code out err st1 h
        · cases hct : caseT argv g1.optind st with
          | inl o =>
            rw [hct] at h
            simp only at h
            rcases caseT_cases argv g1.optind st with h4 | ⟨r, h4⟩ | ⟨k, st2, h4⟩
            · rw [h4] at hct
              rw [← Sum.inl.inj hct] at h
              injection h with hc ho he hs
              subst hc ho hs
              exact ⟨hP, Or.inr rfl, Or.inr (Or.inl ⟨rfl, rfl⟩)⟩
            · rw [h4] at hct
              rw [← Sum.inl.inj hct] at h
              injection h with hc ho he hs
              subst hc ho hs
              exact ⟨hP, Or.inr rfl, Or.inr (Or.inl ⟨rfl, rfl⟩)⟩
            · rw [h4] at hct
              exact Sum.noConfusion hct
          | inr p =>
            obtain ⟨o1, st2⟩ := p
            rw [hct] at h
            exact ih _ _ (htouch _ _ _ _ hP hct) code out err st1 h
        · injection h with hc ho he hs
          subst hc ho hs
          exact ⟨hP, Or.inr rfl, Or.inr (Or.inr rfl)⟩


theorem print_usage_heads (prog : CStr) :
    ∀ l ∈ print_usage prog, l.head? ≠ some '#' ∧ l.head? ≠ some 'S' := by
  intro l hl
  unfold print_usage at hl
  simp only [List.mem_cons, List.mem_singleton, List.not_mem_nil, or_false] at hl
  rcases hl with rfl | rfl | rfl | rfl | rfl | rfl | rfl | rfl | rfl | rfl | rfl | rfl | rfl
    | rfl | rfl | rfl | rfl
  all_goals first
    | decide
    | exact ⟨by simp, by simp⟩

/-- The usage text holds neither the header line nor a rule line. -/
theorem print_usage_no_rules (prog : CStr) :
    headerLine ∉ print_usage prog ∧ ∀ sc ts, ruleLine sc ts ∉ print_usage prog := by
  constructor
  · intro h
    exact (print_usage_heads prog _ h).1 (by decide)
  · intro sc ts h
    exact (print_usage_heads prog _ h).2 (by simp [ruleLine])

/-- Every return of `main` has exit code 0 or 1, and with exit code 1 the
standard output holds neither the header line nor a rule line. -/
theorem main_exit_codes (argv : List CStr) (posix : Bool) (code : Int) (out : List CStr)
    (err : List Diag) (st : State) (h : main argv posix = .exit code out err st) :
    (code = 0 ∨ code = 1)
    ∧ (code = 1 → headerLine ∉ out ∧ ∀ sc ts, ruleLine sc ts ∉ out) := by
  obtain ⟨_, hc, ho⟩ := mainLoop_exit argv posix (fun _ => True) (fun _ _ _ => True.intro)
    (fun _ _ _ _ _ _ => True.intro) _ _ _ True.intro code out err st h
  refine ⟨hc, fun h1 => ?_⟩
  rcases ho with ⟨h0, _⟩ | ⟨_, rfl⟩ | rfl
  · rw [h0] at h1
    exact absurd h1 (by decide)
  · exact ⟨by simp, fun _ _ => by simp⟩
  · exact print_usage_no_rules _

/-- C12 (the code at the failing input): in `-ts 1 2 3 4 5` the letter `t` is
handled with `optind` still at the element `-ts`; `main` then moves `optind`
to the end of `argv`, and `getopt_long`, going on with the letter `s`, steps
past the end and takes the argument of `-s` from beyond `argv`: the run has no
defined exit code. -/
theorem clustered_screen_flag_reads_past_argv :
    main (words ["calibrate", "-ts", "1", "2", "3", "4", "5"]) false = .fault := by
  decide


/-! ## Help -/

theorem validRotation_append (st : State) (ts : Touchscreen)
    (h : ∀ t ∈ st.touchscreens, ValidRotation t.rotation) (hts : ValidRotation ts.rotation) :
    ∀ t ∈ st.touchscreens ++ [ts], ValidRotation t.rotation := by
  intro t ht
  rcases List.mem_append.1 ht with h1 | h1
  · exact h t h1
  · rw [List.mem_singleton.1 h1]
    exact hts

/-- C16: in every state the option loop reaches, and in the globals at every
return of `main`, each record of the collection has rotation 0, 90, 180 or
270; so a record that takes none of the branches 90, 180, 270 of the switch of
the output loop has rotation 0. -/
theorem rotations_valid (argv : List CStr) (posix : Bool) :
    (∀ (g : GetoptState) (st : State), Reaches argv posix g st →
      ∀ ts ∈ st.touchscreens, ValidRotation ts.rotation)
    ∧ (∀ (code : Int) (out : List CStr) (err : List Diag) (st : State),
        main argv posix = .exit code out err st →
        ∀ ts ∈ st.touchscreens, ValidRotation ts.rotation
          ∧ (ts.rotation ≠ 90 → ts.rotation ≠ 180 → ts.rotation ≠ 270 → ts.rotation = 0)) := by
  have htouch : ∀ (o o1 : Nat) (st st1 : State),
      (∀ ts ∈ st.touchscreens, ValidRotation ts.rotation) →
      caseT argv o st = .inr (o1, st1) → ∀ ts ∈ st1.touchscreens, ValidRotation ts.rotation := by
    intro o o1 st st1 hP hct
    obtain ⟨ts, rfl, hv⟩ := caseT_inr_state argv o o1 st st1 hct
    exact validRotation_append st ts hP hv
  constructor
  · intro g st h
    induction h with
    | start => intro ts hts; simp [State.init] at hts
    | screen _ _ _ ih => exact ih
    | touch _ _ hct ih => exact htouch _ _ _ _ ih hct
  · intro code out err st h ts hts
    have hP := (mainLoop_exit argv posix
      (fun s => ∀ ts ∈ s.touchscreens, ValidRotation ts.rotation)
      (fun _ _ hs => hs) htouch _ _ State.init
      (by intro ts hts; simp [State.init] at hts) code out err st h).1
    refine ⟨hP ts hts, fun h1 h2 h3 => ?_⟩
    rcases hP ts hts with h0 | h0 | h0 | h0
    · exact h0
    · exact absurd h0 h1
    · exact absurd h0 h2
    · exact absurd h0 h3

/-- Witness of C16: the record of a descriptor with rotation 90. -/
theorem rotations_valid_witness :
    ValidRotation (⟨0, 0x1234, 0xabcd, 0, 0, 960, 1080, 90⟩ : Touchscreen).rotation :=
  ((rotations_valid (words ["calibrate", "-t", "1234", "abcd", "0", "0", "960", "1080", "90"])
      false).2 0
    [headerLine, ruleLine ⟨1920, 1080⟩ ⟨0, 0x1234, 0xabcd, 0, 0, 960, 1080, 90⟩]
    [Diag.noScreen] ⟨⟨1920, 1080⟩, [⟨0, 0x1234, 0xabcd, 0, 0, 960, 1080, 90⟩], 2⟩ rfl
    ⟨0, 0x1234, 0xabcd, 0, 0, 960, 1080, 90⟩ (List.mem_singleton.2 rfl)).1

/-! ## Screen of the output stage -/

/-- C19: whenever a run reaches the output stage (its standard output holds
the header line), the screen in the globals has non-zero width and height and
the rule lines are computed against it, so the four divisions have a non-zero
divisor; a screen with a zero width or height (never set, or parsed so) has
been replaced by 1920x1080. -/
theorem output_screen_nonzero (argv : List CStr) (posix : Bool) (code : Int)
    (out : List CStr) (err : List Diag) (st : State)
    (h : main argv posix = .exit code out err st) (hout : headerLine ∈ out) :
    st.screen.width ≠ 0 ∧ st.screen.height ≠ 0
    ∧ out = headerLine :: st.touchscreens.map (ruleLine st.screen)
    ∧ (∀ sc : Screen, (screenUsed sc).width ≠ 0 ∧ (screenUsed sc).height ≠ 0
        ∧ (sc.width = 0 ∨ sc.height = 0 → screenUsed sc = ⟨1920, 1080⟩)
        ∧ finish { st with screen := sc }
            = .exit 0 (headerLine :: st.touchscreens.map (ruleLine (screenUsed sc)))
                (if sc.width = 0 ∨ sc.height = 0 then [Diag.noScreen] else [])
                { st with screen := screenUsed sc }) := by
  obtain ⟨_, _, ho⟩ := mainLoop_exit argv posix (fun _ => True) (fun _ _ _ => True.intro)
    (fun _ _ _ _ _ _ => True.intro) _ _ _ True.intro code out err st h
  have hsc : ∀ sc : Screen, (screenUsed sc).width ≠ 0 ∧ (screenUsed sc).height ≠ 0
      ∧ (sc.width = 0 ∨ sc.height = 0 → screenUsed sc = ⟨1920, 1080⟩)
      ∧ finish { st with screen := sc }
          = .exit 0 (headerLine :: st.touchscreens.map (ruleLine (screenUsed sc)))
              (if sc.width = 0 ∨ sc.height = 0 then [Diag.noScreen] else [])
              { st with screen := screenUsed sc } := by
    intro sc
    refine ⟨(screenUsed_ne_zero sc).1, (screenUsed_ne_zero sc).2, ?_, ?_⟩
    · intro hz
      unfold screenUsed
      rw [if_pos hz]
    · rw [finish_eq]
  rcases ho with ⟨_, h1, h2, h3⟩ | ⟨_, rfl⟩ | rfl
  · exact ⟨h2, h3, h1, hsc⟩
  · simp at hout
  · exact absurd hout (print_usage_no_rules _).1

/-- Witness of C19: a screen parsed with width 0 is replaced by 1920x1080. -/
theorem output_screen_nonzero_witness :
    main (words ["calibrate", "-s", "0x600", "-t", "1234", "abcd", "0", "0", "960", "1080"])
        false
      = .exit 0 [headerLine, ruleLine ⟨1920, 1080⟩ ⟨0, 0x1234, 0xabcd, 0, 0, 960, 1080, 0⟩]
          [Diag.noScreen] ⟨⟨1920, 1080⟩, [⟨0, 0x1234, 0xabcd, 0, 0, 960, 1080, 0⟩], 2⟩
    ∧ (⟨1920, 1080⟩ : Screen).width ≠ 0 ∧ (⟨1920, 1080⟩ : Screen).height ≠ 0 :=
  ⟨rfl,
   (output_screen_nonzero
      (words ["calibrate", "-s", "0x600", "-t", "1234", "abcd", "0", "0", "960", "1080"])
      false 0 [headerLine, ruleLine ⟨1920, 1080⟩ ⟨0, 0x1234, 0xabcd, 0, 0, 960, 1080, 0⟩]
      [Diag.noScreen] ⟨⟨1920, 1080⟩, [⟨0, 0x1234, 0xabcd, 0, 0, 960, 1080, 0⟩], 2⟩ rfl
      (List.mem_cons_self _ _)).1,
   (output_screen_nonzero
      (words ["calibrate", "-s", "0x600", "-t", "1234", "abcd", "0", "0", "960", "1080"])
      false 0 [headerLine, ruleLine ⟨1920, 1080⟩ ⟨0, 0x1234, 0xabcd, 0, 0, 960, 1080, 0⟩]
      [Diag.noScreen] ⟨⟨1920, 1080⟩, [⟨0, 0x1234, 0xabcd, 0, 0, 960, 1080, 0⟩], 2⟩ rfl
      (List.mem_cons_self _ _)).2.1⟩


/-! ## Hexadecimal identifiers -/

theorem toDigitsCore_append_base (b fuel : Nat) :
    ∀ (n : Nat) (ds : CStr),
      Nat.toDigitsCore b fuel n ds = Nat.toDigitsCore b fuel n [] ++ ds := by
  induction fuel with
  | zero => intro n ds; rfl
  | succ f ih =>
    intro n ds
    simp only [Nat.toDigitsCore]
    by_cases h0 : n / b = 0
    · simp [h0]
    · rw [if_neg h0, if_neg h0, ih _ (_ :: ds), ih _ [_]]
      simp

/-- With enough of it, the budget of `Nat.toDigitsCore` does not matter. -/
theorem toDigitsCore_fuel (b : Nat) (hb : 2 ≤ b) (f : Nat) :
    ∀ (f1 n : Nat) (ds : CStr), n < f → n < f1 →
      Nat.toDigitsCore b f n ds = Nat.toDigitsCore b f1 n ds := by
  induction f with
  | zero => intro f1 n ds h; omega
  | succ f ih =>
    intro f1 n ds h h1
    obtain ⟨f2, rfl⟩ : ∃ f2, f1 = f2 + 1 := ⟨f1 - 1, by omega⟩
    simp only [Nat.toDigitsCore]
    by_cases h0 : n / b = 0
    · simp [h0]
    · rw [if_neg h0, if_neg h0]
      have hlt : n / b < n := by
        have hpos : 0 < n := by
          rcases Nat.eq_zero_or_pos n with hz | hz
          · rw [hz, Nat.zero_div] at h0
            exact absurd rfl h0
          · exact hz
        exact Nat.div_lt_self hpos (by omega)
      exact ih f2 (n / b) _ (by omega) (by omega)

/-- The digits of a number: those of the quotient, then the last one. -/
theorem toDigits_step (b : Nat) (hb : 2 ≤ b) (n : Nat) :
    Nat.toDigits b n =
      if n / b = 0 then [Nat.digitChar (n % b)]
      else Nat.toDigits b (n / b) ++ [Nat.digitChar (n % b)] := by
  have hL : Nat.toDigits b n =
      if n / b = 0 then [Nat.digitChar (n % b)]
      else Nat.toDigitsCore b n (n / b) [Nat.digitChar (n % b)] := by
    show Nat.toDigitsCore b (n + 1) n [] = _
    simp only [Nat.toDigitsCore]
  rw [hL]
  by_cases h0 : n / b = 0
  · rw [if_pos h0, if_pos h0]
  · rw [if_neg h0, if_neg h0, toDigitsCore_append_base]
    have hlt : n / b < n := by
      have hpos : 0 < n := by
        rcases Nat.eq_zero_or_pos n with hz | hz
        · rw [hz, Nat.zero_div] at h0
          exact absurd rfl h0
        · exact hz
      exact Nat.div_lt_self hpos (by omega)
    rw [toDigitsCore_fuel b hb n (n / b + 1) (n / b) [] hlt (Nat.lt_succ_self _)]
    rfl

theorem hexFixed_length (k : Nat) : ∀ n, (hexFixed k n).length = k := by
  induction k with
  | zero => intro n; rfl
  | succ k ih => intro n; simp [hexFixed, ih]

theorem hexFixed_zero (k : Nat) : hexFixed k 0 = List.replicate k '0' := by
  induction k with
  | zero => rfl
  | succ k ih =>
    simp only [hexFixed, Nat.zero_div, Nat.zero_mod, ih]
    rw [List.replicate_succ']
    rfl

theorem padZero_snoc (k : Nat) (xs : CStr) (c : Char) :
    padZero (k + 1) (xs ++ [c]) = padZero k xs ++ [c] := by
  unfold padZero
  simp only [List.length_append, List.length_cons, List.length_nil]
  rw [show k + 1 - (xs.length + (0 + 1)) = k - xs.length by omega, List.append_assoc]

/-- A number below `16 ^ (k + 1)`, written in base 16 and padded with zeros
to `k + 1` places, shows its `k + 1` hexadecimal digits. -/
theorem padZero_toDigits (k : Nat) :
    ∀ n, n < 16 ^ (k + 1) → padZero (k + 1) (Nat.toDigits 16 n) = hexFixed (k + 1) n := by
  induction k with
  | zero =>
    intro n hn
    have h0 : n / 16 = 0 := by omega
    rw [toDigits_step 16 (by decide) n, if_pos h0]
    rfl
  | succ k ih =>
    intro n hn
    rw [toDigits_step 16 (by decide) n]
    by_cases h0 : n / 16 = 0
    · rw [if_pos h0]
      have e : ([Nat.digitChar (n % 16)] : CStr) = [] ++ [Nat.digitChar (n % 16)] := rfl
      rw [e, padZero_snoc]
      show padZero (k + 1) [] ++ _ = hexFixed (k + 1) (n / 16) ++ _
      rw [h0, hexFixed_zero]
      simp [padZero]
    · rw [if_neg h0, padZero_snoc]
      have hq : n / 16 < 16 ^ (k + 1) := by
        rw [pow_succ] at hn
        omega
      rw [ih (n / 16) hq]
      rfl

theorem isLowerHex_digitChar (m : Nat) (h : m < 16) : isLowerHex (Nat.digitChar m) = true := by
  interval_cases m <;> decide

theorem isLowerHex_toDigitsCore (fuel : Nat) :
    ∀ (n : Nat) (ds : CStr), (∀ c ∈ ds, isLowerHex c = true) →
      ∀ c ∈ Nat.toDigitsCore 16 fuel n ds, isLowerHex c = true := by
  induction fuel with
  | zero => intro n ds h; simpa [Nat.toDigitsCore] using h
  | succ f ih =>
    intro n ds h
    have hd := isLowerHex_digitChar (n % 16) (Nat.mod_lt _ (by decide))
    have hds : ∀ c ∈ Nat.digitChar (n % 16) :: ds, isLowerHex c = true := by
      intro c hc
      rcases List.mem_cons.1 hc with rfl | hc
      · exact hd
      · exact h c hc
    simp only [Nat.toDigitsCore]
    by_cases h0 : n / 16 = 0
    · rw [if_pos h0]; exact hds
    · rw [if_neg h0]; exact ih _ _ hds

/-- The conversion `%04x` writes lowercase hexadecimal digits, at least four
of them, and exactly four for a value from 0 to 0xffff. -/
theorem fmt04x_digits (v : Int) :
    4 ≤ (fmt04x v).length ∧ (∀ c ∈ fmt04x v, isLowerHex c = true)
    ∧ (0 ≤ v → v ≤ 65535 → fmt04x v = hexFixed 4 v.toNat ∧ (fmt04x v).length = 4) := by
  refine ⟨?_, ?_, ?_⟩
  · unfold fmt04x padZero
    simp only [List.length_append, List.length_replicate]
    omega
  · intro c hc
    unfold fmt04x padZero at hc
    rcases List.mem_append.1 hc with h | h
    · rw [(List.mem_replicate.1 h).2]
      decide
    · exact isLowerHex_toDigitsCore _ _ [] (by simp) c h
  · intro h0 h1
    have hm : (v % 4294967296).toNat = v.toNat := by omega
    have hlt : v.toNat < 16 ^ (3 + 1) := by
      have : (16 : Nat) ^ (3 + 1) = 65536 := by norm_num
      omega
    have e : fmt04x v = hexFixed 4 v.toNat := by
      unfold fmt04x
      rw [hm]
      exact padZero_toDigits 3 _ hlt
    exact ⟨e, by rw [e, hexFixed_length]⟩


/-- C13 (as stated, refuted): the vendor token `12345` gives a record with
vendor id 0x12345, and its rule line renders it with five digits. -/
theorem wide_vendor_id_rendered_wider :
    main (words ["calibrate", "-t", "12345", "abcd", "0", "0", "960", "1080"]) false
      = .exit 0 [headerLine, ruleLine ⟨1920, 1080⟩ ⟨0, 0x12345, 0xabcd, 0, 0, 960, 1080, 0⟩]
          [Diag.noScreen] ⟨⟨1920, 1080⟩, [⟨0, 0x12345, 0xabcd, 0, 0, 960, 1080, 0⟩], 2⟩
    ∧ fmt04x 0x12345 = "12345".toList
    ∧ (fmt04x 0x12345).length ≠ 4 :=
  ⟨rfl, by decide, by decide⟩

/-- C13 (amended): in the rule line of every record the vendor id and the
product id are each rendered by `%04x` as lowercase hexadecimal digits, at
least four of them, and exactly four when the id is from 0 to 0xffff. -/
theorem ids_rendered_in_hex (sc : Screen) (ts : Touchscreen) :
    ruleLine sc ts
      = "SUBSYSTEM==\"input\", KERNEL==\"event*\", ATTRS\x7bidVendor\x7d==\"".toList
        ++ fmt04x ts.vendor_id ++ "\", ATTRS\x7bidProduct\x7d==\"".toList
        ++ fmt04x ts.product_id ++ "\", ENV\x7bLIBINPUT_CALIBRATION_MATRIX\x7d=\"".toList
        ++ matrixText (coefficients sc ts) ++ " 0 0 1\"".toList
    ∧ (4 ≤ (fmt04x ts.vendor_id).length ∧ ∀ c ∈ fmt04x ts.vendor_id, isLowerHex c = true)
    ∧ (4 ≤ (fmt04x ts.product_id).length ∧ ∀ c ∈ fmt04x ts.product_id, isLowerHex c = true)
    ∧ (0 ≤ ts.vendor_id → ts.vendor_id ≤ 65535 → (fmt04x ts.vendor_id).length = 4)
    ∧ (0 ≤ ts.product_id → ts.product_id ≤ 65535 → (fmt04x ts.product_id).length = 4) :=
  ⟨rfl, ⟨(fmt04x_digits _).1, (fmt04x_digits _).2.1⟩,
    ⟨(fmt04x_digits _).1, (fmt04x_digits _).2.1⟩,
    fun h0 h1 => ((fmt04x_digits _).2.2 h0 h1).2,
    fun h0 h1 => ((fmt04x_digits _).2.2 h0 h1).2⟩

/-- Witness of C13: the ids 0x1234 and 0xabcd take four digits each. -/
theorem ids_rendered_in_hex_witness :
    (fmt04x 0x1234).length = 4 ∧ (fmt04x 0xabcd).length = 4 :=
  ⟨(ids_rendered_in_hex ⟨1920, 1080⟩ ⟨0, 0x1234, 0xabcd, 0, 0, 960, 1080, 0⟩).2.2.2.1
      (by decide) (by decide),
   (ids_rendered_in_hex ⟨1920, 1080⟩ ⟨0, 0x1234, 0xabcd, 0, 0, 960, 1080, 0⟩).2.2.2.2
      (by decide) (by decide)⟩

/-- What `strtol` in base 16 needs to know of a lowercase hexadecimal digit. -/
theorem lowerHex_facts (c : Char) (h : isLowerHex c = true) :
    ∃ d : Nat, d < 16 ∧ digitVal 16 c = some d ∧ Nat.digitChar d = c
      ∧ isspace c = false ∧ c ≠ '-' ∧ c ≠ '+' ∧ c ≠ 'x' ∧ c ≠ 'X' := by
  have hmem : c ∈ "0123456789abcdef".toList := by
    have hc : c = Char.ofNat c.toNat := (Char.ofNat_toNat c).symm
    simp only [isLowerHex, isdigit, Bool.or_eq_true, Bool.and_eq_true, decide_eq_true_eq] at h
    have h0 : '0'.toNat = 48 := by decide
    have h9 : '9'.toNat = 57 := by decide
    have ha : 'a'.toNat = 97 := by decide
    have hf : 'f'.toNat = 102 := by decide
    rw [h0, h9, ha, hf] at h
    have hn : c.toNat = 48 ∨ c.toNat = 49 ∨ c.toNat = 50 ∨ c.toNat = 51 ∨ c.toNat = 52
        ∨ c.toNat = 53 ∨ c.toNat = 54 ∨ c.toNat = 55 ∨ c.toNat = 56 ∨ c.toNat = 57
        ∨ c.toNat = 97 ∨ c.toNat = 98 ∨ c.toNat = 99 ∨ c.toNat = 100 ∨ c.toNat = 101
        ∨ c.toNat = 102 := by omega
    rcases hn with e | e | e | e | e | e | e | e | e | e | e | e | e | e | e | e
    all_goals (rw [hc, e]; decide)
  simp only [String.toList, List.mem_cons, List.mem_singleton, List.not_mem_nil, or_false]
    at hmem
  rcases hmem with rfl | rfl | rfl | rfl | rfl | rfl | rfl | rfl | rfl | rfl | rfl | rfl | rfl
    | rfl | rfl | rfl
  · exact ⟨0, by decide⟩
  · exact ⟨1, by decide⟩
  · exact ⟨2, by decide⟩
  · exact ⟨3, by decide⟩
  · exact ⟨4, by decide⟩
  · exact ⟨5, by decide⟩
  · exact ⟨6, by decide⟩
  · exact ⟨7, by decide⟩
  · exact ⟨8, by decide⟩
  · exact ⟨9, by decide⟩
  · exact ⟨10, by decide⟩
  · exact ⟨11, by decide⟩
  · exact ⟨12, by decide⟩
  · exact ⟨13, by decide⟩
  · exact ⟨14, by decide⟩
  · exact ⟨15, by decide⟩


/-- Four lowercase hexadecimal digits, with or without `0x` before them, are
read by `strtol` in base 16 and written back by `%04x` as they were. -/
theorem fmt04x_strtol_hex4 (c0 c1 c2 c3 : Char) (pre : Bool)
    (h0 : isLowerHex c0 = true) (h1 : isLowerHex c1 = true) (h2 : isLowerHex c2 = true)
    (h3 : isLowerHex c3 = true) :
    fmt04x (toInt32 (strtol ((if pre then "0x".toList else []) ++ [c0, c1, c2, c3]) 16))
      = [c0, c1, c2, c3] := by
  obtain ⟨d0, hd0, hv0, hc0, hs0, hm0, hp0, hx0, hX0⟩ := lowerHex_facts c0 h0
  obtain ⟨d1, hd1, hv1, hc1, hs1, hm1, hp1, hx1, hX1⟩ := lowerHex_facts c1 h1
  obtain ⟨d2, hd2, hv2, hc2, _⟩ := lowerHex_facts c2 h2
  obtain ⟨d3, hd3, hv3, hc3, _⟩ := lowerHex_facts c3 h3
  have hread : readDigits 16 0 0 [c0, c1, c2, c3]
      = ((((0 * 16 + d0) * 16 + d1) * 16 + d2) * 16 + d3, 4, []) := by
    simp [readDigits, hv0, hv1, hv2, hv3]
  have hstr : strtol ((if pre then "0x".toList else []) ++ [c0, c1, c2, c3]) 16
      = (((((0 * 16 + d0) * 16 + d1) * 16 + d2) * 16 + d3 : Nat) : Int) := by
    have hcl : clampLong (((((0 * 16 + d0) * 16 + d1) * 16 + d2) * 16 + d3 : Nat) : Int)
        = (((((0 * 16 + d0) * 16 + d1) * 16 + d2) * 16 + d3 : Nat) : Int) := by
      unfold clampLong
      rw [if_neg (by omega), if_neg (by omega)]
    cases pre
    · have e : (if false = true then "0x".toList else []) ++ [c0, c1, c2, c3]
          = [c0, c1, c2, c3] := rfl
      have hstrip : stripHexPrefix [c0, c1, c2, c3] = [c0, c1, c2, c3] := by
        simp [stripHexPrefix, hx1, hX1]
      rw [e]
      unfold strtol
      simp only [skipSpace, hs0, Bool.false_eq_true, if_false, readSign, hm0, hp0, if_true,
        hstrip, hread, applySign]
      exact hcl
    · have e : (if true = true then "0x".toList else []) ++ [c0, c1, c2, c3]
          = ['0', 'x', c0, c1, c2, c3] := rfl
      have hsp : isspace '0' = false := by decide
      have hm : ¬ ('0' = '-') := by decide
      have hp : ¬ ('0' = '+') := by decide
      have hstrip : stripHexPrefix ['0', 'x', c0, c1, c2, c3] = [c0, c1, c2, c3] := by
        simp [stripHexPrefix]
      rw [e]
      unfold strtol
      simp only [skipSpace, hsp, Bool.false_eq_true, if_false, readSign, hm, hp, if_true,
        hstrip, hread, applySign]
      exact hcl
  have hti : toInt32 (((((0 * 16 + d0) * 16 + d1) * 16 + d2) * 16 + d3 : Nat) : Int)
      = (((((0 * 16 + d0) * 16 + d1) * 16 + d2) * 16 + d3 : Nat) : Int) := by
    unfold toInt32
    omega
  rw [hstr, hti]
  have hfix := ((fmt04x_digits (((((0 * 16 + d0) * 16 + d1) * 16 + d2) * 16 + d3 : Nat) : Int)).2.2
    (by omega) (by omega)).1
  rw [hfix, Int.toNat_ofNat]
  have e3 : ((((0 * 16 + d0) * 16 + d1) * 16 + d2) * 16 + d3) % 16 = d3 := by omega
  have e2 : ((((0 * 16 + d0) * 16 + d1) * 16 + d2) * 16 + d3) / 16 % 16 = d2 := by omega
  have e1 : ((((0 * 16 + d0) * 16 + d1) * 16 + d2) * 16 + d3) / 16 / 16 % 16 = d1 := by omega
  have e0 : ((((0 * 16 + d0) * 16 + d1) * 16 + d2) * 16 + d3) / 16 / 16 / 16 % 16 = d0 := by
    omega
  simp only [hexFixed, e0, e1, e2, e3, hc0, hc1, hc2, hc3, List.nil_append, List.cons_append]


theorem fmt04x_hexId (tok digits : CStr) (h : IsHexId tok digits) :
    fmt04x (toInt32 (strtol tok 16)) = digits := by
  obtain ⟨hlen, hhex, htok⟩ := h
  match digits, hlen, hhex, htok with
  | [c0, c1, c2, c3], _, hhex, htok =>
    have h0 := hhex c0 (by simp)
    have h1 := hhex c1 (by simp)
    have h2 := hhex c2 (by simp)
    have h3 := hhex c3 (by simp)
    rcases htok with rfl | rfl
    · exact fmt04x_strtol_hex4 c0 c1 c2 c3 false h0 h1 h2 h3
    · exact fmt04x_strtol_hex4 c0 c1 c2 c3 true h0 h1 h2 h3

/-- The rule line of the descriptor number `i` of a command line made of
well-formed options. -/
theorem main_rule_line (prog : CStr) (items : List Item) (posix : Bool) (i : Nat)
    (d : Descriptor) (hwf : ∀ it ∈ items, it.WellFormed)
    (hd : (descriptors items)[i]? = some d) :
    ∃ (out : List CStr) (err : List Diag) (st : State) (sc : Screen),
      main (commandLine prog items) posix = .exit 0 out err st
      ∧ out[i + 1]? = some (ruleLine sc (d.record i)) := by
  have hts := applyItems_touchscreens items State.init
  have hinit : State.init.touchscreens = [] := rfl
  rw [hinit, List.nil_append, List.length_nil] at hts
  refine ⟨_, _, _, screenUsed (applyItems State.init items).screen,
    (main_commandLine prog items posix hwf).trans (finish_eq _), ?_⟩
  rw [List.getElem?_cons_succ, List.getElem?_map, hts, records_getElem? _ 0 i d hd,
    Nat.zero_add]
  rfl

/-- C18: for a descriptor whose vendor token and product token are each four
lowercase hexadecimal digits, with or without `0x` before them, the record
made from it is rendered with those same digits as `idVendor` and `idProduct`,
and so is the rule line that a run on a command line of well-formed options
writes for it. -/
theorem identifiers_round_trip (d : Descriptor) (vs ps : CStr)
    (hv : IsHexId d.vendor vs) (hp : IsHexId d.product ps) :
    (∀ i : Nat, fmt04x (d.record i).vendor_id = vs ∧ fmt04x (d.record i).product_id = ps)
    ∧ (∀ (sc : Screen) (i : Nat), ruleLine sc (d.record i)
        = "SUBSYSTEM==\"input\", KERNEL==\"event*\", ATTRS\x7bidVendor\x7d==\"".toList
          ++ vs ++ "\", ATTRS\x7bidProduct\x7d==\"".toList
          ++ ps ++ "\", ENV\x7bLIBINPUT_CALIBRATION_MATRIX\x7d=\"".toList
          ++ matrixText (coefficients sc (d.record i)) ++ " 0 0 1\"".toList)
    ∧ (∀ (prog : CStr) (items : List Item) (posix : Bool) (i : Nat),
        (∀ it ∈ items, it.WellFormed) → (descriptors items)[i]? = some d →
        ∃ (out : List CStr) (err : List Diag) (st : State) (sc : Screen),
          main (commandLine prog items) posix = .exit 0 out err st
          ∧ out[i + 1]? = some
            ("SUBSYSTEM==\"input\", KERNEL==\"event*\", ATTRS\x7bidVendor\x7d==\"".toList
              ++ vs ++ "\", ATTRS\x7bidProduct\x7d==\"".toList
              ++ ps ++ "\", ENV\x7bLIBINPUT_CALIBRATION_MATRIX\x7d=\"".toList
              ++ matrixText (coefficients sc (d.record i)) ++ " 0 0 1\"".toList)) := by
  have hvs : ∀ i : Nat, fmt04x (d.record i).vendor_id = vs :=
    fun _ => fmt04x_hexId d.vendor vs hv
  have hps : ∀ i : Nat, fmt04x (d.record i).product_id = ps :=
    fun _ => fmt04x_hexId d.product ps hp
  have hline : ∀ (sc : Screen) (i : Nat), ruleLine sc (d.record i)
      = "SUBSYSTEM==\"input\", KERNEL==\"event*\", ATTRS\x7bidVendor\x7d==\"".toList
        ++ vs ++ "\", ATTRS\x7bidProduct\x7d==\"".toList
        ++ ps ++ "\", ENV\x7bLIBINPUT_CALIBRATION_MATRIX\x7d=\"".toList
        ++ matrixText (coefficients sc (d.record i)) ++ " 0 0 1\"".toList := by
    intro sc i
    rw [← hvs i, ← hps i]
    rfl
  refine ⟨fun i => ⟨hvs i, hps i⟩, hline, ?_⟩
  intro prog items posix i hwf hd
  obtain ⟨out, err, st, sc, h1, h2⟩ := main_rule_line prog items posix i d hwf hd
  exact ⟨out, err, st, sc, h1, by rw [h2, hline sc i]⟩

/-- Witness of C18: vendor `0x1234` and product `abcd`. -/
theorem identifiers_round_trip_witness :
    fmt04x (toInt32 (strtol "0x1234".toList 16)) = "1234".toList
    ∧ fmt04x (toInt32 (strtol "abcd".toList 16)) = "abcd".toList :=
  (identifiers_round_trip
    ⟨false, "0x1234".toList, "abcd".toList, "0".toList, "0".toList, "960".toList,
      "1080".toList, none⟩ "1234".toList "abcd".toList
    ⟨rfl, by decide, Or.inr rfl⟩ ⟨rfl, by decide, Or.inl rfl⟩).1 0


/-! ## The optional rotation token -/

/-- C15 (as stated, refuted): the token `90abc` after the six mandatory tokens
is not purely numeric, yet it is consumed as the rotation: the record has
rotation 90 and the run returns 0. -/
theorem rotation_token_with_trailing_text :
    main (words ["calibrate", "-t", "1234", "abcd", "0", "0", "960", "1080", "90abc"]) false
      = .exit 0 [headerLine, ruleLine ⟨1920, 1080⟩ ⟨0, 0x1234, 0xabcd, 0, 0, 960, 1080, 90⟩]
          [Diag.noScreen] ⟨⟨1920, 1080⟩, [⟨0, 0x1234, 0xabcd, 0, 0, 960, 1080, 90⟩], 2⟩
    ∧ ¬ (∀ c ∈ "90abc".toList, isdigit c = true) :=
  ⟨rfl, by decide⟩

/-- C15 (amended): after the six mandatory tokens of a descriptor (from index
`o` on), the following token is interpreted and consumed as the rotation if and
only if it is present and its first character is a decimal digit: the record
then has rotation `atoi` of it and seven tokens are consumed (or the run ends
with the invalid-rotation diagnostic when that value is not 0, 90, 180 or
270); otherwise the record has rotation 0, exactly six tokens are consumed and
the loop goes on at that following token. -/
theorem rotation_token_rule (argv : List CStr) (o : Nat) (st : State)
    (hlen : o + 5 < argv.length) :
    ((o + 6 < argv.length ∧ startsWithDigit (arg argv (o + 6)) = true) →
      (ValidRotation (atoi (arg argv (o + 6))) →
        caseT argv o st
          = .inr (o + 7, (parse_touchscreen_args argv o (atoi (arg argv (o + 6))) st).2))
      ∧ (¬ ValidRotation (atoi (arg argv (o + 6))) →
        caseT argv o st
          = .inl (.exit 1 [] [Diag.invalidRotation (atoi (arg argv (o + 6)))] st)))
    ∧ (¬ (o + 6 < argv.length ∧ startsWithDigit (arg argv (o + 6)) = true) →
        caseT argv o st = .inr (o + 6, (parse_touchscreen_args argv o 0 st).2)
        ∧ ∀ (posix : Bool) (f i : Nat) (long : Bool), o = i + 1 →
            argv[i]? = some (touchFlag long) →
            mainLoop argv posix (f + 1) ⟨i, []⟩ st
              = mainLoop argv posix f ⟨i + 7, []⟩ (parse_touchscreen_args argv o 0 st).2)
    ∧ (∀ r : Int, ∃ ts : Touchscreen,
        (parse_touchscreen_args argv o r st).2.touchscreens = st.touchscreens ++ [ts]
        ∧ ts.rotation = r) := by
  refine ⟨?_, ?_, fun r => ⟨_, rfl, rfl⟩⟩
  · rintro ⟨h6, hd⟩
    constructor
    · intro hv
      exact caseT_rotation argv o st h6 hd hv
    · intro hv
      have hrot : argv[o + 6]? = some (arg argv (o + 6)) := by
        unfold arg
        rw [List.getElem?_eq_getElem h6]
        rfl
      refine caseT_invalid_rotation argv o st _ hrot hd ?_
      exact ⟨fun e => hv (Or.inl e), fun e => hv (Or.inr (Or.inl e)),
        fun e => hv (Or.inr (Or.inr (Or.inl e))), fun e => hv (Or.inr (Or.inr (Or.inr e)))⟩
  · intro hno
    have hct : caseT argv o st = .inr (o + 6, (parse_touchscreen_args argv o 0 st).2) := by
      rw [caseT_eq, if_neg (by omega)]
      have hb : (decide (o + 6 < argv.length) && startsWithDigit (arg argv (o + 6))) = false := by
        by_contra hne
        apply hno
        have ht : (decide (o + 6 < argv.length) && startsWithDigit (arg argv (o + 6))) = true := by
          simpa using hne
        simp only [Bool.and_eq_true, decide_eq_true_eq] at ht
        exact ht
      simp only [hb, Bool.false_eq_true, false_and, if_false]
    refine ⟨hct, ?_⟩
    intro posix f i long ho hflag
    subst ho
    rw [mainLoop_touchFlag argv posix f i long st hflag, hct]

/-- Witness of C15: the token `90` after a descriptor is consumed as rotation. -/
theorem rotation_token_rule_witness :
    caseT (words ["calibrate", "-t", "1234", "abcd", "0", "0", "960", "1080", "90"]) 2
        State.init
      = .inr (9, ⟨⟨0, 0⟩, [⟨0, 0x1234, 0xabcd, 0, 0, 960, 1080, 90⟩], 2⟩) :=
  ((rotation_token_rule
      (words ["calibrate", "-t", "1234", "abcd", "0", "0", "960", "1080", "90"]) 2
      State.init (by decide)).1 ⟨by decide, by decide⟩).1 (Or.inr (Or.inl (by decide)))


/-! ## Rotation and composition -/

/-- For a touchscreen covering the whole 1920x1080 screen the transform
computed for a rotation 90, 180 or 270 leaves the corner (0, 0) where it is,
and every rotation of the unit square, composed with the transform of rotation
0 in either order, moves it. -/
theorem rotated_fixes_origin (r : Int) (hr : r = 90 ∨ r = 180 ∨ r = 270) :
    applyMatrix (coefficients ⟨1920, 1080⟩ ⟨0, 0x1234, 0xabcd, 0, 0, 1920, 1080, r⟩) (0, 0)
      = (0, 0)
    ∧ ∀ R ∈ unitRotations,
        R (scaleOffset ⟨1920, 1080⟩ ⟨0, 0x1234, 0xabcd, 0, 0, 1920, 1080, r⟩ (0, 0)) ≠ (0, 0)
        ∧ scaleOffset ⟨1920, 1080⟩ ⟨0, 0x1234, 0xabcd, 0, 0, 1920, 1080, r⟩ (R (0, 0))
            ≠ (0, 0) := by
  have hM : ∀ p : ℚ × ℚ,
      scaleOffset ⟨1920, 1080⟩ ⟨0, 0x1234, 0xabcd, 0, 0, 1920, 1080, r⟩ p = p := by
    intro p
    simp [scaleOffset]
  constructor
  · rcases hr with rfl | rfl | rfl <;> decide!
  · intro R hR
    simp only [unitRotations, List.mem_cons, List.mem_singleton, List.not_mem_nil, or_false]
      at hR
    rw [hM, hM]
    rcases hR with rfl | rfl | rfl <;> norm_num

theorem not_isComposition_full_screen (r : Int) (hr : r = 90 ∨ r = 180 ∨ r = 270) :
    ¬ IsComposition ⟨1920, 1080⟩ ⟨0, 0x1234, 0xabcd, 0, 0, 1920, 1080, r⟩ := by
  obtain ⟨h0, hR⟩ := rotated_fixes_origin r hr
  rintro ⟨R, hmem, h | h⟩
  · exact (hR R hmem).1 ((h (0, 0)).symm.trans h0)
  · exact (hR R hmem).2 ((h (0, 0)).symm.trans h0)

/-- C17 (the code at the failing input): for a touchscreen covering the whole
1920x1080 screen, where the transform of rotation 0 is the identity, the
transforms computed for the rotations 90, 180 and 270 are `(x, y) -> (y, -x)`,
`(-x, -y)` and `(-y, x)`; none of them is a rotation of the unit square
composed with the transform of rotation 0, in either order. -/
theorem rotated_transform_is_no_composition :
    coefficients ⟨1920, 1080⟩ ⟨0, 0x1234, 0xabcd, 0, 0, 1920, 1080, 90⟩ = ⟨0, 1, 0, -1, 0, 0⟩
    ∧ coefficients ⟨1920, 1080⟩ ⟨0, 0x1234, 0xabcd, 0, 0, 1920, 1080, 180⟩
        = ⟨-1, 0, 0, 0, -1, 0⟩
    ∧ coefficients ⟨1920, 1080⟩ ⟨0, 0x1234, 0xabcd, 0, 0, 1920, 1080, 270⟩
        = ⟨0, -1, 0, 1, 0, 0⟩
    ∧ ¬ IsComposition ⟨1920, 1080⟩ ⟨0, 0x1234, 0xabcd, 0, 0, 1920, 1080, 90⟩
    ∧ ¬ IsComposition ⟨1920, 1080⟩ ⟨0, 0x1234, 0xabcd, 0, 0, 1920, 1080, 180⟩
    ∧ ¬ IsComposition ⟨1920, 1080⟩ ⟨0, 0x1234, 0xabcd, 0, 0, 1920, 1080, 270⟩ := by
  refine ⟨by decide!, by decide!, by decide!,
    not_isComposition_full_screen 90 (Or.inl rfl),
    not_isComposition_full_screen 180 (Or.inr (Or.inl rfl)),
    not_isComposition_full_screen 270 (Or.inr (Or.inr rfl))⟩

/-! ## The growing array -/

theorem capacityInv_step (argv : List CStr) (index : Nat) (rotation : Int) (st : State)
    (h : CapacityInv st) :
    CapacityInv (parse_touchscreen_args argv index rotation st).2
    ∧ st.touchscreens.length < (parse_touchscreen_args argv index rotation st).2.ts_capacity := by
  obtain ⟨hle, hcap⟩ := h
  have hlen : (parse_touchscreen_args argv index rotation st).2.touchscreens.length
      = st.touchscreens.length + 1 := by
    simp [parse_touchscreen_args]
  have hc : (parse_touchscreen_args argv index rotation st).2.ts_capacity
      = grownCapacity st.touchscreens.length st.ts_capacity := rfl
  unfold CapacityInv
  rw [hlen, hc]
  unfold grownCapacity
  rcases hcap with ⟨h0, hnil⟩ | ⟨k, hk⟩
  · have hl : st.touchscreens.length = 0 := by rw [hnil]; rfl
    rw [h0, hl]
    simp only [ge_iff_le, le_refl, if_true]
    exact ⟨⟨by omega, Or.inr ⟨0, by norm_num⟩⟩, by omega⟩
  · have hpos : 0 < 2 ^ k := Nat.pow_pos (by decide)
    by_cases hfull : st.touchscreens.length ≥ st.ts_capacity
    · rw [if_pos hfull, if_neg (by omega)]
      refine ⟨⟨by omega, Or.inr ⟨k + 1, ?_⟩⟩, by omega⟩
      rw [hk, pow_succ]
      ring
    · rw [if_neg hfull]
      exact ⟨⟨by omega, Or.inr ⟨k, hk⟩⟩, by omega⟩

theorem callSeq_inv (calls : List (List CStr × Nat × Int)) :
    ∀ st : State, CapacityInv st →
      CapacityInv (callSeq st calls)
      ∧ (callSeq st calls).touchscreens.length = st.touchscreens.length + calls.length := by
  induction calls with
  | nil => intro st h; exact ⟨h, rfl⟩
  | cons c cs ih =>
    intro st h
    obtain ⟨h1, h2⟩ := ih _ (capacityInv_step c.1 c.2.1 c.2.2 st h).1
    refine ⟨h1, ?_⟩
    rw [callSeq, h2]
    simp only [parse_touchscreen_args, List.length_append, List.length_cons, List.length_nil]
    omega

/-- C20: after every sequence of calls of `parse_touchscreen_args` from the
initial globals (with `realloc` succeeding), `ts_count` is the number of calls
and at most `ts_capacity`, and `ts_capacity` is 0 with no record yet or twice
a power of two; one more call returns 0, raises `ts_count` by exactly 1,
writes the slot at index `ts_count`, which is below the capacity, and leaves
the earlier records as they were. -/
theorem capacity_invariant (calls : List (List CStr × Nat × Int)) (argv : List CStr)
    (index : Nat) (rotation : Int) :
    CapacityInv (callSeq State.init calls)
    ∧ (callSeq State.init calls).touchscreens.length = calls.length
    ∧ (parse_touchscreen_args argv index rotation (callSeq State.init calls)).1 = 0
    ∧ (parse_touchscreen_args argv index rotation (callSeq State.init calls)).2.touchscreens.length
        = (callSeq State.init calls).touchscreens.length + 1
    ∧ (callSeq State.init calls).touchscreens.length
        < (parse_touchscreen_args argv index rotation (callSeq State.init calls)).2.ts_capacity
    ∧ (∃ ts : Touchscreen,
        (parse_touchscreen_args argv index rotation (callSeq State.init calls)).2.touchscreens
          = (callSeq State.init calls).touchscreens ++ [ts])
    ∧ (∀ i : Nat, i < (callSeq State.init calls).touchscreens.length →
        (parse_touchscreen_args argv index rotation
            (callSeq State.init calls)).2.touchscreens[i]?
          = (callSeq State.init calls).touchscreens[i]?)
    ∧ CapacityInv (parse_touchscreen_args argv index rotation (callSeq State.init calls)).2 := by
  have hinit : CapacityInv State.init := ⟨le_refl _, Or.inl ⟨rfl, rfl⟩⟩
  obtain ⟨hinv, hlen⟩ := callSeq_inv calls State.init hinit
  obtain ⟨hstep, hlt⟩ := capacityInv_step argv index rotation _ hinv
  refine ⟨hinv, ?_, rfl, ?_, hlt, ⟨_, rfl⟩, ?_, hstep⟩
  · rw [hlen]
    simp [State.init]
  · simp [parse_touchscreen_args]
  · intro i hi
    show ((callSeq State.init calls).touchscreens ++ [_])[i]? = _
    rw [List.getElem?_append_left hi]


end Calibrate
